import Mathlib

/-!
# Self-chess position engine

A shallow embedding of `src/include/common.hpp`, `src/include/board.hpp` and
`src/src/board.cpp`: pieces, squares, the Zobrist hash, `make_move` and
`unmake_move`, attack detection and the legal move generator, followed by the
theorems about them.

Modelling conventions.

* `Piece` (an `int8_t` enum) is an `Int` code: `0` empty, `1..6` white
  pawn..king, `-1..-6` black pawn..king.
* Every C++ `int` (ranks, files, square indices, directions) is an `Int`.
  `sq >> 3` is `sq / 8`, `sq & 7` is `sq % 8` and `(r << 3) | f` is
  `r * 8 + f` (the three agree whenever `0 ≤ f < 8`, which is the only way
  `idx` is called on an in-range square).
* `std::array<Piece, 64> squares` is a total function `Int → Piece`; only the
  indices `0..63` are meaningful, and the theorems keep every access in range.
* `uint8_t castling_rights`, `uint16_t` clocks and the `uint64_t` hash are
  `Nat`; `&= ~k` on the `uint8_t` is `&&& (255 - k)`, increments and
  decrements of the `uint16_t` clocks are taken modulo `65536`, XOR is `^^^`.
  The `int8_t ep_square` is an `Int`: the values the code stores in it for
  squares `0..63` are `-1..63` and never wrap.
* The global `ZOBRIST` table of random keys is an explicit parameter `Z`.
* The by-reference out-parameters of `make_move` are returned in a record.
* `while` loops take a fuel argument and return `none` when it runs out; a
  function that is `none` for every fuel does not return.
-/

namespace SelfChess

/-! ## common.hpp -/

abbrev Piece := Int

def EMPTY : Piece := 0
def WP : Piece := 1
def WN : Piece := 2
def WB : Piece := 3
def WR : Piece := 4
def WQ : Piece := 5
def WK : Piece := 6
def BP : Piece := -1
def BN : Piece := -2
def BB : Piece := -3
def BR : Piece := -4
def BQ : Piece := -5
def BK : Piece := -6

def is_white (p : Piece) : Bool := decide (p > 0)
def is_black (p : Piece) : Bool := decide (p < 0)
def is_empty (p : Piece) : Bool := decide (p = EMPTY)
def abs_piece (p : Piece) : Int := if p < 0 then -p else p

/-- The library function `std::abs` on `int`. -/
def abs_int (x : Int) : Int := if x < 0 then -x else x

/-- The record `Move`; the fields `from` and `to` of the source are `from_` and `to_` here
(both words are keywords). -/
structure Move where
  from_ : Int
  to_ : Int
  promotion : Int
  flags : Nat
  deriving DecidableEq

/-! ## board.hpp -/

def file_of (sq : Int) : Int := sq % 8
def rank_of (sq : Int) : Int := sq / 8
def on_board (sq : Int) : Bool := decide (sq ≥ 0) && decide (sq < 64)
def idx (r f : Int) : Int := r * 8 + f

/-- The key table `Zobrist`: `piece_square[pi][sq]`, `black_to_move`,
`castling[mask]`, `ep_file[file]`. -/
structure Zobrist where
  piece_square : Nat → Int → Nat
  black_to_move : Nat
  castling : Nat → Nat
  ep_file : Int → Nat

structure Board where
  squares : Int → Piece
  white_to_move : Bool
  castling_rights : Nat
  ep_square : Int
  halfmove_clock : Nat
  fullmove_number : Nat
  hash : Nat

/-- Array write `squares[i] = v`. -/
def setSq (s : Int → Piece) (i : Int) (v : Piece) : Int → Piece :=
  fun j => if j = i then v else s j

/-! ## board.cpp -/

/-- The table `PIECE_INDEX[13] = {0,1,2,3,4,5,6,0,7,8,9,10,11}`. -/
def PIECE_INDEX (i : Int) : Nat :=
  [0, 1, 2, 3, 4, 5, 6, 0, 7, 8, 9, 10, 11].getD i.toNat 0

/-- The constructor `Board::Board()`. -/
def Board.empty : Board :=
  { squares := fun _ => EMPTY
    white_to_move := true
    castling_rights := 0
    ep_square := -1
    halfmove_clock := 0
    fullmove_number := 1
    hash := 0 }

/-- One iteration of the loop `for (int sq=0; sq<64; ++sq)` of `update_hash`. -/
def hash_step (Z : Zobrist) (s : Int → Piece) (h : Nat) (sq : Nat) : Nat :=
  let p := s (sq : Int)
  if p ≠ EMPTY then h ^^^ Z.piece_square (PIECE_INDEX (p + 6)) (sq : Int) else h

/-- The value `h` that `Board::update_hash` computes from scratch. -/
def hash_fold (Z : Zobrist) (b : Board) : Nat :=
  let h := (List.range 64).foldl (hash_step Z b.squares) 0
  let h := if !b.white_to_move then h ^^^ Z.black_to_move else h
  let h := h ^^^ Z.castling (b.castling_rights &&& 15)
  let h := if b.ep_square ≥ 0 then h ^^^ Z.ep_file (file_of b.ep_square) else h
  h

def update_hash (Z : Zobrist) (b : Board) : Board :=
  { b with hash := hash_fold Z b }

def backrank_w : List Piece := [WR, WN, WB, WQ, WK, WB, WN, WR]
def backrank_b : List Piece := [BR, BN, BB, BQ, BK, BB, BN, BR]

/-- One iteration of the loop of `Board::startpos` for file `f`. -/
def startpos_step (s : Int → Piece) (f : Nat) : Int → Piece :=
  let s := setSq s (idx 0 f) (backrank_w.getD f EMPTY)
  let s := setSq s (idx 1 f) WP
  let s := setSq s (idx 6 f) BP
  let s := setSq s (idx 7 f) (backrank_b.getD f EMPTY)
  s

def startpos (Z : Zobrist) : Board :=
  let b := Board.empty
  let b := { b with squares := (List.range 8).foldl startpos_step b.squares }
  let b := { b with white_to_move := true, castling_rights := 1 ||| 2 ||| 4 ||| 8,
                    ep_square := -1, halfmove_clock := 0, fullmove_number := 1 }
  update_hash Z b

/-- What `make_move` leaves behind: the mutated board and the four
out-parameters. -/
structure MakeResult where
  board : Board
  captured_out : Piece
  old_castle : Nat
  old_ep : Int
  old_half : Nat

/-- The variables the middle of `make_move` updates step by step: the squares
array, the running hash and the out-parameter `captured_out`. -/
structure Work where
  squares : Int → Piece
  hash : Nat
  captured_out : Piece

/-- The block `// hash out` of `make_move` (lines 239-243). -/
def hash_out (Z : Zobrist) (b : Board) (m : Move) : Nat :=
  let moving := b.squares m.from_
  let captured := b.squares m.to_
  let h := b.hash
  let h := if moving ≠ EMPTY then h ^^^ Z.piece_square (PIECE_INDEX (moving + 6)) m.from_ else h
  let h := if captured ≠ EMPTY then h ^^^ Z.piece_square (PIECE_INDEX (captured + 6)) m.to_ else h
  let h := h ^^^ Z.castling (b.castling_rights &&& 15)
  let h := if b.ep_square ≥ 0 then h ^^^ Z.ep_file (file_of b.ep_square) else h
  h

/-- The block `// move piece` of `make_move` (lines 247-248). -/
def move_piece (b : Board) (m : Move) : Int → Piece :=
  let s := setSq b.squares m.to_ (b.squares m.from_)
  let s := setSq s m.from_ EMPTY
  s

/-- The block `if (m.flags & 2)` of `make_move` (lines 250-258). -/
def en_passant_step (Z : Zobrist) (m : Move) (moving : Piece) (w : Work) : Work :=
  if m.flags &&& 2 ≠ 0 then
    let dir : Int := if is_white moving then -1 else 1
    let cap_sq := idx (rank_of m.to_ + dir) (file_of m.to_)
    let captured_out := w.squares cap_sq
    if captured_out ≠ EMPTY then
      { squares := setSq w.squares cap_sq EMPTY
        hash := w.hash ^^^ Z.piece_square (PIECE_INDEX (captured_out + 6)) cap_sq
        captured_out := captured_out }
    else { w with captured_out := captured_out }
  else w

/-- The rook relocation of the castle branch of `make_move` for a rook going
from file `ff` to file `ft` of the mover's home rank (lines 261-266 and
268-273). -/
def castle_rook (Z : Zobrist) (moving : Piece) (w : Work) (ff ft : Int) : Work :=
  let r : Int := if is_white moving then 0 else 7
  let rook_from := idx r ff
  let rook_to := idx r ft
  let rook := w.squares rook_from
  let s := setSq w.squares rook_to rook
  let s := setSq s rook_from EMPTY
  let h := w.hash ^^^ Z.piece_square (PIECE_INDEX (rook + 6)) rook_from
  let h := h ^^^ Z.piece_square (PIECE_INDEX (rook + 6)) rook_to
  { w with squares := s, hash := h }

/-- The block `if (abs_piece(moving)==6 && (m.flags & 1))` of `make_move`
(lines 259-275). -/
def castle_step (Z : Zobrist) (m : Move) (moving : Piece) (w : Work) : Work :=
  if abs_piece moving = 6 ∧ m.flags &&& 1 ≠ 0 then
    if file_of m.to_ = 6 then castle_rook Z moving w 7 5
    else if file_of m.to_ = 2 then castle_rook Z moving w 0 3
    else w
  else w

/-- The block `// promotions` of `make_move` (lines 277-280). -/
def promotion_step (m : Move) (w : Work) : Work :=
  if m.flags &&& 4 ≠ 0 then { w with squares := setSq w.squares m.to_ m.promotion } else w

/-- The block `// update castling rights` of `make_move` (lines 282-287). -/
def update_rights (b : Board) (m : Move) : Nat :=
  let moving := b.squares m.from_
  let cr := b.castling_rights
  let cr := if moving = WK then cr &&& (255 - (1 ||| 2)) else cr
  let cr := if moving = BK then cr &&& (255 - (4 ||| 8)) else cr
  let cr := if m.from_ = idx 0 0 ∨ m.to_ = idx 0 0 then cr &&& (255 - 2) else cr
  let cr := if m.from_ = idx 0 7 ∨ m.to_ = idx 0 7 then cr &&& (255 - 1) else cr
  let cr := if m.from_ = idx 7 0 ∨ m.to_ = idx 7 0 then cr &&& (255 - 8) else cr
  let cr := if m.from_ = idx 7 7 ∨ m.to_ = idx 7 7 then cr &&& (255 - 4) else cr
  cr

/-- The value of `ep_square` at the end of `make_move`: `-1` from line 245,
overwritten by the block `// double pawn push sets ep` (lines 289-292). -/
def update_ep (b : Board) (m : Move) : Int :=
  let moving := b.squares m.from_
  let ep : Int := -1
  if abs_piece moving = 1 ∧ abs_int (rank_of m.to_ - rank_of m.from_) = 2 then
    let mid := idx ((rank_of m.to_ + rank_of m.from_) / 2) (file_of m.to_)
    mid
  else ep

/-- The block `// hash in` of `make_move` (lines 299-303), for the piece `p`
now on `m.to`, the new rights `cr` and the new en-passant square `ep`. -/
def hash_in (Z : Zobrist) (h : Nat) (p : Piece) (to_ : Int) (cr : Nat) (ep : Int) : Nat :=
  let h := if p ≠ EMPTY then h ^^^ Z.piece_square (PIECE_INDEX (p + 6)) to_ else h
  let h := h ^^^ Z.castling (cr &&& 15)
  let h := if ep ≥ 0 then h ^^^ Z.ep_file (file_of ep) else h
  let h := h ^^^ Z.black_to_move
  h

/-- The squares, running hash and `captured_out` of `make_move` after the
special-move blocks (lines 235-280). -/
def make_move_work (Z : Zobrist) (b : Board) (m : Move) : Work :=
  let moving := b.squares m.from_
  let w : Work := { squares := move_piece b m, hash := hash_out Z b m,
                    captured_out := b.squares m.to_ }
  let w := en_passant_step Z m moving w
  let w := castle_step Z m moving w
  let w := promotion_step m w
  w

def make_move (Z : Zobrist) (b : Board) (m : Move) : MakeResult :=
  let moving := b.squares m.from_
  let w := make_move_work Z b m
  let cr := update_rights b m
  let ep := update_ep b m
  -- halfmove clock, fullmove number, side to move
  let half := if abs_piece moving = 1 ∨ w.captured_out ≠ EMPTY then 0
              else (b.halfmove_clock + 1) % 65536
  let full := if !b.white_to_move then (b.fullmove_number + 1) % 65536 else b.fullmove_number
  let wtm := !b.white_to_move
  { board := { squares := w.squares, white_to_move := wtm, castling_rights := cr,
               ep_square := ep, halfmove_clock := half, fullmove_number := full,
               hash := hash_in Z w.hash (w.squares m.to_) m.to_ cr ep }
    captured_out := w.captured_out
    old_castle := b.castling_rights
    old_ep := b.ep_square
    old_half := b.halfmove_clock }

/-- The rook restoration of the castle branch of `unmake_move`. -/
def uncastle_rook (wtm : Bool) (s : Int → Piece) (ff ft : Int) : Int → Piece :=
  let r : Int := if wtm then 0 else 7
  let rook_from := idx r ff
  let rook_to := idx r ft
  let rook := s rook_to
  let s := setSq s rook_from rook
  let s := setSq s rook_to EMPTY
  s

def unmake_move (Z : Zobrist) (b : Board) (m : Move) (captured : Piece)
    (old_castle : Nat) (old_ep : Int) (old_half : Nat) : Board :=
  let wtm := !b.white_to_move
  let moving := b.squares m.to_
  -- handle promotion
  let moving := if m.flags &&& 4 ≠ 0 then (if is_white moving then WP else BP) else moving
  -- move back
  let s := setSq b.squares m.from_ moving
  let s := setSq s m.to_ captured
  -- en-passant restoration
  let s :=
    if m.flags &&& 2 ≠ 0 then
      let dir : Int := if wtm then 1 else -1
      let cap_sq := idx (rank_of m.to_ + dir) (file_of m.to_)
      let s := setSq s cap_sq (if wtm then BP else WP)
      setSq s m.to_ EMPTY
    else s
  -- castle undo
  let s :=
    if abs_piece moving = 6 ∧ m.flags &&& 1 ≠ 0 then
      if file_of m.to_ = 6 then uncastle_rook wtm s 7 5
      else if file_of m.to_ = 2 then uncastle_rook wtm s 0 3
      else s
    else s
  let full := if wtm then (b.fullmove_number + 65535) % 65536 else b.fullmove_number
  update_hash Z
    { squares := s, white_to_move := wtm, castling_rights := old_castle, ep_square := old_ep,
      halfmove_clock := old_half, fullmove_number := full, hash := b.hash }

/-- The call `unmake_move(m, cap, oc, oe, oh)` on the data `make_move` returned. -/
def make_unmake (Z : Zobrist) (b : Board) (m : Move) : Board :=
  let r := make_move Z b m
  unmake_move Z r.board m r.captured_out r.old_castle r.old_ep r.old_half

/-- A key table with every key zero, for running the engine on concrete boards. -/
def zeroKeys : Zobrist :=
  { piece_square := fun _ _ => 0, black_to_move := 0, castling := fun _ => 0,
    ep_file := fun _ => 0 }

/-! ## board.cpp: attack detection

The two ray scans of `is_square_attacked` contain `while` loops; they are
modelled with a fuel argument that bounds the number of loop-head tests, and
return `none` when the fuel runs out.  The local `int r` is modelled as an
unbounded `Int` (in the source an overflow of `r` would be undefined
behaviour; no exit test of these loops reads `r`). -/

/-- The test `rr>=0&&rr<8&&ff>=0&&ff<8`. -/
def in_range (rr ff : Int) : Bool :=
  decide (rr ≥ 0) && decide (rr < 8) && decide (ff ≥ 0) && decide (ff < 8)

/-- The table `KOFF` of knight offsets. -/
def KOFF : List (Int × Int) :=
  [(2, 1), (1, 2), (-1, 2), (-2, 1), (-2, -1), (-1, -2), (1, -2), (2, -1)]

/-- The offsets visited by `for dr in -1..1, for df in -1..1, if (dr||df)`. -/
def KING_OFF : List (Int × Int) :=
  [(-1, -1), (-1, 0), (-1, 1), (0, -1), (0, 1), (1, -1), (1, 0), (1, 1)]

/-- The directions of the loop `// Diagonals (bishops/queens)`. -/
def DIAG_DIRS : List (Int × Int) := [(1, 1), (1, -1), (-1, 1), (-1, -1)]

/-- The directions of the loop `// Orthogonals (rooks/queens)`. -/
def ORTH_DIRS : List (Int × Int) := [(1, 0), (-1, 0), (0, 1), (0, -1)]

/-- The scan of the offsets `offs` around `(r, f)` for the piece `target`, as
in the knight and king loops (lines 86 and 112-114). -/
def offset_scan (b : Board) (r f : Int) (target : Piece) (offs : List (Int × Int)) : Bool :=
  offs.any fun o =>
    let rr := r + o.1
    let ff := f + o.2
    in_range rr ff && decide (b.squares (idx rr ff) = target)

/-- The loop `// Pawns` (lines 76-83). -/
def pawn_scan (b : Board) (r f : Int) (by_white : Bool) : Bool :=
  let pr : Int := if by_white then -1 else 1
  [(-1 : Int), 1].any fun df =>
    let rr := r + pr
    let ff := f + df
    in_range rr ff && decide (b.squares (idx rr ff) = (if by_white then WP else BP))

/-- The `while` loop of one ray of `is_square_attacked` (lines 90-97 with
kinds `3, 5`; lines 102-109 with kinds `4, 5`), started in the state
`(r, rr, ff)`.  It returns `some (true, r)` for `return true`,
`some (false, r)` when the loop is left by `break` or by its exit test, with
the value of `r` at that point, and `none` when the fuel is exhausted.  The
loop body is `r+=dir.first; ff+=dir.second;`: it advances `r`, not `rr`. -/
def ray_loop (b : Board) (by_white : Bool) (k1 k2 : Int) (dr df : Int) :
    Nat → Int → Int → Int → Option (Bool × Int)
  | 0, _, _, _ => none
  | fuel + 1, r, rr, ff =>
    if in_range rr ff then
      let p := b.squares (idx rr ff)
      if !is_empty p then
        if (is_white p == by_white) && (abs_piece p == k1 || abs_piece p == k2) then
          some (true, r)
        else some (false, r)
      else ray_loop b by_white k1 k2 dr df fuel (r + dr) rr (ff + df)
    else some (false, r)

/-- The `for (auto dir : ...)` loop around `ray_loop`: the rays are scanned in
order and each starts from the value of `r` the previous one left. -/
def ray_scan (b : Board) (by_white : Bool) (k1 k2 : Int) (fuel : Nat) (f : Int) :
    List (Int × Int) → Int → Option (Bool × Int)
  | [], r => some (false, r)
  | dir :: rest, r =>
    match ray_loop b by_white k1 k2 dir.1 dir.2 fuel r (r + dir.1) (f + dir.2) with
    | none => none
    | some (true, r1) => some (true, r1)
    | some (false, r1) => ray_scan b by_white k1 k2 fuel f rest r1

def is_square_attacked (fuel : Nat) (b : Board) (sq : Int) (by_white : Bool) : Option Bool :=
  let r := rank_of sq
  let f := file_of sq
  if pawn_scan b r f by_white then some true
  else if offset_scan b r f (if by_white then WN else BN) KOFF then some true
  else
    match ray_scan b by_white 3 5 fuel f DIAG_DIRS r with
    | none => none
    | some (true, _) => some true
    | some (false, r) =>
      match ray_scan b by_white 4 5 fuel f ORTH_DIRS r with
      | none => none
      | some (true, _) => some true
      | some (false, r) => some (offset_scan b r f (if by_white then WK else BK) KING_OFF)

/-- The loop `for (int i=0;i<64;++i) if (squares[i]==k){ king_sq=i; break; }`. -/
def find_king (b : Board) (k : Piece) : Int :=
  match (List.range 64).find? (fun i => decide (b.squares (i : Int) = k)) with
  | some i => (i : Int)
  | none => -1

def in_check (fuel : Nat) (b : Board) (for_white : Bool) : Option Bool :=
  let k := if for_white then WK else BK
  let king_sq := find_king b k
  if king_sq < 0 then some false
  else is_square_attacked fuel b king_sq (!for_white)

/-! ## board.cpp: move generation

The generator threads the vector `moves` through its calls; a piece of the
generator is a function `List Move → Option (List Move)` whose result is
`none` when one of the attack tests it runs does not come back. -/

/-- The helper `add_if_legal`.  The trial copy `c` is discarded, so the
`unmake_move` call on it has no effect on the result. -/
def add_if_legal (fuel : Nat) (Z : Zobrist) (b : Board) (from_ to_ : Int) (promo : Int)
    (flags : Nat) (moves : List Move) : Option (List Move) :=
  let m : Move := { from_ := from_, to_ := to_, promotion := promo, flags := flags }
  let c := (make_move Z b m).board
  match in_check fuel c (!c.white_to_move) with
  | none => none
  | some illegal => if !illegal then some (moves ++ [m]) else some moves

/-- The loop `for (int pr : {4,5,2,3})` of the pawn case. -/
def add_promotions (fuel : Nat) (Z : Zobrist) (b : Board) (p : Piece) (sq to_ : Int)
    (moves : List Move) : Option (List Move) :=
  [(4 : Int), 5, 2, 3].foldlM
    (fun moves pr => add_if_legal fuel Z b sq to_ (if is_white p then pr else -pr) 4 moves) moves

/-- The pushes of the pawn case (lines 148-162). -/
def pawn_pushes (fuel : Nat) (Z : Zobrist) (b : Board) (p : Piece) (sq r f rr : Int)
    (moves : List Move) : Option (List Move) :=
  let dir : Int := if is_white p then 1 else -1
  let start_rank : Int := if is_white p then 1 else 6
  let promo_rank : Int := if is_white p then 6 else 1
  let to_ := idx rr f
  if is_empty (b.squares to_) then
    if r = promo_rank then add_promotions fuel Z b p sq to_ moves
    else do
      let moves ← add_if_legal fuel Z b sq to_ 0 0 moves
      if r = start_rank then
        let to2 := idx (r + 2 * dir) f
        if is_empty (b.squares to2) then add_if_legal fuel Z b sq to2 0 0 moves
        else some moves
      else some moves
  else some moves

/-- One iteration of the loop `// captures` of the pawn case (lines 165-174). -/
def pawn_capture (fuel : Nat) (Z : Zobrist) (b : Board) (p : Piece) (sq r f rr : Int)
    (moves : List Move) (df : Int) : Option (List Move) :=
  let promo_rank : Int := if is_white p then 6 else 1
  let ff := f + df
  if ff < 0 ∨ ff ≥ 8 then some moves
  else
    let to2 := idx rr ff
    if rr < 0 ∨ rr ≥ 8 then some moves
    else
      (if !is_empty (b.squares to2) ∧ is_white p ≠ is_white (b.squares to2) then
          if r = promo_rank then add_promotions fuel Z b p sq to2 moves
          else add_if_legal fuel Z b sq to2 0 0 moves
        else some moves) >>= fun moves =>
      -- en-passant
      if b.ep_square ≥ 0 ∧ to2 = b.ep_square then add_if_legal fuel Z b sq to2 0 2 moves
      else some moves

/-- The case `1` (pawn) of the generator (lines 142-178). -/
def gen_pawn (fuel : Nat) (Z : Zobrist) (b : Board) (p : Piece) (sq r f : Int)
    (moves : List Move) : Option (List Move) :=
  let dir : Int := if is_white p then 1 else -1
  let rr := r + dir
  if rr ≥ 0 ∧ rr < 8 then do
    let moves ← pawn_pushes fuel Z b p sq r f rr moves
    [(-1 : Int), 1].foldlM (pawn_capture fuel Z b p sq r f rr) moves
  else some moves

/-- One step to the offset `o`, as in the knight and king cases (lines 181
and 203). -/
def gen_step (fuel : Nat) (Z : Zobrist) (b : Board) (p : Piece) (sq r f : Int)
    (moves : List Move) (o : Int × Int) : Option (List Move) :=
  let rr := r + o.1
  let ff := f + o.2
  if in_range rr ff then
    let to_ := idx rr ff
    let q := b.squares to_
    if is_empty q ∨ is_white q ≠ is_white p then add_if_legal fuel Z b sq to_ 0 0 moves
    else some moves
  else some moves

/-- The `while` loop of one ray of a bishop, rook or queen (lines 186, 192,
198), started at `(rr, ff)`; `none` when the fuel is exhausted. -/
def gen_ray (fuel : Nat) (Z : Zobrist) (b : Board) (p : Piece) (sq : Int) (dr df : Int) :
    Nat → Int → Int → List Move → Option (List Move)
  | 0, _, _, _ => none
  | n + 1, rr, ff, moves =>
    if in_range rr ff then
      let to_ := idx rr ff
      let q := b.squares to_
      if is_empty q then do
        let moves ← add_if_legal fuel Z b sq to_ 0 0 moves
        gen_ray fuel Z b p sq dr df n (rr + dr) (ff + df) moves
      else if is_white q ≠ is_white p then add_if_legal fuel Z b sq to_ 0 0 moves
      else some moves
    else some moves

/-- The rays of a sliding piece in the directions `dirs`. -/
def gen_slider (fuel : Nat) (Z : Zobrist) (b : Board) (p : Piece) (sq r f : Int)
    (dirs : List (Int × Int)) (moves : List Move) : Option (List Move) :=
  dirs.foldlM
    (fun moves d => gen_ray fuel Z b p sq d.1 d.2 fuel (r + d.1) (f + d.2) moves) moves

/-- The short-circuit condition of one castling `if` (lines 208, 212, 216,
219): the right `bit` is set, the squares `empties` are empty, and the
squares `s1` and `s2` are not attacked by the side `by_white`. -/
def castle_allowed (fuel : Nat) (b : Board) (bit : Nat) (empties : List Int) (s1 s2 : Int)
    (by_white : Bool) : Option Bool :=
  if b.castling_rights &&& bit ≠ 0 ∧ empties.all (fun i => is_empty (b.squares i)) then
    match is_square_attacked fuel b s1 by_white with
    | none => none
    | some true => some false
    | some false =>
      match is_square_attacked fuel b s2 by_white with
      | none => none
      | some a => some (!a)
  else some false

/-- One castling `if` with its `add_if_legal` call. -/
def gen_castle (fuel : Nat) (Z : Zobrist) (b : Board) (sq : Int) (bit : Nat)
    (empties : List Int) (s1 s2 : Int) (by_white : Bool) (to_ : Int) (moves : List Move) :
    Option (List Move) :=
  match castle_allowed fuel b bit empties s1 s2 by_white with
  | none => none
  | some true => add_if_legal fuel Z b sq to_ 0 1 moves
  | some false => some moves

/-- The block `// Castling` of the king case (lines 205-223). -/
def gen_castling (fuel : Nat) (Z : Zobrist) (b : Board) (p : Piece) (sq : Int)
    (moves : List Move) : Option (List Move) :=
  match in_check fuel b (is_white p) with
  | none => none
  | some true => some moves
  | some false =>
    if is_white p then do
      let moves ← gen_castle fuel Z b sq 1 [idx 0 5, idx 0 6] (idx 0 5) (idx 0 6) false
        (idx 0 6) moves
      gen_castle fuel Z b sq 2 [idx 0 1, idx 0 2, idx 0 3] (idx 0 2) (idx 0 3) false
        (idx 0 2) moves
    else do
      let moves ← gen_castle fuel Z b sq 4 [idx 7 5, idx 7 6] (idx 7 5) (idx 7 6) true
        (idx 7 6) moves
      gen_castle fuel Z b sq 8 [idx 7 1, idx 7 2, idx 7 3] (idx 7 2) (idx 7 3) true
        (idx 7 2) moves

/-- The directions of the bishop case, `for dr in {1,-1} for df in {1,-1}`. -/
def BISHOP_DIRS : List (Int × Int) := [(1, 1), (1, -1), (-1, 1), (-1, -1)]

/-- The directions of the rook case. -/
def ROOK_DIRS : List (Int × Int) := [(1, 0), (-1, 0), (0, 1), (0, -1)]

/-- The directions of the queen case. -/
def QUEEN_DIRS : List (Int × Int) :=
  [(1, 0), (-1, 0), (0, 1), (0, -1), (1, 1), (1, -1), (-1, 1), (-1, -1)]

/-- The body of the loop `for (int sq=0; sq<64; ++sq)` of the generator. -/
def gen_square (fuel : Nat) (Z : Zobrist) (b : Board) (moves : List Move) (sqn : Nat) :
    Option (List Move) :=
  let sq : Int := sqn
  let p := b.squares sq
  if p = EMPTY then some moves
  else if b.white_to_move ≠ is_white p then some moves
  else
    let r := rank_of sq
    let f := file_of sq
    if abs_piece p = 1 then gen_pawn fuel Z b p sq r f moves
    else if abs_piece p = 2 then KOFF.foldlM (gen_step fuel Z b p sq r f) moves
    else if abs_piece p = 3 then gen_slider fuel Z b p sq r f BISHOP_DIRS moves
    else if abs_piece p = 4 then gen_slider fuel Z b p sq r f ROOK_DIRS moves
    else if abs_piece p = 5 then gen_slider fuel Z b p sq r f QUEEN_DIRS moves
    else if abs_piece p = 6 then do
      let moves ← KING_OFF.foldlM (gen_step fuel Z b p sq r f) moves
      gen_castling fuel Z b p sq moves
    else some moves

def generate_legal_moves (fuel : Nat) (Z : Zobrist) (b : Board) : Option (List Move) :=
  (List.range 64).foldlM (gen_square fuel Z b) []

/-! ## board.cpp: terminal evaluation and material -/

/-- The record `GameResult`; the `float` reward only takes the values `0.0f`,
`1.0f` and `-1.0f` in `board.cpp` and is an `Int` here. -/
structure GameResult where
  reward : Int
  terminal : Bool
  deriving DecidableEq

def evaluate_terminal (fuel : Nat) (Z : Zobrist) (b : Board) : Option GameResult :=
  match generate_legal_moves fuel Z b with
  | none => none
  | some moves =>
    if !moves.isEmpty then some { reward := 0, terminal := false }
    else
      match in_check fuel b b.white_to_move with
      | none => none
      | some true => some { reward := if b.white_to_move then -1 else 1, terminal := true }
      | some false =>
        if b.halfmove_clock ≥ 100 then some { reward := 0, terminal := true }
        else some { reward := 0, terminal := true }

/-- The table `val[7] = {0,100,320,330,500,900,0}` of `material_eval`. -/
def piece_value (a : Int) : Int :=
  [0, 100, 320, 330, 500, 900, 0].getD a.toNat 0

def material_eval (b : Board) : Int :=
  (List.range 64).foldl
    (fun s sq =>
      let p := b.squares (sq : Int)
      let a := abs_piece p
      if a = 6 then s else s + (if is_white p then 1 else -1) * piece_value a)
    0

/-! ## mcts.hpp and mcts.cpp

The search computes with `float` and `double` values and draws random
numbers from `GLOBAL_RNG`.  Their values are not interpreted here: the
constants, conversions and operations the code uses are the fields of a record
`Arith` over a type `F` of floating-point values, a type `D` of random draws
and a type `R` of generator states, and every definition below takes such a
record as a parameter.  The `uint32_t` counters are `Nat` with increments
modulo `4294967296`; `size_t` indices are `Nat`. -/

structure Arith (F D R : Type) where
  /-- The constant `0.0f`. -/
  zero : F
  /-- The constant `1.0f`. -/
  one : F
  /-- The constant `1e9f`. -/
  lit_1e9 : F
  /-- The constant `-1e9f`. -/
  lit_neg_1e9 : F
  /-- The constant `1.2f`. -/
  lit_1_2 : F
  /-- The constant `0.001f`. -/
  lit_0_001 : F
  /-- Conversion of an unsigned integer. -/
  of_u32 : Nat → F
  /-- The `float` value of `GameResult::reward`. -/
  of_reward : Int → F
  /-- Conversion `(float)x` of a random draw. -/
  of_double : D → F
  add : F → F → F
  neg : F → F
  mul : F → F → F
  div : F → F → F
  sqrt : F → F
  /-- The comparison `x > y`. -/
  gt : F → F → Bool
  /-- The call `GLOBAL_RNG.uniform01()`: the draw and the next state. -/
  uniform01 : R → D × R
  /-- The expression `(int)((u - 0.5) * 10)` of `playout`. -/
  jitter : D → Int
  /-- The expression `(size_t)(u * n)`. -/
  pick : D → Nat → Nat

structure MCTSNodeData (F : Type) where
  visits : Nat
  value_sum : F
  moves : List Move
  child_visits : List Nat
  child_values : List F

/-- The class `MCTS`; both maps are keyed by the position hash.  The field
`rng` carries the state of the global `GLOBAL_RNG`. -/
structure MCTS (F R : Type) where
  table : Nat → Option (MCTSNodeData F)
  qtable : Nat → Option (F × Nat)
  time_budget_ms : Int
  persistent_q : Bool
  rng : R

/-- The constructor `MCTS::MCTS()`, with empty maps. -/
def MCTS.init {F R : Type} (rng : R) : MCTS F R :=
  { table := fun _ => none, qtable := fun _ => none, time_budget_ms := 0, persistent_q := true,
    rng := rng }

def set_time_budget_ms {F R : Type} (st : MCTS F R) (ms : Int) : MCTS F R :=
  { st with time_budget_ms := ms }

def enable_persistent_q {F R : Type} (st : MCTS F R) (enabled : Bool) : MCTS F R :=
  { st with persistent_q := enabled }

/-- Map write `m[k] = v`. -/
def put {α : Type} (m : Nat → Option α) (k : Nat) (v : α) : Nat → Option α :=
  fun j => if j = k then some v else m j

/-- The value `(size_t)-1`. -/
def SIZE_MAX : Nat := 18446744073709551615

/-- The move `Move{0,0,0,0}`. -/
def null_move : Move := { from_ := 0, to_ := 0, promotion := 0, flags := 0 }

/-- A value-initialised `MCTSNodeData`, as `table[k]` creates for a missing
key. -/
def empty_node {F D R : Type} (A : Arith F D R) : MCTSNodeData F :=
  { visits := 0, value_sum := A.zero, moves := [], child_visits := [], child_values := [] }

def ucb_score {F D R : Type} (A : Arith F D R) (parent_visits child_visits : Nat)
    (child_value c_puct : F) : F :=
  if child_visits = 0 then A.lit_1e9
  else
    let q := A.div child_value (A.of_u32 child_visits)
    let u := A.div (A.mul c_puct (A.sqrt (A.of_u32 (max 1 parent_visits))))
      (A.add A.one (A.of_u32 child_visits))
    A.add q u

/-- The variables `best`, `best_i` of the selection loop of `simulate`, and
the generator state. -/
structure Selection (F R : Type) where
  best : F
  best_i : Nat
  rng : R

/-- One turn of the selection loop of `simulate` (lines 119-124). -/
def select_step {F D R : Type} (A : Arith F D R) (node : MCTSNodeData F) (parent_vis : Nat)
    (s : Selection F R) (i : Nat) : Selection F R :=
  let cv := node.child_visits.getD i 0
  let sv := ucb_score A parent_vis cv (node.child_values.getD i A.zero) A.lit_1_2
  let noisy : F × R :=
    if cv = 0 then
      let d := A.uniform01 s.rng
      (A.add sv (A.mul A.lit_0_001 (A.of_double d.1)), d.2)
    else (sv, s.rng)
  if A.gt noisy.1 s.best then { best := noisy.1, best_i := i, rng := noisy.2 }
  else { s with rng := noisy.2 }

/-- The block `// select` of `simulate` (lines 116-125). -/
def select_child {F D R : Type} (A : Arith F D R) (node : MCTSNodeData F) (rng : R) :
    Selection F R :=
  let parent_vis := max 1 node.visits
  (List.range node.moves.length).foldl (select_step A node parent_vis)
    { best := A.lit_neg_1e9, best_i := 0, rng := rng }

/-- The tables and the value `v` a backpropagation loop carries. -/
structure Backprop (F : Type) where
  table : Nat → Option (MCTSNodeData F)
  qtable : Nat → Option (F × Nat)
  v : F

/-- The body of the backpropagation loop of the expansion branch (lines
78-90) for the path entry `fr = (key, index)`. -/
def expand_frame {F D R : Type} (A : Arith F D R) (persistent_q : Bool) (fr : Nat × Nat)
    (s : Backprop F) : Backprop F :=
  let n := (s.table fr.1).getD (empty_node A)
  let n := { n with visits := (n.visits + 1) % 4294967296, value_sum := A.add n.value_sum s.v }
  let n :=
    if fr.2 ≠ SIZE_MAX then
      { n with
        child_visits := n.child_visits.set fr.2 ((n.child_visits.getD fr.2 0 + 1) % 4294967296)
        child_values := n.child_values.set fr.2 (A.add (n.child_values.getD fr.2 A.zero) s.v) }
    else n
  let q :=
    if persistent_q then
      let e := (s.qtable fr.1).getD (A.zero, 0)
      put s.qtable fr.1 (A.add e.1 s.v, (e.2 + 1) % 4294967296)
    else s.qtable
  { table := put s.table fr.1 n, qtable := q, v := A.neg s.v }

/-- The backpropagation loop of the expansion branch (lines 77-91): the path
is walked from its last entry to its first. -/
def backprop_expand {F D R : Type} (A : Arith F D R) (persistent_q : Bool)
    (path : List (Nat × Nat)) (s : Backprop F) : Backprop F :=
  path.foldr (expand_frame A persistent_q) s

/-- The body of the backpropagation loop of the terminal branch (lines
100-112). -/
def terminal_frame {F D R : Type} (A : Arith F D R) (persistent_q : Bool) (fr : Nat × Nat)
    (s : Backprop F) : Backprop F :=
  let n := (s.table fr.1).getD (empty_node A)
  let n := { n with visits := (n.visits + 1) % 4294967296, value_sum := A.add n.value_sum s.v }
  let n :=
    if fr.2 ≠ SIZE_MAX then
      { n with
        child_visits := n.child_visits.set fr.2 ((n.child_visits.getD fr.2 0 + 1) % 4294967296)
        child_values := n.child_values.set fr.2 (A.add (n.child_values.getD fr.2 A.zero) s.v) }
    else n
  let q :=
    if persistent_q then
      let e := (s.qtable fr.1).getD (A.zero, 0)
      put s.qtable fr.1 (A.add e.1 s.v, (e.2 + 1) % 4294967296)
    else s.qtable
  { table := put s.table fr.1 n, qtable := q, v := A.neg s.v }

/-- The backpropagation loop of the terminal branch (lines 99-113). -/
def backprop_terminal {F D R : Type} (A : Arith F D R) (persistent_q : Bool)
    (path : List (Nat × Nat)) (s : Backprop F) : Backprop F :=
  path.foldr (terminal_frame A persistent_q) s

/-- Where the descent loop of `simulate` leaves: at a position without a
node (`terminal = false`) or at a node without moves (`terminal = true`),
with the board, the path and the generator state at that point. -/
structure Descent (R : Type) where
  terminal : Bool
  board : Board
  path : List (Nat × Nat)
  rng : R

/-- The loop `while (true)` of `simulate` up to the branch that returns:
lookup, selection and step (lines 54-59, 94-96 and 116-128). -/
def descend {F D R : Type} (A : Arith F D R) (Z : Zobrist)
    (table : Nat → Option (MCTSNodeData F)) :
    Nat → Board → List (Nat × Nat) → R → Option (Descent R)
  | 0, _, _, _ => none
  | fuel + 1, b, path, rng =>
    match table b.hash with
    | none => some { terminal := false, board := b, path := path, rng := rng }
    | some node =>
      if node.moves.isEmpty then some { terminal := true, board := b, path := path, rng := rng }
      else
        let s := select_child A node rng
        let b1 := (make_move Z b (node.moves.getD s.best_i null_move)).board
        descend A Z table fuel b1 (path ++ [(b.hash, s.best_i)]) s.rng

/-- The variables `best_score`, `best_idx` of the choice loop of `playout`,
and the generator state. -/
structure Choice (R : Type) where
  best_score : Int
  best_idx : Int
  rng : R

/-- One turn of the choice loop of `playout` (lines 142-149). -/
def choose_step {F D R : Type} (A : Arith F D R) (Z : Zobrist) (b : Board) (moves : List Move)
    (c : Choice R) (i : Nat) : Choice R :=
  let nb := (make_move Z b (moves.getD i null_move)).board
  let s := material_eval nb * (if nb.white_to_move then -1 else 1)
  let d := A.uniform01 c.rng
  let s := s + A.jitter d.1
  if s > c.best_score then { best_score := s, best_idx := (i : Int), rng := d.2 }
  else { c with rng := d.2 }

def playout {F D R : Type} (A : Arith F D R) (fuel : Nat) (Z : Zobrist) :
    Nat → Board → R → Option (F × R)
  | 0, _, rng => some (A.zero, rng)
  | depth + 1, b, rng =>
    match evaluate_terminal fuel Z b with
    | none => none
    | some g =>
      if g.terminal then some (A.of_reward g.reward, rng)
      else
        match generate_legal_moves fuel Z b with
        | none => none
        | some moves =>
          if moves.isEmpty then some (A.zero, rng)
          else
            let c := (List.range moves.length).foldl (choose_step A Z b moves)
              { best_score := -2147483648, best_idx := -1, rng := rng }
            let pick : Int × R :=
              if c.best_idx < 0 then
                let d := A.uniform01 c.rng
                ((A.pick d.1 moves.length : Nat), d.2)
              else (c.best_idx, c.rng)
            let b1 := (make_move Z b (moves.getD pick.1.toNat null_move)).board
            playout A fuel Z depth b1 pick.2

/-- The node `nd` the expansion branch builds for the moves `moves` (lines
58-72). -/
def new_node {F D R : Type} (A : Arith F D R) (persistent_q : Bool)
    (qtable : Nat → Option (F × Nat)) (key : Nat) (moves : List Move) : MCTSNodeData F :=
  let nd : MCTSNodeData F :=
    { visits := 0, value_sum := A.zero, moves := moves,
      child_visits := List.replicate moves.length 0,
      child_values := List.replicate moves.length A.zero }
  if persistent_q then
    match qtable key with
    | some e => { nd with value_sum := e.1, visits := e.2 }
    | none => nd
  else nd

def simulate {F D R : Type} (A : Arith F D R) (fuel : Nat) (Z : Zobrist) (st : MCTS F R)
    (b : Board) : Option (MCTS F R × F) :=
  match descend A Z st.table fuel b [] st.rng with
  | none => none
  | some d =>
    if d.terminal then
      -- terminal
      match evaluate_terminal fuel Z d.board with
      | none => none
      | some g =>
        let r := backprop_terminal A st.persistent_q d.path
          { table := st.table, qtable := st.qtable, v := A.of_reward g.reward }
        some ({ st with table := r.table, qtable := r.qtable, rng := d.rng }, r.v)
    else
      -- expand
      match generate_legal_moves fuel Z d.board with
      | none => none
      | some moves =>
        let nd := new_node A st.persistent_q st.qtable d.board.hash moves
        let table := put st.table d.board.hash nd
        match playout A fuel Z 192 d.board d.rng with
        | none => none
        | some p =>
          let r := backprop_expand A st.persistent_q d.path
            { table := table, qtable := st.qtable, v := p.1 }
          some ({ st with table := r.table, qtable := r.qtable, rng := p.2 }, r.v)

/-- The test `std::chrono::steady_clock::now() < deadline` for the clock
reading `now`; `none` is `time_point::max()`, which no reading reaches. -/
def before_deadline (now : Int) (deadline : Option Int) : Bool :=
  match deadline with
  | none => true
  | some d => decide (now < d)

/-- What the simulation loop of `search_best_move` leaves: the search state,
the number `i` of simulations run and the number of clock readings taken. -/
structure LoopEnd (F R : Type) where
  st : MCTS F R
  i : Int
  tick : Nat

/-- The loop `for (int i=0; i<simulations || now() < deadline; ++i)` of
`search_best_move` (lines 31-35), with `steps` bounding the number of tests
of its condition; `clock k` is the `k`-th reading of the clock, and the clock
is only read when `i < simulations` is false. -/
def search_loop {F D R : Type} (A : Arith F D R) (fuel : Nat) (Z : Zobrist) (clock : Nat → Int)
    (deadline : Option Int) (simulations : Int) (root : Board) :
    Nat → Int → Nat → MCTS F R → Option (LoopEnd F R)
  | 0, _, _, _ => none
  | steps + 1, i, tick, st =>
    if i < simulations then
      match simulate A fuel Z st root with
      | none => none
      | some r => search_loop A fuel Z clock deadline simulations root steps (i + 1) tick r.1
    else if before_deadline (clock tick) deadline then
      match simulate A fuel Z st root with
      | none => none
      | some r =>
        search_loop A fuel Z clock deadline simulations root steps (i + 1) (tick + 1) r.1
    else some { st := st, i := i, tick := tick + 1 }

/-- One turn of the loop `// pick move with max visits` (lines 46-48) on the
pair `(best_v, best_i)`. -/
def best_step (child_visits : List Nat) (acc : Nat × Nat) (i : Nat) : Nat × Nat :=
  if child_visits.getD i 0 > acc.1 then (child_visits.getD i 0, i) else acc

/-- The index `best_i` after the loop `// pick move with max visits`. -/
def best_child (node_moves : Nat) (child_visits : List Nat) : Nat :=
  ((List.range node_moves).foldl (best_step child_visits) (0, 0)).2

/-- The end of `search_best_move` (lines 36-50): the move returned and the
generator state. -/
def final_selection {F D R : Type} (A : Arith F D R) (fuel : Nat) (Z : Zobrist)
    (st : MCTS F R) (root : Board) : Option (Move × R) :=
  let fallback : Option (Move × R) :=
    match generate_legal_moves fuel Z root with
    | none => none
    | some legal =>
      if legal.isEmpty then some (null_move, st.rng)
      else
        let d := A.uniform01 st.rng
        some (legal.getD (A.pick d.1 legal.length) null_move, d.2)
  match st.table root.hash with
  | none => fallback
  | some node =>
    if node.moves.isEmpty then fallback
    else some (node.moves.getD (best_child node.moves.length node.child_visits) null_move, st.rng)

/-- The function `MCTS::search_best_move`; it returns the move and the search
state it leaves.  The parameter `c_puct` is not used by the body. -/
def search_best_move {F D R : Type} (A : Arith F D R) (fuel steps : Nat) (Z : Zobrist)
    (clock : Nat → Int) (st : MCTS F R) (root : Board) (simulations : Int) (_c_puct : F) :
    Option (Move × MCTS F R) :=
  let deadline : Option Int × Nat :=
    if st.time_budget_ms > 0 then (some (clock 0 + st.time_budget_ms), 1) else (none, 0)
  match search_loop A fuel Z clock deadline.1 simulations root steps 0 deadline.2 st with
  | none => none
  | some e =>
    match final_selection A fuel Z e.st root with
    | none => none
    | some r => some (r.1, { e.st with rng := r.2 })

/-! ## Concrete positions -/

/-- Writes the listed `(square, piece)` pairs into a squares array. -/
def place (s : Int → Piece) (l : List (Int × Piece)) : Int → Piece :=
  l.foldl (fun s p => setSq s p.1 p.2) s

/-- The board holding exactly the listed pieces, with the given side to move,
castling rights and en-passant square, clocks `0` and `1`, and its hash
recomputed by `update_hash`. -/
def position (Z : Zobrist) (l : List (Int × Piece)) (wtm : Bool) (cr : Nat) (ep : Int) : Board :=
  update_hash Z
    { Board.empty with squares := place Board.empty.squares l, white_to_move := wtm,
                       castling_rights := cr, ep_square := ep }

/-- A quiet move, as `Move{from, to, 0, 0}`. -/
def quiet (f t : Int) : Move := { from_ := f, to_ := t, promotion := 0, flags := 0 }

/-- The board after playing the moves of `l` in order with `make_move`. -/
def play (Z : Zobrist) (b : Board) (l : List Move) : Board :=
  l.foldl (fun b m => (make_move Z b m).board) b

/-- The position after `e2e4 a7a6 e4e5 d7d5` from the initial position. -/
def ep_line (Z : Zobrist) : Board :=
  play Z (startpos Z) [quiet 12 28, quiet 48 40, quiet 28 36, quiet 51 35]

/-- The en-passant capture `e5d6`. -/
def e5d6 : Move := { from_ := 36, to_ := 43, promotion := 0, flags := 2 }

/-- The position `r3k2r/8/8/8/8/8/8/R3K2R w KQkq - 0 1`. -/
def rooks_and_kings (Z : Zobrist) : Board :=
  position Z [(0, WR), (4, WK), (7, WR), (56, BR), (60, BK), (63, BR)] true 15 (-1)

/-! ## The claims' own words -/

/-- The castling-right bits the specification says a move clears: both white
bits for a white king move, both black bits for a black king move, and the bit
of each rook home corner that is the origin or the target of the move. -/
def cleared_rights (b : Board) (m : Move) : Nat :=
  (if b.squares m.from_ = WK then 1 ||| 2 else 0) |||
  (if b.squares m.from_ = BK then 4 ||| 8 else 0) |||
  (if m.from_ = 0 ∨ m.to_ = 0 then 2 else 0) |||
  (if m.from_ = 7 ∨ m.to_ = 7 then 1 else 0) |||
  (if m.from_ = 56 ∨ m.to_ = 56 then 8 else 0) |||
  (if m.from_ = 63 ∨ m.to_ = 63 then 4 else 0)

/-- The pawn of the side to move and the pawn of the other side. -/
def own_pawn (b : Board) : Piece := if b.white_to_move then WP else BP
def enemy_pawn (b : Board) : Piece := if b.white_to_move then BP else WP

/-- An en-passant capture as the generator emits it: flag bit 1 set and no
promotion flag, a pawn of the side to move on `from`, the target one rank
forward on an adjacent file, empty and equal to `ep_square`, and an enemy pawn
beside the capturing pawn on the target file. -/
structure is_ep_capture (b : Board) (m : Move) : Prop where
  from_lo : 0 ≤ m.from_
  from_hi : m.from_ < 64
  to_lo : 0 ≤ m.to_
  to_hi : m.to_ < 64
  flag : m.flags &&& 2 ≠ 0
  no_promo : m.flags &&& 4 = 0
  pawn : b.squares m.from_ = own_pawn b
  forward : rank_of m.to_ = rank_of m.from_ + (if b.white_to_move then 1 else -1)
  adjacent : file_of m.to_ = file_of m.from_ + 1 ∨ file_of m.to_ = file_of m.from_ - 1
  on_ep : m.to_ = b.ep_square
  target_empty : b.squares m.to_ = EMPTY
  victim : b.squares (idx (rank_of m.from_) (file_of m.to_)) = enemy_pawn b

/-- The home rank and the rook of the side to move. -/
def home_rank (b : Board) : Int := if b.white_to_move then 0 else 7
def own_rook (b : Board) : Piece := if b.white_to_move then WR else BR

/-- A well-formed move of the side to move, in the words of the hash claim: a
piece of the side to move on `from`, `to ≠ from`, the en-passant flag only on
a pawn capturing onto the empty en-passant square, the castle flag only on a
king two-step whose rook stands on the home corner, the promotion flag only
with a promotion piece. -/
structure well_formed_move (b : Board) (m : Move) : Prop where
  from_lo : 0 ≤ m.from_
  from_hi : m.from_ < 64
  to_lo : 0 ≤ m.to_
  to_hi : m.to_ < 64
  own_piece : b.squares m.from_ ≠ EMPTY
  own_side : is_white (b.squares m.from_) = b.white_to_move
  distinct : m.to_ ≠ m.from_
  ep_ok : m.flags &&& 2 ≠ 0 →
    abs_piece (b.squares m.from_) = 1 ∧ m.to_ = b.ep_square ∧ b.squares m.to_ = EMPTY ∧
    rank_of m.to_ = rank_of m.from_ + (if b.white_to_move then 1 else -1) ∧
    (file_of m.to_ = file_of m.from_ + 1 ∨ file_of m.to_ = file_of m.from_ - 1)
  castle_ok : m.flags &&& 1 ≠ 0 →
    abs_piece (b.squares m.from_) = 6 ∧ rank_of m.to_ = rank_of m.from_ ∧
    (file_of m.to_ = file_of m.from_ + 2 ∨ file_of m.to_ = file_of m.from_ - 2) ∧
    (file_of m.to_ = 6 → b.squares (idx (home_rank b) 7) = own_rook b) ∧
    (file_of m.to_ = 2 → b.squares (idx (home_rank b) 0) = own_rook b)
  promo_ok : m.flags &&& 4 ≠ 0 → m.promotion ≠ EMPTY ∧ -6 ≤ m.promotion ∧ m.promotion ≤ 6

/-- The square the castling rook lands on (f-file for a king-side castle,
d-file for a queen-side one, on the mover's home rank) is empty. -/
def rook_target_empty (b : Board) (m : Move) : Prop :=
  m.flags &&& 1 ≠ 0 →
    (file_of m.to_ = 6 → b.squares (idx (home_rank b) 5) = EMPTY) ∧
    (file_of m.to_ = 2 → b.squares (idx (home_rank b) 3) = EMPTY)

/-- The squares of the ray from `(r, f)` in direction `(dr, df)`, nearest
first, up to the board edge. -/
def ray_squares (r f dr df : Int) : List (Int × Int) :=
  ((List.range 7).map fun k => (r + ((k : Int) + 1) * dr, f + ((k : Int) + 1) * df)).takeWhile
    fun q => in_range q.1 q.2

/-- The first occupied square along a ray, `EMPTY` when the ray is empty. -/
def first_occupied (b : Board) (r f dr df : Int) : Piece :=
  match (ray_squares r f dr df).find? (fun q => !is_empty (b.squares (idx q.1 q.2))) with
  | some q => b.squares (idx q.1 q.2)
  | none => EMPTY

/-- Attack under the standard rules, in the words of the attack claim: a pawn
on one of the two diagonal predecessor squares, a knight at an L-shaped
offset, a bishop or queen that is the first occupied square along a diagonal,
a rook or queen that is the first occupied square along an orthogonal, or a
king on an adjacent square. -/
def attacked_spec (b : Board) (sq : Int) (by_white : Bool) : Bool :=
  let r := rank_of sq
  let f := file_of sq
  let own (k : Int) : Piece := if by_white then k else -k
  pawn_scan b r f by_white ||
  offset_scan b r f (own 2) KOFF ||
  DIAG_DIRS.any (fun d => let p := first_occupied b r f d.1 d.2; p == own 3 || p == own 5) ||
  ORTH_DIRS.any (fun d => let p := first_occupied b r f d.1 d.2; p == own 4 || p == own 5) ||
  offset_scan b r f (own 6) KING_OFF

/-- Modelled from the spec: the leaf count `perft`, which has no function
under `src/`: the number of leaf positions reached by recursively applying
`generate_legal_moves` and `make_move` to the given depth. -/
def perft (fuel : Nat) (Z : Zobrist) : Nat → Board → Option Nat
  | 0, _ => some 1
  | d + 1, b =>
    match generate_legal_moves fuel Z b with
    | none => none
    | some ms =>
      ms.foldlM (fun acc m => (perft fuel Z d (make_move Z b m).board).map (acc + ·)) 0

/-! ## Auxiliary definitions of the proofs -/

/-- The hash contribution of the piece `p` on square `i` (zero for `EMPTY`). -/
def sq_key (Z : Zobrist) (p : Piece) (i : Int) : Nat :=
  if p ≠ EMPTY then Z.piece_square (PIECE_INDEX (p + 6)) i else 0

/-- The piece-square part of `hash_fold` over the first `n` squares. -/
def squares_fold (Z : Zobrist) (s : Int → Piece) (n : Nat) : Nat :=
  (List.range n).foldl (hash_step Z s) 0

def side_key (Z : Zobrist) (wtm : Bool) : Nat := if !wtm then Z.black_to_move else 0
def ep_key (Z : Zobrist) (ep : Int) : Nat := if ep ≥ 0 then Z.ep_file (file_of ep) else 0

/-- The invariant of the running hash inside `make_move`: it is the fold of the
current squares without the contribution of the square `to_`, with the side
key `side` and without castling and en-passant keys. -/
def hash_inv (Z : Zobrist) (side : Nat) (to_ : Int) (w : Work) : Prop :=
  w.hash = squares_fold Z w.squares 64 ^^^ sq_key Z (w.squares to_) to_ ^^^ side

/-- One statement `if (c) castling_rights &= ~k;`. -/
def clear_if (c : Prop) [Decidable c] (k x : Nat) : Nat := if c then x &&& (255 - k) else x

/-- A key table with pairwise different keys on the entries used below. -/
def sampleKeys : Zobrist :=
  { piece_square := fun pi sq => 64 * pi + sq.toNat + 1
    black_to_move := 1000
    castling := fun k => 2000 + k
    ep_file := fun f => 3000 + f.toNat }

/-- White king e1, rook h1 and bishop f1, black king e8; white to move with
the king-side right. -/
def blocked_castle (Z : Zobrist) : Board :=
  position Z [(4, WK), (5, WB), (7, WR), (60, BK)] true 1 (-1)

/-- The king-side castling move `e1g1`. -/
def e1g1 : Move := { from_ := 4, to_ := 6, promotion := 0, flags := 1 }

/-- White king a1 and pawn a2, black bishop c3 and king h8. -/
def bishop_check (Z : Zobrist) : Board :=
  position Z [(0, WK), (8, WP), (18, BB), (63, BK)] true 0 (-1)

/-- White king e1, rook h1, pawns e2 f2 g2; black bishop a5 and king a7;
white to move with the king-side right. -/
def castle_in_check (Z : Zobrist) : Board :=
  position Z [(4, WK), (7, WR), (12, WP), (13, WP), (14, WP), (32, BB), (48, BK)] true 1 (-1)

/-- The position `r3k2r/8/8/8/8/8/4r3/R3K2R w KQkq - 0 1`. -/
def rook_on_e2 (Z : Zobrist) : Board :=
  position Z [(0, WR), (4, WK), (7, WR), (12, BR), (56, BR), (60, BK), (63, BR)] true 15 (-1)

/-- White king h1 and pawns g2 h2 h3, black king a8; white to move. -/
def cornered_king (Z : Zobrist) : Board :=
  position Z [(7, WK), (14, WP), (15, WP), (23, WP), (56, BK)] true 0 (-1)

/-- The legality filter passed the move `m` on `b`: the mover is not in check
on the board after `make_move`. -/
def legal_after (fuel : Nat) (Z : Zobrist) (b : Board) (m : Move) : Prop :=
  in_check fuel (make_move Z b m).board b.white_to_move = some false

/-- A piece of the generator keeps the property `P` of the moves in the
vector: when it returns, every move of the result satisfies `P` if every move
it was given does. -/
def Sound (P : Move → Prop) (g : List Move → Option (List Move)) : Prop :=
  ∀ ms ms1, g ms = some ms1 → (∀ m ∈ ms, P m) → ∀ m ∈ ms1, P m

/-- The initial position with the halfmove clock at its largest `uint16_t`
value. -/
def late_startpos (Z : Zobrist) : Board :=
  { startpos Z with halfmove_clock := 65535 }

/-- White king h1, rook g1, pawns g2 h2; black knight f2 and king a8; white
to move. -/
def smothered (Z : Zobrist) : Board :=
  position Z [(7, WK), (6, WR), (14, WP), (15, WP), (13, BN), (56, BK)] true 0 (-1)

/-- The position `8/P7/8/8/8/8/7k/7K w - - 0 1`. -/
def pawn_a7 (Z : Zobrist) : Board :=
  position Z [(48, WP), (7, WK), (15, BK)] true 0 (-1)

/-- The 20 opening moves: the single and the double push of each pawn, and
the two moves of each knight. -/
def opening_moves : List Move :=
  (List.range 8).map (fun f => quiet (8 + f) (16 + f)) ++
  (List.range 8).map (fun f => quiet (8 + f) (24 + f)) ++
  [quiet 1 16, quiet 1 18, quiet 6 21, quiet 6 23]

/-- The move is made by a pawn. -/
@[reducible] def is_pawn_move (b : Board) (m : Move) : Prop := abs_piece (b.squares m.from_) = 1

/-- The move captures: the target square is occupied, or the move carries the
en-passant flag and the square behind the target holds a piece. -/
@[reducible] def is_capture (b : Board) (m : Move) : Prop :=
  b.squares m.to_ ≠ EMPTY ∨
  (m.flags &&& 2 ≠ 0 ∧
    b.squares (idx (rank_of m.to_ + (if is_white (b.squares m.from_) then -1 else 1))
      (file_of m.to_)) ≠ EMPTY)

/-- A move other than an en-passant capture that `unmake_move` can take back,
in the words of the round-trip claim: a well-formed move without the
en-passant flag, whose promotion flag is only set on a pawn and with a
promotion piece of the mover's colour. -/
structure plain_move (b : Board) (m : Move) : Prop where
  well_formed : well_formed_move b m
  no_ep : m.flags &&& 2 = 0
  promo_pawn : m.flags &&& 4 ≠ 0 →
    abs_piece (b.squares m.from_) = 1 ∧ is_white m.promotion = b.white_to_move

/-! ## The search: the claims in the terms of the model, and inputs -/

/-- What the backpropagation claim says a node receives: `1` more visit and
`x` more value, for the node and for its child `idx` when `idx` names a
child. -/
def credit_node {F D R : Type} (A : Arith F D R) (n : MCTSNodeData F) (idx : Nat) (x : F) :
    MCTSNodeData F :=
  { visits := (n.visits + 1) % 4294967296
    value_sum := A.add n.value_sum x
    moves := n.moves
    child_visits :=
      if idx ≠ SIZE_MAX then n.child_visits.set idx ((n.child_visits.getD idx 0 + 1) % 4294967296)
      else n.child_visits
    child_values :=
      if idx ≠ SIZE_MAX then n.child_values.set idx (A.add (n.child_values.getD idx A.zero) x)
      else n.child_values }

/-- What the backpropagation claim says one frame receives: the node at the
frame's key is credited with `x`, and with persistence on the Q entry of the
key gets `x` more value and `1` more visit. -/
def credit {F D R : Type} (A : Arith F D R) (persistent_q : Bool) (fr : Nat × Nat) (x : F)
    (tq : (Nat → Option (MCTSNodeData F)) × (Nat → Option (F × Nat))) :
    (Nat → Option (MCTSNodeData F)) × (Nat → Option (F × Nat)) :=
  let e := (tq.2 fr.1).getD (A.zero, 0)
  (put tq.1 fr.1 (credit_node A ((tq.1 fr.1).getD (empty_node A)) fr.2 x),
    if persistent_q then put tq.2 fr.1 (A.add e.1 x, (e.2 + 1) % 4294967296) else tq.2)

/-- The backpropagation claim for a whole path: `frames` lists the path from
the deepest frame upwards, and the frame `k` steps above the deepest one is
credited with the leaf value negated `k` times. -/
def credit_path {F D R : Type} (A : Arith F D R) (persistent_q : Bool) (v : F) :
    List (Nat × Nat) → Nat →
    (Nat → Option (MCTSNodeData F)) × (Nat → Option (F × Nat)) →
    (Nat → Option (MCTSNodeData F)) × (Nat → Option (F × Nat))
  | [], _, tq => tq
  | fr :: frames, k, tq =>
    credit_path A persistent_q v frames (k + 1) (credit A persistent_q fr (A.neg^[k] v) tq)

/-- The visit count a node expanded in the state `st` at key `k` starts with:
the count of the Q entry when persistence is on and the entry exists, else
`0`. -/
def seeded_visits {F R : Type} (st : MCTS F R) (k : Nat) : Nat :=
  if st.persistent_q then
    match st.qtable k with
    | some e => e.2
    | none => 0
  else 0

/-- The seeded counts after a `simulate` call that led from `st` to `st1`: a
key that got its node during the call is seeded from `st`, every other key
keeps its count. -/
def next_seeds {F R : Type} (st st1 : MCTS F R) (seed : Nat → Nat) : Nat → Nat :=
  fun k => if (st.table k).isNone ∧ (st1.table k).isSome then seeded_visits st k else seed k

/-- A sequence of `simulate` calls, one per board of the list, together with
the seeded count of every key. -/
def simulate_all {F D R : Type} (A : Arith F D R) (fuel : Nat) (Z : Zobrist) :
    List Board → MCTS F R × (Nat → Nat) → Option (MCTS F R × (Nat → Nat))
  | [], s => some s
  | b :: bs, s =>
    match simulate A fuel Z s.1 b with
    | none => none
    | some r => simulate_all A fuel Z bs (r.1, next_seeds s.1 r.1 s.2)

/-- The visit-count claim for one node: the per-child counters are as many as
the moves and, when the move list is shorter than `(size_t)-1` as every
`std::vector` is, `visits` is `seed` plus the sum of the child counters in
`uint32_t` arithmetic. -/
def node_ok {F : Type} (seed : Nat) (n : MCTSNodeData F) : Prop :=
  n.child_visits.length = n.moves.length ∧
  (n.moves.length ≤ SIZE_MAX →
    n.visits % 4294967296 = (seed + n.child_visits.sum) % 4294967296)

/-- Every node of the table satisfies `node_ok` for its seeded count. -/
def table_ok {F : Type} (seed : Nat → Nat) (T : Nat → Option (MCTSNodeData F)) : Prop :=
  ∀ k n, T k = some n → node_ok (seed k) n

/-- Every entry of the path names a node of the table and one of its
children. -/
def path_ok {F : Type} (T : Nat → Option (MCTSNodeData F)) (path : List (Nat × Nat)) : Prop :=
  ∀ fr ∈ path, ∃ n, T fr.1 = some n ∧ fr.2 < n.child_visits.length

/-- Newton iteration for the integer square root of `n` from the guess `x`,
at most `k` steps. -/
def newton (n : Nat) : Nat → Nat → Nat
  | 0, x => x
  | k + 1, x => if (x + n / x) / 2 < x then newton n k ((x + n / x) / 2) else x

/-- The integer square root, for `n` below `2 ^ 64`. -/
def int_sqrt (n : Nat) : Nat := if n = 0 then 0 else newton n 64 n

/-- An exact fixed-point arithmetic in thousandths and a counter as random
generator, for running the search on concrete inputs. -/
def fixedArith : Arith Int Nat Nat :=
  { zero := 0
    one := 1000
    lit_1e9 := 1000000000000
    lit_neg_1e9 := -1000000000000
    lit_1_2 := 1200
    lit_0_001 := 1
    of_u32 := fun n => 1000 * (n : Int)
    of_reward := fun r => 1000 * r
    of_double := fun d => (d : Int)
    add := fun x y => x + y
    neg := fun x => -x
    mul := fun x y => x * y / 1000
    div := fun x y => x * 1000 / y
    sqrt := fun x => (int_sqrt (x.toNat * 1000) : Nat)
    gt := fun x y => decide (x > y)
    uniform01 := fun r => ((r * 377) % 1000, r + 1)
    jitter := fun d => ((d : Int) - 500) / 100
    pick := fun d n => d * n / 1000 }

/-- White king e8 between its rooks d8 and f8 and behind its pawns d7, e7,
f7, white knight b5; black king a8 behind its pawns a7, b7 and next to its
knight b8; the black knight c7 gives check.  White to move has the single
legal move `b5xc7`, which mates. -/
def knight_duel (Z : Zobrist) : Board :=
  position Z [(60, WK), (59, WR), (61, WR), (51, WP), (52, WP), (53, WP), (33, WN),
    (56, BK), (48, BP), (49, BP), (57, BN), (50, BN)] true 0 (-1)

/-- A search state with empty search table, persistence on, and a Q-table
that holds the entry `(0.5, 7)` for the position `knight_duel`. -/
def loaded_search : MCTS Int Nat :=
  { table := fun _ => none
    qtable := put (fun _ => none) (knight_duel sampleKeys).hash (500, 7)
    time_budget_ms := 0
    persistent_q := true
    rng := 0 }

/-- A clock whose `k`-th reading is `10 * k` milliseconds. -/
def ten_ms : Nat → Int := fun k => 10 * k

/-- A node for the initial position with the 20 opening moves, of which the
second and the fourth were visited five times each. -/
def voted_node : MCTSNodeData Int :=
  { visits := 16
    value_sum := 0
    moves := opening_moves
    child_visits := [2, 5, 1, 5, 0, 0, 0, 0, 0, 0, 0, 0, 0, 0, 0, 0, 0, 0, 0, 3]
    child_values := List.replicate 20 0 }

/-- A search state with a time budget of one millisecond whose table holds
`voted_node` for the initial position. -/
def voted_search : MCTS Int Nat :=
  { table := put (fun _ => none) (startpos sampleKeys).hash voted_node
    qtable := fun _ => none
    time_budget_ms := 1
    persistent_q := true
    rng := 0 }

/-- Three calls of `simulate` on `knight_duel`, from `loaded_search`. -/
def three_runs : Option (MCTS Int Nat × (Nat → Nat)) :=
  simulate_all fixedArith 8 sampleKeys
    [knight_duel sampleKeys, knight_duel sampleKeys, knight_duel sampleKeys]
    (loaded_search, fun _ => 0)

/-- The search state after one call of `simulate` on `knight_duel`, from
`loaded_search`: the table holds the node of `knight_duel`. -/
def expanded_search : MCTS Int Nat :=
  ((simulate fixedArith 8 sampleKeys loaded_search (knight_duel sampleKeys)).map Prod.fst).getD
    loaded_search

/-- The castling right `i` (bit `i` of `castling_rights`) is backed by the
pieces: when it is set, the king `K` stands on `ksq` and the rook `R` on
`rsq`. -/
def right_backed (b : Board) (i : Nat) (K : Piece) (ksq : Int) (R : Piece) (rsq : Int) : Prop :=
  b.castling_rights.testBit i = true → b.squares ksq = K ∧ b.squares rsq = R

/-- Castling-right consistency, in the words of the invariant claim: every
set castling-right bit has its king on the home square (e1 / e8) and its rook
on the home corner (WK: h1, WQ: a1, BK: h8, BQ: a8). -/
def castling_consistent (b : Board) : Prop :=
  right_backed b 0 WK 4 WR 7 ∧ right_backed b 1 WK 4 WR 0 ∧
  right_backed b 2 BK 60 BR 63 ∧ right_backed b 3 BK 60 BR 56

/-- The square from which the block `if (m.flags & 2)` of `make_move` removes
the captured piece. -/
def ep_victim_square (b : Board) (m : Move) : Int :=
  idx (rank_of m.to_ + (if is_white (b.squares m.from_) then -1 else 1)) (file_of m.to_)

/-- White king e1 behind the pawns d2, e2, f2 and d3, e3, f3, white rook h1
and a white pawn on g1; black king e8; white to move with the king-side right
and the en-passant square h2. -/
def pawn_on_g1 (Z : Zobrist) : Board :=
  position Z [(4, WK), (7, WR), (6, WP), (60, BK), (11, WP), (12, WP), (13, WP), (19, WP),
    (20, WP), (21, WP)] true 1 15

/-- The move `g1xh2` with the en-passant flag. -/
def g1h2 : Move := { from_ := 6, to_ := 15, promotion := 0, flags := 2 }

/-- The position `4k3/8/8/8/8/8/8/4K3 w - - 0 1`. -/
def bare_kings (Z : Zobrist) : Board := position Z [(4, WK), (60, BK)] true 0 (-1)

/-! # Theorems -/

/-! ## Basic facts -/

theorem setSq_same (s : Int → Piece) (i : Int) (v : Piece) : setSq s i v i = v := by
  simp [setSq]

theorem setSq_other (s : Int → Piece) (i j : Int) (v : Piece) (h : j ≠ i) :
    setSq s i v j = s j := by
  simp [setSq, h]

theorem idx_rank_file (sq : Int) : idx (rank_of sq) (file_of sq) = sq := by
  simp only [idx, rank_of, file_of]; omega

theorem rank_file_bounds (sq : Int) (h0 : 0 ≤ sq) (h1 : sq < 64) :
    0 ≤ rank_of sq ∧ rank_of sq ≤ 7 ∧ 0 ≤ file_of sq ∧ file_of sq ≤ 7 ∧
      rank_of sq * 8 + file_of sq = sq := by
  simp only [rank_of, file_of]; omega

theorem own_pawn_abs (b : Board) : abs_piece (own_pawn b) = 1 := by
  cases hw : b.white_to_move <;> simp [own_pawn, abs_piece, WP, BP, hw]

theorem own_pawn_white (b : Board) : is_white (own_pawn b) = b.white_to_move := by
  cases hw : b.white_to_move <;> simp [own_pawn, is_white, WP, BP, hw]

theorem enemy_pawn_ne (b : Board) : enemy_pawn b ≠ EMPTY := by
  cases hw : b.white_to_move <;> simp [enemy_pawn, EMPTY, WP, BP, hw]

theorem own_rook_ne (b : Board) : own_rook b ≠ EMPTY := by
  cases hw : b.white_to_move <;> simp [own_rook, EMPTY, WR, BR, hw]

theorem own_rook_abs (b : Board) : abs_piece (own_rook b) = 4 := by
  cases hw : b.white_to_move <;> simp [own_rook, abs_piece, WR, BR, hw]

/-! ## C1: make / unmake and the move counter -/

theorem make_unmake_fullmove (Z : Zobrist) (b : Board) (m : Move) :
    (make_unmake Z b m).fullmove_number =
      if b.white_to_move then (b.fullmove_number + 65535) % 65536
      else (b.fullmove_number + 1) % 65536 := by
  cases h : b.white_to_move <;> simp [make_unmake, unmake_move, update_hash, make_move, h]

/-- On every board and for every move, `make_move` followed by `unmake_move`
leaves a `fullmove_number` different from the original one: `make_move`
increments it after a black move, `unmake_move` decrements it when the
restored side to move is white. -/
theorem make_unmake_fullmove_ne (Z : Zobrist) (b : Board) (m : Move) :
    (make_unmake Z b m).fullmove_number ≠ b.fullmove_number := by
  rw [make_unmake_fullmove]
  split <;> omega

theorem startpos_fullmove (Z : Zobrist) : (startpos Z).fullmove_number = 1 := rfl

theorem startpos_white_to_move (Z : Zobrist) : (startpos Z).white_to_move = true := rfl

/-- C1, at the failing input: from the initial position (move counter `1`),
`make_move` of the quiet move e2e4 followed by `unmake_move` with the returned
undo data leaves the move counter at `0`, for every key table, so the board
is not restored. -/
theorem make_unmake_e2e4_fullmove (Z : Zobrist) :
    (startpos Z).fullmove_number = 1 ∧
    (make_unmake Z (startpos Z) (quiet 12 28)).fullmove_number = 0 := by
  refine ⟨rfl, ?_⟩
  rw [make_unmake_fullmove, startpos_white_to_move, startpos_fullmove]
  rfl

/-! ## C2: the incremental hash -/

theorem xor_swap (a b c : Nat) : a ^^^ b ^^^ c = a ^^^ c ^^^ b := by
  rw [Nat.xor_assoc, Nat.xor_comm b c, ← Nat.xor_assoc]

theorem xor_twice (a b : Nat) : a ^^^ b ^^^ b = a := by
  rw [Nat.xor_assoc, Nat.xor_self, Nat.xor_zero]

theorem xor_left_comm (a b c : Nat) : a ^^^ (b ^^^ c) = b ^^^ (a ^^^ c) := by
  rw [← Nat.xor_assoc, Nat.xor_comm a b, Nat.xor_assoc]

theorem xor_cancel_mid (a b : Nat) : a ^^^ (a ^^^ b) = b := by
  rw [← Nat.xor_assoc, Nat.xor_self, Nat.zero_xor]

theorem ite_xor (c : Prop) [Decidable c] (h k : Nat) :
    (if c then h ^^^ k else h) = h ^^^ (if c then k else 0) := by
  split <;> simp

theorem hash_step_eq (Z : Zobrist) (s : Int → Piece) (h sq : Nat) :
    hash_step Z s h sq = h ^^^ sq_key Z (s sq) sq := by
  unfold hash_step sq_key
  by_cases hp : s (sq : Int) ≠ EMPTY
  · simp only [if_pos hp]
  · simp only [if_neg hp, Nat.xor_zero]

theorem squares_fold_succ (Z : Zobrist) (s : Int → Piece) (n : Nat) :
    squares_fold Z s (n + 1) = squares_fold Z s n ^^^ sq_key Z (s n) n := by
  unfold squares_fold
  rw [List.range_succ, List.foldl_append]
  simp [hash_step_eq]

/-- Writing one square changes the fold by the keys of the old and the new
occupant, when the square is among the first `n`. -/
theorem squares_fold_setSq (Z : Zobrist) (s : Int → Piece) (i : Int) (v : Piece) (n : Nat) :
    squares_fold Z (setSq s i v) n =
      if 0 ≤ i ∧ i < n then squares_fold Z s n ^^^ sq_key Z (s i) i ^^^ sq_key Z v i
      else squares_fold Z s n := by
  induction n with
  | zero =>
    have : ¬ (0 ≤ i ∧ i < ((0 : Nat) : Int)) := by omega
    rw [if_neg this]
    rfl
  | succ n ih =>
    rw [squares_fold_succ, squares_fold_succ, ih]
    by_cases hi : i = (n : Int)
    · subst hi
      have h1 : ¬ (0 ≤ (n : Int) ∧ (n : Int) < (n : Int)) := by omega
      have h2 : 0 ≤ (n : Int) ∧ (n : Int) < ((n + 1 : Nat) : Int) := by omega
      rw [if_neg h1, if_pos h2, setSq_same, xor_twice]
    · have hne : ((n : Int)) ≠ i := fun h => hi h.symm
      rw [setSq_other _ _ _ _ hne]
      by_cases hlt : 0 ≤ i ∧ i < (n : Int)
      · have h2 : 0 ≤ i ∧ i < ((n + 1 : Nat) : Int) := by omega
        rw [if_pos hlt, if_pos h2]
        rw [xor_swap _ (sq_key Z v i), xor_swap _ (sq_key Z (s i) i)]
      · have h2 : ¬ (0 ≤ i ∧ i < ((n + 1 : Nat) : Int)) := by omega
        rw [if_neg hlt, if_neg h2]

theorem squares_fold_set (Z : Zobrist) (s : Int → Piece) (i : Int) (v : Piece)
    (h0 : 0 ≤ i) (h1 : i < 64) :
    squares_fold Z (setSq s i v) 64 = squares_fold Z s 64 ^^^ sq_key Z (s i) i ^^^ sq_key Z v i := by
  rw [squares_fold_setSq, if_pos]
  exact ⟨h0, by omega⟩

theorem hash_fold_eq (Z : Zobrist) (b : Board) :
    hash_fold Z b = squares_fold Z b.squares 64 ^^^ side_key Z b.white_to_move ^^^
      Z.castling (b.castling_rights &&& 15) ^^^ ep_key Z b.ep_square := by
  unfold hash_fold squares_fold side_key ep_key
  cases b.white_to_move <;> by_cases h : b.ep_square ≥ 0 <;> simp [h]

theorem sq_key_empty (Z : Zobrist) (i : Int) : sq_key Z EMPTY i = 0 := by
  simp [sq_key]

theorem sq_key_piece (Z : Zobrist) (p : Piece) (i : Int) (h : p ≠ EMPTY) :
    sq_key Z p i = Z.piece_square (PIECE_INDEX (p + 6)) i := by
  simp [sq_key, h]

theorem hash_out_eq (Z : Zobrist) (b : Board) (m : Move) :
    hash_out Z b m = b.hash ^^^ sq_key Z (b.squares m.from_) m.from_ ^^^
      sq_key Z (b.squares m.to_) m.to_ ^^^ Z.castling (b.castling_rights &&& 15) ^^^
      ep_key Z b.ep_square := by
  simp only [hash_out, sq_key, ep_key, ite_xor]

theorem hash_in_eq (Z : Zobrist) (h : Nat) (p : Piece) (to_ : Int) (cr : Nat) (ep : Int) :
    hash_in Z h p to_ cr ep = h ^^^ sq_key Z p to_ ^^^ Z.castling (cr &&& 15) ^^^ ep_key Z ep ^^^
      Z.black_to_move := by
  simp only [hash_in, sq_key, ep_key, ite_xor]

theorem side_key_not (Z : Zobrist) (wtm : Bool) :
    side_key Z (!wtm) = side_key Z wtm ^^^ Z.black_to_move := by
  cases wtm <;> simp [side_key]

theorem hash_inv_init (Z : Zobrist) (b : Board) (m : Move) (hh : b.hash = hash_fold Z b)
    (ht0 : 0 ≤ m.to_) (ht1 : m.to_ < 64) (hf0 : 0 ≤ m.from_) (hf1 : m.from_ < 64)
    (hne : m.to_ ≠ m.from_) :
    hash_inv Z (side_key Z b.white_to_move) m.to_
      { squares := move_piece b m, hash := hash_out Z b m, captured_out := b.squares m.to_ } := by
  unfold hash_inv
  simp only [move_piece]
  rw [squares_fold_set _ _ _ _ hf0 hf1, squares_fold_set _ _ _ _ ht0 ht1,
    setSq_other _ _ _ _ hne.symm, setSq_other _ _ _ _ hne, setSq_same, sq_key_empty,
    hash_out_eq, hh, hash_fold_eq]
  simp only [Nat.xor_assoc, Nat.xor_comm, xor_left_comm, Nat.xor_self, Nat.xor_zero,
    Nat.zero_xor, xor_cancel_mid]


theorem hash_inv_set (Z : Zobrist) (side : Nat) (to_ : Int) (w : Work) (i : Int)
    (hw : hash_inv Z side to_ w) (h0 : 0 ≤ i) (h1 : i < 64) (hne : to_ ≠ i) :
    hash_inv Z side to_
      { squares := setSq w.squares i EMPTY, hash := w.hash ^^^ sq_key Z (w.squares i) i,
        captured_out := w.captured_out } := by
  unfold hash_inv at *
  simp only
  rw [squares_fold_set _ _ _ _ h0 h1, setSq_other _ _ _ _ hne, sq_key_empty, hw]
  simp only [Nat.xor_assoc, Nat.xor_comm, xor_left_comm, Nat.xor_self, Nat.xor_zero,
    Nat.zero_xor, xor_cancel_mid]

theorem hash_inv_en_passant (Z : Zobrist) (side : Nat) (m : Move) (moving : Piece) (w : Work)
    (hw : hash_inv Z side m.to_ w)
    (hcap : m.flags &&& 2 ≠ 0 →
      0 ≤ idx (rank_of m.to_ + (if is_white moving then -1 else 1)) (file_of m.to_) ∧
      idx (rank_of m.to_ + (if is_white moving then -1 else 1)) (file_of m.to_) < 64 ∧
      m.to_ ≠ idx (rank_of m.to_ + (if is_white moving then -1 else 1)) (file_of m.to_)) :
    hash_inv Z side m.to_ (en_passant_step Z m moving w) := by
  by_cases hf : m.flags &&& 2 ≠ 0
  · obtain ⟨h0, h1, hne⟩ := hcap hf
    by_cases hc : w.squares
        (idx (rank_of m.to_ + (if is_white moving then -1 else 1)) (file_of m.to_)) ≠ EMPTY
    · have := hash_inv_set Z side m.to_ w _ hw h0 h1 hne
      rw [sq_key_piece _ _ _ hc] at this
      simp only [en_passant_step, if_pos hf, if_pos hc]
      exact this
    · simp only [en_passant_step, if_pos hf, if_neg hc]
      exact hw
  · simp only [en_passant_step, if_neg hf]
    exact hw

theorem hash_inv_castle_rook (Z : Zobrist) (side : Nat) (to_ : Int) (moving : Piece) (w : Work)
    (ff ft : Int) (hw : hash_inv Z side to_ w)
    (hf0 : 0 ≤ idx (if is_white moving then 0 else 7) ff)
    (hf1 : idx (if is_white moving then 0 else 7) ff < 64)
    (ht0 : 0 ≤ idx (if is_white moving then 0 else 7) ft)
    (ht1 : idx (if is_white moving then 0 else 7) ft < 64)
    (hft : idx (if is_white moving then 0 else 7) ff ≠ idx (if is_white moving then 0 else 7) ft)
    (hf : to_ ≠ idx (if is_white moving then 0 else 7) ff)
    (ht : to_ ≠ idx (if is_white moving then 0 else 7) ft)
    (hrook : w.squares (idx (if is_white moving then 0 else 7) ff) ≠ EMPTY)
    (hempty : w.squares (idx (if is_white moving then 0 else 7) ft) = EMPTY) :
    hash_inv Z side to_ (castle_rook Z moving w ff ft) := by
  have hk : ∀ i, sq_key Z (w.squares (idx (if is_white moving then 0 else 7) ff)) i =
      Z.piece_square (PIECE_INDEX (w.squares (idx (if is_white moving then 0 else 7) ff) + 6)) i :=
    fun i => sq_key_piece Z _ i hrook
  unfold hash_inv at *
  simp only [castle_rook]
  rw [squares_fold_set _ _ _ _ hf0 hf1, squares_fold_set _ _ _ _ ht0 ht1,
    setSq_other _ _ _ _ hft, setSq_other _ _ _ _ hf, setSq_other _ _ _ _ ht, hempty,
    sq_key_empty, sq_key_empty, hw]
  simp only [hk, Nat.xor_assoc, Nat.xor_comm, xor_left_comm, Nat.xor_self, Nat.xor_zero,
    Nat.zero_xor, xor_cancel_mid]

theorem hash_inv_promotion (Z : Zobrist) (side : Nat) (m : Move) (w : Work)
    (hw : hash_inv Z side m.to_ w) (h0 : 0 ≤ m.to_) (h1 : m.to_ < 64) :
    hash_inv Z side m.to_ (promotion_step m w) := by
  unfold promotion_step
  split
  · unfold hash_inv at *
    simp only
    rw [squares_fold_set _ _ _ _ h0 h1, setSq_same, hw]
    simp only [Nat.xor_assoc, Nat.xor_comm, xor_left_comm, Nat.xor_self, Nat.xor_zero,
      Nat.zero_xor, xor_cancel_mid]
  · exact hw

/-- Once the running hash satisfies the invariant at the end of the special
moves, the hash `make_move` stores is the from-scratch fold of the new board. -/
theorem make_move_hash_of_inv (Z : Zobrist) (b : Board) (m : Move)
    (hw : hash_inv Z (side_key Z b.white_to_move) m.to_ (make_move_work Z b m)) :
    (make_move Z b m).board.hash = hash_fold Z (make_move Z b m).board := by
  rw [hash_fold_eq]
  show hash_in Z (make_move_work Z b m).hash ((make_move_work Z b m).squares m.to_) m.to_
      (update_rights b m) (update_ep b m) =
    squares_fold Z (make_move_work Z b m).squares 64 ^^^ side_key Z (!b.white_to_move) ^^^
      Z.castling (update_rights b m &&& 15) ^^^ ep_key Z (update_ep b m)
  unfold hash_inv at hw
  rw [hash_in_eq, hw, side_key_not]
  simp only [Nat.xor_assoc, Nat.xor_comm, xor_left_comm, Nat.xor_self, Nat.xor_zero,
    Nat.zero_xor, xor_cancel_mid]


theorem hash_inv_castle (Z : Zobrist) (b : Board) (m : Move) (w : Work)
    (h : well_formed_move b m) (hr : rook_target_empty b m)
    (hs : abs_piece (b.squares m.from_) = 6 → w.squares = move_piece b m)
    (hw : hash_inv Z (side_key Z b.white_to_move) m.to_ w) :
    hash_inv Z (side_key Z b.white_to_move) m.to_ (castle_step Z m (b.squares m.from_) w) := by
  unfold castle_step
  by_cases hc : abs_piece (b.squares m.from_) = 6 ∧ m.flags &&& 1 ≠ 0
  · rw [if_pos hc]
    obtain ⟨hking, hrank, hfile, hk, hq⟩ := h.castle_ok hc.2
    obtain ⟨hke, hqe⟩ := hr hc.2
    have hto := idx_rank_file m.to_
    have hfrom := idx_rank_file m.from_
    have hhome : (if is_white (b.squares m.from_) then (0 : Int) else 7) = home_rank b := by
      rw [h.own_side]; rfl
    have hhr : home_rank b = 0 ∨ home_rank b = 7 := by
      unfold home_rank; split <;> simp
    have hsq : ∀ f : Int, idx (home_rank b) f ≠ m.to_ → idx (home_rank b) f ≠ m.from_ →
        w.squares (idx (home_rank b) f) = b.squares (idx (home_rank b) f) := by
      intro f h1 h2
      rw [hs hking]
      simp only [move_piece]
      rw [setSq_other _ _ _ _ h2, setSq_other _ _ _ _ h1]
    simp only [idx] at hto hfrom
    by_cases h6 : file_of m.to_ = 6
    · rw [if_pos h6]
      have e7t : idx (home_rank b) 7 ≠ m.to_ := by simp only [idx]; omega
      have e7f : idx (home_rank b) 7 ≠ m.from_ := by simp only [idx]; omega
      have e5t : idx (home_rank b) 5 ≠ m.to_ := by simp only [idx]; omega
      have e5f : idx (home_rank b) 5 ≠ m.from_ := by simp only [idx]; omega
      apply hash_inv_castle_rook Z _ _ _ _ _ _ hw <;> rw [hhome]
      · simp only [idx]; omega
      · simp only [idx]; omega
      · simp only [idx]; omega
      · simp only [idx]; omega
      · simp only [idx]; omega
      · exact e7t.symm
      · exact e5t.symm
      · rw [hsq 7 e7t e7f, hk h6]; exact own_rook_ne b
      · rw [hsq 5 e5t e5f, hke h6]
    · rw [if_neg h6]
      by_cases h2 : file_of m.to_ = 2
      · rw [if_pos h2]
        have e0t : idx (home_rank b) 0 ≠ m.to_ := by simp only [idx]; omega
        have e0f : idx (home_rank b) 0 ≠ m.from_ := by
          intro hcontra
          have := hq h2
          rw [hcontra] at this
          rw [this, own_rook_abs] at hking
          exact absurd hking (by decide)
        have e3t : idx (home_rank b) 3 ≠ m.to_ := by simp only [idx]; omega
        have e3f : idx (home_rank b) 3 ≠ m.from_ := by simp only [idx]; omega
        apply hash_inv_castle_rook Z _ _ _ _ _ _ hw <;> rw [hhome]
        · simp only [idx]; omega
        · simp only [idx]; omega
        · simp only [idx]; omega
        · simp only [idx]; omega
        · simp only [idx]; omega
        · exact e0t.symm
        · exact e3t.symm
        · rw [hsq 0 e0t e0f, hq h2]; exact own_rook_ne b
        · rw [hsq 3 e3t e3f, hqe h2]
      · rw [if_neg h2]
        exact hw
  · rw [if_neg hc]
    exact hw

theorem ep_capture_in_range (b : Board) (m : Move) (h : well_formed_move b m)
    (hf : m.flags &&& 2 ≠ 0) :
    0 ≤ idx (rank_of m.to_ + (if is_white (b.squares m.from_) then -1 else 1)) (file_of m.to_) ∧
    idx (rank_of m.to_ + (if is_white (b.squares m.from_) then -1 else 1)) (file_of m.to_) < 64 ∧
    m.to_ ≠ idx (rank_of m.to_ + (if is_white (b.squares m.from_) then -1 else 1))
      (file_of m.to_) := by
  obtain ⟨-, -, -, hfw, -⟩ := h.ep_ok hf
  have ht := rank_file_bounds m.to_ h.to_lo h.to_hi
  have hfr := rank_file_bounds m.from_ h.from_lo h.from_hi
  rw [h.own_side]
  simp only [idx]
  cases hwtm : b.white_to_move
  · rw [hwtm] at hfw
    simp only [Bool.false_eq_true, if_false] at hfw ⊢
    refine ⟨?_, ?_, ?_⟩ <;> omega
  · rw [hwtm] at hfw
    simp only [if_true] at hfw ⊢
    refine ⟨?_, ?_, ?_⟩ <;> omega

/-- C2, amended: on a board whose hash field is the from-scratch fold, for
every key table and every well-formed move of the side to move whose castling
rook (if the castle flag is set) lands on an empty square, the hash field
after `make_move` is the from-scratch fold of the resulting board. -/
theorem make_move_hash_consistent (Z : Zobrist) (b : Board) (m : Move)
    (hh : b.hash = hash_fold Z b) (h : well_formed_move b m) (hr : rook_target_empty b m) :
    (make_move Z b m).board.hash = hash_fold Z (make_move Z b m).board := by
  apply make_move_hash_of_inv
  have h0 := hash_inv_init Z b m hh h.to_lo h.to_hi h.from_lo h.from_hi h.distinct
  have h1 := hash_inv_en_passant Z _ m (b.squares m.from_) _ h0 (ep_capture_in_range b m h)
  have hs : abs_piece (b.squares m.from_) = 6 →
      (en_passant_step Z m (b.squares m.from_)
        { squares := move_piece b m, hash := hash_out Z b m,
          captured_out := b.squares m.to_ }).squares = move_piece b m := by
    intro hk
    have hf : ¬ (m.flags &&& 2 ≠ 0) := by
      intro hf
      have := (h.ep_ok hf).1
      rw [hk] at this
      exact absurd this (by decide)
    simp only [en_passant_step, if_neg hf]
  have h2 := hash_inv_castle Z b m _ h hr hs h1
  exact hash_inv_promotion Z _ m _ h2 h.to_lo h.to_hi


theorem blocked_castle_well_formed : well_formed_move (blocked_castle sampleKeys) e1g1 := by
  constructor <;> decide

/-- C2, counterexample: with white king e1, rook h1 and bishop f1, the
castling move e1g1 is well formed in the sense of the claim and the hash field
is the from-scratch fold before the move, but not after it: the bishop the
rook overwrites on f1 is never taken out of the hash. -/
theorem make_move_hash_blocked_castle :
    well_formed_move (blocked_castle sampleKeys) e1g1 ∧
    (blocked_castle sampleKeys).hash = hash_fold sampleKeys (blocked_castle sampleKeys) ∧
    (make_move sampleKeys (blocked_castle sampleKeys) e1g1).board.hash ≠
      hash_fold sampleKeys (make_move sampleKeys (blocked_castle sampleKeys) e1g1).board :=
  ⟨blocked_castle_well_formed, rfl, by decide⟩

/-- C2, witness: the amended statement applied to the double pawn push e2e4
on the initial position. -/
theorem make_move_hash_consistent_witness :
    (startpos sampleKeys).hash = hash_fold sampleKeys (startpos sampleKeys) ∧
    well_formed_move (startpos sampleKeys) (quiet 12 28) ∧
    rook_target_empty (startpos sampleKeys) (quiet 12 28) ∧
    (make_move sampleKeys (startpos sampleKeys) (quiet 12 28)).board.hash =
      hash_fold sampleKeys (make_move sampleKeys (startpos sampleKeys) (quiet 12 28)).board :=
  ⟨rfl, by constructor <;> decide, by unfold rook_target_empty; decide,
    make_move_hash_consistent sampleKeys (startpos sampleKeys) (quiet 12 28) rfl
      (by constructor <;> decide) (by unfold rook_target_empty; decide)⟩

/-! ## C3: attack detection against the standard rules -/

/-- C3, at the failing input: with white king a1 and pawn a2, black bishop c3
and king h8, the bishop is the first occupied square on the diagonal from a1,
so a1 is attacked by black under the standard rules, but
`is_square_attacked(a1, black)` returns `false` with any fuel from 8 on: its
diagonal loop walks along rank 2 instead of the diagonal. -/
theorem is_square_attacked_misses_bishop (Z : Zobrist) (n : Nat) :
    first_occupied (bishop_check Z) 0 0 1 1 = BB ∧
    attacked_spec (bishop_check Z) 0 false = true ∧
    is_square_attacked (n + 8) (bishop_check Z) 0 false = some false :=
  ⟨rfl, rfl, rfl⟩


/-! ## Fuel and the ray loops of `is_square_attacked` -/

/-- A ray loop whose direction has `df = 0` never leaves an empty in-range
square: the body changes `r` only, and the loop runs out of any fuel. -/
theorem ray_loop_stuck (b : Board) (by_white : Bool) (k1 k2 dr : Int) (rr ff : Int)
    (hin : in_range rr ff = true) (he : is_empty (b.squares (idx rr ff)) = true) :
    ∀ (fuel : Nat) (r : Int), ray_loop b by_white k1 k2 dr 0 fuel r rr ff = none := by
  intro fuel
  induction fuel with
  | zero => intro r; rfl
  | succ n ih =>
    intro r
    unfold ray_loop
    simp only [hin, he, if_true, Bool.not_true, Bool.false_eq_true, if_false, Int.add_zero]
    exact ih (r + dr)

/-- More fuel does not change a result already obtained. -/
theorem ray_loop_mono (b : Board) (by_white : Bool) (k1 k2 dr df : Int) (k : Nat) :
    ∀ (fuel : Nat) (r rr ff : Int) (x : Bool × Int),
      ray_loop b by_white k1 k2 dr df fuel r rr ff = some x →
      ray_loop b by_white k1 k2 dr df (fuel + k) r rr ff = some x := by
  intro fuel
  induction fuel with
  | zero => intro r rr ff x h; simp [ray_loop] at h
  | succ n ih =>
    intro r rr ff x h
    rw [Nat.add_right_comm]
    unfold ray_loop at h ⊢
    by_cases hin : in_range rr ff = true
    · simp only [hin, if_true] at h ⊢
      by_cases he : (!is_empty (b.squares (idx rr ff))) = true
      · simp only [he, if_true] at h ⊢
        exact h
      · simp only [he, if_false] at h ⊢
        exact ih _ _ _ _ h
    · simp only [hin, if_false] at h ⊢
      exact h

theorem ray_scan_mono (b : Board) (by_white : Bool) (k1 k2 : Int) (fuel k : Nat) (f : Int) :
    ∀ (dirs : List (Int × Int)) (r : Int) (x : Bool × Int),
      ray_scan b by_white k1 k2 fuel f dirs r = some x →
      ray_scan b by_white k1 k2 (fuel + k) f dirs r = some x := by
  intro dirs
  induction dirs with
  | nil => intro r x h; exact h
  | cons d rest ih =>
    intro r x h
    unfold ray_scan at h ⊢
    cases hl : ray_loop b by_white k1 k2 d.1 d.2 fuel r (r + d.1) (f + d.2) with
    | none => rw [hl] at h; simp at h
    | some y =>
      rw [hl] at h
      rw [ray_loop_mono b by_white k1 k2 d.1 d.2 k fuel _ _ _ y hl]
      obtain ⟨found, r1⟩ := y
      cases found
      · exact ih r1 x h
      · exact h

/-- Two runs of a ray scan that both come back agree. -/
theorem ray_scan_agree (b : Board) (by_white : Bool) (k1 k2 : Int) (f : Int)
    (dirs : List (Int × Int)) (r : Int) (n1 n2 : Nat) (x y : Bool × Int)
    (h1 : ray_scan b by_white k1 k2 n1 f dirs r = some x)
    (h2 : ray_scan b by_white k1 k2 n2 f dirs r = some y) : x = y := by
  rcases Nat.le_total n1 n2 with hle | hle
  · obtain ⟨k, rfl⟩ := Nat.exists_eq_add_of_le hle
    have := ray_scan_mono b by_white k1 k2 n1 k f dirs r x h1
    rw [this] at h2
    exact Option.some.inj h2
  · obtain ⟨k, rfl⟩ := Nat.exists_eq_add_of_le hle
    have := ray_scan_mono b by_white k1 k2 n2 k f dirs r y h2
    rw [this] at h1
    exact (Option.some.inj h1).symm

/-- The attack test does not come back, whatever the fuel, when no pawn or
knight attacks, the diagonal scan finds nothing and leaves `r = r1`, and the
square `(r1 + 1, f)` on which the first orthogonal ray starts is on the board
and empty. -/
theorem is_square_attacked_stuck (b : Board) (sq : Int) (by_white : Bool) (n0 : Nat) (r1 : Int)
    (hp : pawn_scan b (rank_of sq) (file_of sq) by_white = false)
    (hk : offset_scan b (rank_of sq) (file_of sq) (if by_white then WN else BN) KOFF = false)
    (hd : ray_scan b by_white 3 5 n0 (file_of sq) DIAG_DIRS (rank_of sq) = some (false, r1))
    (hin : in_range (r1 + 1) (file_of sq) = true)
    (he : is_empty (b.squares (idx (r1 + 1) (file_of sq))) = true) (fuel : Nat) :
    is_square_attacked fuel b sq by_white = none := by
  unfold is_square_attacked
  simp only [hp, hk, Bool.false_eq_true, if_false]
  cases hs : ray_scan b by_white 3 5 fuel (file_of sq) DIAG_DIRS (rank_of sq) with
  | none => rfl
  | some x =>
    have hx := ray_scan_agree b by_white 3 5 (file_of sq) DIAG_DIRS (rank_of sq) fuel n0 x _ hs hd
    subst hx
    simp only [ORTH_DIRS, ray_scan, Int.add_zero]
    rw [ray_loop_stuck b by_white 4 5 1 _ _ hin he]

/-! ## C4: the generator on the initial position -/

/-- In the Option monad a left fold is `none` as soon as the step function is
`none` on one element, whatever the accumulator. -/
theorem foldlM_none {α β : Type} (f : β → α → Option β) (x : α) (hx : ∀ acc, f acc x = none) :
    ∀ (l : List α) (init : β), x ∈ l → l.foldlM f init = none := by
  intro l
  induction l with
  | nil => intro init h; simp at h
  | cons y ys ih =>
    intro init h
    rw [List.foldlM_cons]
    rcases List.mem_cons.mp h with rfl | hmem
    · rw [hx]; rfl
    · cases hy : f init y with
      | none => rfl
      | some acc => exact ih acc hmem

/-- The board after the quiet move d2d3 on the initial position. -/
theorem in_check_after_d2d3 (Z : Zobrist) (fuel : Nat) :
    in_check fuel (make_move Z (startpos Z) (quiet 11 19)).board true = none := by
  have h := is_square_attacked_stuck (make_move Z (startpos Z) (quiet 11 19)).board 4 false 8 1
    rfl rfl rfl rfl rfl fuel
  exact h

theorem add_if_legal_d2d3 (Z : Zobrist) (fuel : Nat) (moves : List Move) :
    add_if_legal fuel Z (startpos Z) 11 19 0 0 moves = none := by
  unfold add_if_legal
  have h : in_check fuel (make_move Z (startpos Z) ⟨11, 19, 0, 0⟩).board
      (!(make_move Z (startpos Z) ⟨11, 19, 0, 0⟩).board.white_to_move) = none :=
    in_check_after_d2d3 Z fuel
  simp only [h]

theorem gen_square_d2 (Z : Zobrist) (fuel : Nat) (moves : List Move) :
    gen_square fuel Z (startpos Z) moves 11 = none := by
  have h := add_if_legal_d2d3 Z fuel moves
  have hp : (startpos Z).squares 11 = WP := rfl
  have h19 : (startpos Z).squares 19 = EMPTY := rfl
  have hw : (startpos Z).white_to_move = true := rfl
  simp [gen_square, gen_pawn, pawn_pushes, hp, h19, hw, is_white, is_empty, abs_piece, WP, EMPTY,
    rank_of, file_of, idx, h]

theorem generate_startpos_none (Z : Zobrist) (fuel : Nat) :
    generate_legal_moves fuel Z (startpos Z) = none :=
  foldlM_none _ 11 (fun acc => gen_square_d2 Z fuel acc) _ _ (by decide)

/-- C4, at the failing input: on the initial position the generator does not
return, whatever the fuel and the key table — the legality trial of d2d3 asks
whether e1 is attacked, and the first orthogonal ray of that test starts on the
empty square e3 and never advances — so `perft` of depth 1, 2 and 3 from the
initial position yields no count at all, not 20, 400 and 8902. -/
theorem perft_startpos_none (Z : Zobrist) (fuel : Nat) :
    generate_legal_moves fuel Z (startpos Z) = none ∧
    perft fuel Z 1 (startpos Z) = none ∧
    perft fuel Z 2 (startpos Z) = none ∧
    perft fuel Z 3 (startpos Z) = none := by
  have h := generate_startpos_none Z fuel
  refine ⟨h, ?_, ?_, ?_⟩ <;> simp only [perft, h]

/-! ## C5: the legality filter -/

theorem sound_pure (P : Move → Prop) : Sound P some := by
  intro ms ms1 h hP
  cases h
  exact hP

theorem sound_bind (P : Move → Prop) (g1 g2 : List Move → Option (List Move))
    (h1 : Sound P g1) (h2 : Sound P g2) : Sound P (fun ms => g1 ms >>= g2) := by
  intro ms ms1 h hP
  cases hg : g1 ms with
  | none => simp [hg] at h
  | some mid =>
    simp only [hg, Option.some_bind] at h
    exact h2 mid ms1 h (h1 ms mid hg hP)

theorem sound_ite (P : Move → Prop) (c : Prop) [Decidable c]
    (g1 g2 : List Move → Option (List Move)) (h1 : Sound P g1) (h2 : Sound P g2) :
    Sound P (fun ms => if c then g1 ms else g2 ms) := by
  intro ms ms1 h hP
  by_cases hc : c
  · simp only [hc, if_true] at h; exact h1 ms ms1 h hP
  · simp only [hc, if_false] at h; exact h2 ms ms1 h hP

theorem sound_foldlM {α : Type} (P : Move → Prop) (f : List Move → α → Option (List Move))
    (hf : ∀ x, Sound P (fun ms => f ms x)) : ∀ l : List α, Sound P (fun ms => l.foldlM f ms) := by
  intro l
  induction l with
  | nil => intro ms ms1 h hP; simp at h; subst h; exact hP
  | cons x xs ih =>
    intro ms ms1 h hP
    simp only [List.foldlM_cons] at h
    cases hx : f ms x with
    | none => simp [hx] at h
    | some mid =>
      simp only [hx, Option.some_bind] at h
      exact ih mid ms1 h (hf x ms mid hx hP)

theorem make_move_white_to_move (Z : Zobrist) (b : Board) (m : Move) :
    (make_move Z b m).board.white_to_move = !b.white_to_move := rfl

/-- The helper `add_if_legal` appends the candidate only when the mover is not
in check after it. -/
theorem sound_add_if_legal (fuel : Nat) (Z : Zobrist) (b : Board) (from_ to_ promo : Int)
    (flags : Nat) (P : Move → Prop)
    (hP : legal_after fuel Z b ⟨from_, to_, promo, flags⟩ → P ⟨from_, to_, promo, flags⟩) :
    Sound P (add_if_legal fuel Z b from_ to_ promo flags) := by
  intro ms ms1 h hms
  unfold add_if_legal at h
  simp only [make_move_white_to_move, Bool.not_not] at h
  cases hc : in_check fuel (make_move Z b ⟨from_, to_, promo, flags⟩).board b.white_to_move with
  | none => simp [hc] at h
  | some illegal =>
    simp only [hc] at h
    cases illegal
    · simp only [Bool.not_false, if_true, Option.some.injEq] at h
      subst h
      intro m hm
      rcases List.mem_append.mp hm with hm | hm
      · exact hms m hm
      · rw [List.mem_singleton.mp hm]
        exact hP hc
    · simp only [Bool.not_true, Bool.false_eq_true, if_false, Option.some.injEq] at h
      subst h
      exact hms

theorem sound_add (fuel : Nat) (Z : Zobrist) (b : Board) (from_ to_ promo : Int) (flags : Nat) :
    Sound (legal_after fuel Z b) (add_if_legal fuel Z b from_ to_ promo flags) :=
  sound_add_if_legal fuel Z b from_ to_ promo flags _ id

theorem sound_add_promotions (fuel : Nat) (Z : Zobrist) (b : Board) (p : Piece) (sq to_ : Int) :
    Sound (legal_after fuel Z b) (add_promotions fuel Z b p sq to_) :=
  sound_foldlM _ _ (fun _ => sound_add fuel Z b _ _ _ _) _

theorem sound_pawn_pushes (fuel : Nat) (Z : Zobrist) (b : Board) (p : Piece) (sq r f rr : Int) :
    Sound (legal_after fuel Z b) (pawn_pushes fuel Z b p sq r f rr) := by
  unfold pawn_pushes
  apply sound_ite
  · apply sound_ite
    · exact sound_add_promotions fuel Z b p sq _
    · apply sound_bind
      · exact sound_add fuel Z b _ _ _ _
      · apply sound_ite
        · apply sound_ite
          · exact sound_add fuel Z b _ _ _ _
          · exact sound_pure _
        · exact sound_pure _
  · exact sound_pure _

theorem sound_pawn_capture (fuel : Nat) (Z : Zobrist) (b : Board) (p : Piece) (sq r f rr : Int)
    (df : Int) :
    Sound (legal_after fuel Z b) (fun ms => pawn_capture fuel Z b p sq r f rr ms df) := by
  unfold pawn_capture
  apply sound_ite
  · exact sound_pure _
  · apply sound_ite
    · exact sound_pure _
    · apply sound_bind
      · apply sound_ite
        · apply sound_ite
          · exact sound_add_promotions fuel Z b p sq _
          · exact sound_add fuel Z b _ _ _ _
        · exact sound_pure _
      · apply sound_ite
        · exact sound_add fuel Z b _ _ _ _
        · exact sound_pure _

theorem sound_gen_pawn (fuel : Nat) (Z : Zobrist) (b : Board) (p : Piece) (sq r f : Int) :
    Sound (legal_after fuel Z b) (gen_pawn fuel Z b p sq r f) := by
  unfold gen_pawn
  apply sound_ite
  · apply sound_bind
    · exact sound_pawn_pushes fuel Z b p sq r f _
    · exact sound_foldlM _ _ (fun df => sound_pawn_capture fuel Z b p sq r f _ df) _
  · exact sound_pure _

theorem sound_gen_step (fuel : Nat) (Z : Zobrist) (b : Board) (p : Piece) (sq r f : Int)
    (o : Int × Int) :
    Sound (legal_after fuel Z b) (fun ms => gen_step fuel Z b p sq r f ms o) := by
  unfold gen_step
  apply sound_ite
  · apply sound_ite
    · exact sound_add fuel Z b _ _ _ _
    · exact sound_pure _
  · exact sound_pure _

theorem sound_gen_ray (fuel : Nat) (Z : Zobrist) (b : Board) (p : Piece) (sq dr df : Int) :
    ∀ (n : Nat) (rr ff : Int),
      Sound (legal_after fuel Z b) (gen_ray fuel Z b p sq dr df n rr ff) := by
  intro n
  induction n with
  | zero => intro rr ff ms ms1 h; simp [gen_ray] at h
  | succ n ih =>
    intro rr ff ms ms1 h hP
    unfold gen_ray at h
    by_cases hin : in_range rr ff = true
    · simp only [hin, if_true] at h
      by_cases he : is_empty (b.squares (idx rr ff)) = true
      · rw [if_pos he] at h
        exact sound_bind _ _ _ (sound_add fuel Z b _ _ _ _) (ih _ _) ms ms1 h hP
      · rw [if_neg he] at h
        exact sound_ite _ _ _ _ (sound_add fuel Z b _ _ _ _) (sound_pure _) ms ms1 h hP
    · rw [if_neg hin] at h
      exact sound_pure _ ms ms1 h hP

theorem sound_gen_slider (fuel : Nat) (Z : Zobrist) (b : Board) (p : Piece) (sq r f : Int)
    (dirs : List (Int × Int)) :
    Sound (legal_after fuel Z b) (gen_slider fuel Z b p sq r f dirs) :=
  sound_foldlM _ _ (fun _ => sound_gen_ray fuel Z b p sq _ _ _ _ _) _

theorem sound_gen_castle (fuel : Nat) (Z : Zobrist) (b : Board) (sq : Int) (bit : Nat)
    (empties : List Int) (s1 s2 : Int) (by_white : Bool) (to_ : Int) :
    Sound (legal_after fuel Z b) (gen_castle fuel Z b sq bit empties s1 s2 by_white to_) := by
  intro ms ms1 h hP
  unfold gen_castle at h
  split at h
  · simp at h
  · exact sound_add fuel Z b _ _ _ _ ms ms1 h hP
  · exact sound_pure _ ms ms1 h hP

theorem sound_gen_castling (fuel : Nat) (Z : Zobrist) (b : Board) (p : Piece) (sq : Int) :
    Sound (legal_after fuel Z b) (gen_castling fuel Z b p sq) := by
  intro ms ms1 h hP
  unfold gen_castling at h
  split at h
  · simp at h
  · exact sound_pure _ ms ms1 h hP
  · split at h
    · exact sound_bind _ _ _ (sound_gen_castle fuel Z b sq _ _ _ _ _ _)
        (sound_gen_castle fuel Z b sq _ _ _ _ _ _) ms ms1 h hP
    · exact sound_bind _ _ _ (sound_gen_castle fuel Z b sq _ _ _ _ _ _)
        (sound_gen_castle fuel Z b sq _ _ _ _ _ _) ms ms1 h hP

theorem sound_gen_square (fuel : Nat) (Z : Zobrist) (b : Board) (sqn : Nat) :
    Sound (legal_after fuel Z b) (fun ms => gen_square fuel Z b ms sqn) := by
  unfold gen_square
  apply sound_ite
  · exact sound_pure _
  · apply sound_ite
    · exact sound_pure _
    · apply sound_ite
      · exact sound_gen_pawn fuel Z b _ _ _ _
      · apply sound_ite
        · exact sound_foldlM _ _ (fun o => sound_gen_step fuel Z b _ _ _ _ o) _
        · apply sound_ite
          · exact sound_gen_slider fuel Z b _ _ _ _ _
          · apply sound_ite
            · exact sound_gen_slider fuel Z b _ _ _ _ _
            · apply sound_ite
              · exact sound_gen_slider fuel Z b _ _ _ _ _
              · apply sound_ite
                · apply sound_bind
                  · exact sound_foldlM _ _ (fun o => sound_gen_step fuel Z b _ _ _ _ o) _
                  · exact sound_gen_castling fuel Z b _ _
                · exact sound_pure _

/-- C5: for every board, fuel and key table, when the generator returns, the
side that moved is not in check (`in_check` of the mover is `false`) on the
board `make_move` produces from each returned move. -/
theorem generate_legal_moves_not_in_check (fuel : Nat) (Z : Zobrist) (b : Board)
    (ms : List Move) (m : Move) (h : generate_legal_moves fuel Z b = some ms) (hm : m ∈ ms) :
    in_check fuel (make_move Z b m).board b.white_to_move = some false :=
  sound_foldlM (legal_after fuel Z b) _ (fun sqn => sound_gen_square fuel Z b sqn) _ [] ms h
    (fun _ hx => absurd hx (List.not_mem_nil _)) m hm

theorem generate_cornered_king :
    generate_legal_moves 8 zeroKeys (cornered_king zeroKeys) =
      some [quiet 7 6, quiet 14 22, quiet 14 30, quiet 23 31] := by
  decide

/-- C5, witness: with white king h1 and pawns g2 h2 h3 the generator returns
Kg1, g3, g4 and h4, and after g2g4 the white king is not in check. -/
theorem generate_legal_moves_not_in_check_witness :
    generate_legal_moves 8 zeroKeys (cornered_king zeroKeys) =
      some [quiet 7 6, quiet 14 22, quiet 14 30, quiet 23 31] ∧
    quiet 14 30 ∈ [quiet 7 6, quiet 14 22, quiet 14 30, quiet 23 31] ∧
    in_check 8 (make_move zeroKeys (cornered_king zeroKeys) (quiet 14 30)).board
      (cornered_king zeroKeys).white_to_move = some false :=
  ⟨generate_cornered_king, by decide,
    generate_legal_moves_not_in_check 8 zeroKeys (cornered_king zeroKeys) _ (quiet 14 30)
      generate_cornered_king (by decide)⟩


/-! ## C6: castling -/

theorem generate_castle_in_check :
    generate_legal_moves 8 zeroKeys (castle_in_check zeroKeys) =
      some [quiet 4 3, quiet 4 5, quiet 4 11, e1g1, quiet 7 15, quiet 7 23, quiet 7 31,
        quiet 7 39, quiet 7 47, quiet 7 55, quiet 7 63, quiet 7 6, quiet 7 5, quiet 12 20,
        quiet 12 28, quiet 13 21, quiet 13 29, quiet 14 22, quiet 14 30] := by
  decide

theorem in_check_after_a1a4 (Z : Zobrist) (fuel : Nat) :
    in_check fuel (make_move Z (rook_on_e2 Z) (quiet 0 24)).board true = none :=
  is_square_attacked_stuck (make_move Z (rook_on_e2 Z) (quiet 0 24)).board 4 false 8 1
    rfl rfl rfl rfl rfl fuel

theorem add_if_legal_a1a4 (Z : Zobrist) (fuel : Nat) (moves : List Move) :
    add_if_legal fuel Z (rook_on_e2 Z) 0 24 0 0 moves = none := by
  unfold add_if_legal
  have h : in_check fuel (make_move Z (rook_on_e2 Z) ⟨0, 24, 0, 0⟩).board
      (!(make_move Z (rook_on_e2 Z) ⟨0, 24, 0, 0⟩).board.white_to_move) = none :=
    in_check_after_a1a4 Z fuel
  simp only [h]

theorem bind_none_of {α β : Type} (x : Option α) (k : α → Option β) (hk : ∀ a, k a = none) :
    x >>= k = none := by
  cases x with
  | none => rfl
  | some a => exact hk a

/-- One turn of a generator ray over an empty square of the board. -/
theorem gen_ray_empty (fuel : Nat) (Z : Zobrist) (b : Board) (p : Piece) (sq dr df : Int)
    (n : Nat) (rr ff : Int) (moves : List Move) (hin : in_range rr ff = true)
    (he : is_empty (b.squares (idx rr ff)) = true) :
    gen_ray fuel Z b p sq dr df (n + 1) rr ff moves =
      add_if_legal fuel Z b sq (idx rr ff) 0 0 moves >>=
        gen_ray fuel Z b p sq dr df n (rr + dr) (ff + df) := by
  rw [gen_ray]
  simp only [hin, he, if_true]

/-- The first ray of the rook a1 in `r3k2r/8/8/8/8/8/4r3/R3K2R` does not come
back: it reaches a4, whose legality trial does not. -/
theorem gen_ray_a1_up (Z : Zobrist) (fuel n : Nat) (moves : List Move) :
    gen_ray fuel Z (rook_on_e2 Z) WR 0 1 0 n 1 0 moves = none := by
  cases n with
  | zero => rfl
  | succ n =>
    rw [gen_ray_empty fuel Z (rook_on_e2 Z) WR 0 1 0 n 1 0 moves rfl rfl]
    apply bind_none_of
    intro m1
    cases n with
    | zero => rfl
    | succ n =>
      rw [gen_ray_empty fuel Z (rook_on_e2 Z) WR 0 1 0 n (1 + 1) (0 + 0) m1 (by decide)
        (by rw [show idx (1 + 1) (0 + 0) = 16 from by decide]; rfl)]
      apply bind_none_of
      intro m2
      cases n with
      | zero => rfl
      | succ n =>
        rw [gen_ray_empty fuel Z (rook_on_e2 Z) WR 0 1 0 n (1 + 1 + 1) (0 + 0 + 0) m2 (by decide)
          (by rw [show idx (1 + 1 + 1) (0 + 0 + 0) = 24 from by decide]; rfl)]
        have h24 : add_if_legal fuel Z (rook_on_e2 Z) 0 (idx (1 + 1 + 1) (0 + 0 + 0)) 0 0 m2 = none :=
          add_if_legal_a1a4 Z fuel m2
        rw [h24]
        rfl

theorem gen_square_a1 (Z : Zobrist) (fuel : Nat) (moves : List Move) :
    gen_square fuel Z (rook_on_e2 Z) moves 0 = none := by
  have h : gen_square fuel Z (rook_on_e2 Z) moves 0 =
      gen_ray fuel Z (rook_on_e2 Z) WR 0 1 0 fuel 1 0 moves >>= fun ms =>
        [((-1 : Int), (0 : Int)), (0, 1), (0, -1)].foldlM
          (fun moves d => gen_ray fuel Z (rook_on_e2 Z) WR 0 d.1 d.2 fuel (0 + d.1) (0 + d.2) moves)
          ms := rfl
  rw [h, gen_ray_a1_up]
  rfl

theorem generate_rook_on_e2_none (Z : Zobrist) (fuel : Nat) :
    generate_legal_moves fuel Z (rook_on_e2 Z) = none :=
  foldlM_none _ 0 (fun acc => gen_square_a1 Z fuel acc) _ _ (by decide)

/-- C6, at the failing input: with white king e1, rook h1, pawns e2 f2 g2 and
black bishop a5, king a7, the bishop is the first occupied square on the
diagonal e1-a5, so the king's origin square is attacked under the standard
rules, while `in_check` answers `false` and the generator returns a list that
contains the castling move e1g1; and on `r3k2r/8/8/8/8/8/4r3/R3K2R` the
generator does not return, whatever the fuel and the key table. -/
theorem castling_emitted_in_check :
    first_occupied (castle_in_check zeroKeys) 0 4 1 (-1) = BB ∧
    attacked_spec (castle_in_check zeroKeys) 4 false = true ∧
    in_check 8 (castle_in_check zeroKeys) true = some false ∧
    (∃ ms, generate_legal_moves 8 zeroKeys (castle_in_check zeroKeys) = some ms ∧ e1g1 ∈ ms) ∧
    (∀ (Z : Zobrist) (fuel : Nat), generate_legal_moves fuel Z (rook_on_e2 Z) = none) :=
  ⟨by decide, by decide, by decide, ⟨_, generate_castle_in_check, by decide⟩,
    generate_rook_on_e2_none⟩

/-! ## C7: castling rights -/

theorem testBit_clear (x k : Nat) (hx : x < 256) (hk : k < 256) (i : Nat) :
    (x &&& (255 - k)).testBit i = (x.testBit i && !k.testBit i) := by
  rw [Nat.testBit_land]
  by_cases hi : i < 8
  · have h : (2 ^ 8 - (k + 1)).testBit i = (decide (i < 8) && !k.testBit i) :=
      Nat.testBit_two_pow_sub_succ hk i
    have e : 2 ^ 8 - (k + 1) = 255 - k := by omega
    rw [e] at h
    rw [h]
    simp [hi]
  · have hx' : x.testBit i = false := by
      apply Nat.testBit_lt_two_pow
      calc x < 2 ^ 8 := hx
        _ ≤ 2 ^ i := Nat.pow_le_pow_right (by decide) (by omega)
    simp [hx']

theorem clear_if_lt (c : Prop) [Decidable c] (k x : Nat) (hx : x < 256) :
    clear_if c k x < 256 := by
  unfold clear_if
  split
  · exact lt_of_le_of_lt Nat.and_le_left hx
  · exact hx

theorem clear_if_testBit (c : Prop) [Decidable c] (k x : Nat) (hx : x < 256) (hk : k < 256)
    (i : Nat) :
    (clear_if c k x).testBit i = (x.testBit i && !(if c then k else 0).testBit i) := by
  unfold clear_if
  split
  · exact testBit_clear x k hx hk i
  · simp

theorem update_rights_eq (b : Board) (m : Move) :
    update_rights b m =
      clear_if (m.from_ = 63 ∨ m.to_ = 63) 4
        (clear_if (m.from_ = 56 ∨ m.to_ = 56) 8
          (clear_if (m.from_ = 7 ∨ m.to_ = 7) 1
            (clear_if (m.from_ = 0 ∨ m.to_ = 0) 2
              (clear_if (b.squares m.from_ = BK) 12
                (clear_if (b.squares m.from_ = WK) 3 b.castling_rights))))) := rfl

theorem update_rights_testBit (b : Board) (m : Move) (hcr : b.castling_rights < 256) (i : Nat) :
    (update_rights b m).testBit i =
      (b.castling_rights.testBit i && !(cleared_rights b m).testBit i) := by
  have h1 := clear_if_lt (b.squares m.from_ = WK) 3 _ hcr
  have h2 := clear_if_lt (b.squares m.from_ = BK) 12 _ h1
  have h3 := clear_if_lt (m.from_ = 0 ∨ m.to_ = 0) 2 _ h2
  have h4 := clear_if_lt (m.from_ = 7 ∨ m.to_ = 7) 1 _ h3
  have h5 := clear_if_lt (m.from_ = 56 ∨ m.to_ = 56) 8 _ h4
  rw [update_rights_eq, clear_if_testBit _ _ _ h5 (by decide), clear_if_testBit _ _ _ h4 (by decide),
    clear_if_testBit _ _ _ h3 (by decide), clear_if_testBit _ _ _ h2 (by decide),
    clear_if_testBit _ _ _ h1 (by decide), clear_if_testBit _ _ _ hcr (by decide)]
  simp only [cleared_rights, Nat.testBit_lor, Bool.not_or, Bool.and_assoc]
  rfl

/-- C7: for every board (with a `uint8_t` rights mask) and every move, bit
`i` of `castling_rights` after `make_move` is set exactly when it was set
before and is not among the bits the move clears (both white bits for a white
king move, both black bits for a black king move, and the bit of each rook
home corner a1, h1, a8, h8 that is the origin or the target of the move), so no
bit is ever added; and the rook capture a1xa8 from rights `15` in the position
`r3k2r/8/8/8/8/8/8/R3K2R` leaves rights `5`. -/
theorem make_move_castling_rights :
    (∀ (Z : Zobrist) (b : Board) (m : Move), b.castling_rights < 256 → ∀ i : Nat,
      (make_move Z b m).board.castling_rights.testBit i =
        (b.castling_rights.testBit i && !(cleared_rights b m).testBit i)) ∧
    (rooks_and_kings zeroKeys).castling_rights = 15 ∧
    (make_move zeroKeys (rooks_and_kings zeroKeys) (quiet 0 56)).board.castling_rights = 5 :=
  ⟨fun _ b m hcr i => update_rights_testBit b m hcr i, by decide, by decide⟩

/-- C7, witness: the general statement applied to a1xa8 in
`r3k2r/8/8/8/8/8/8/R3K2R`. -/
theorem make_move_castling_rights_witness :
    (rooks_and_kings zeroKeys).castling_rights < 256 ∧
    ∀ i : Nat,
      (make_move zeroKeys (rooks_and_kings zeroKeys) (quiet 0 56)).board.castling_rights.testBit i =
        ((rooks_and_kings zeroKeys).castling_rights.testBit i &&
          !(cleared_rights (rooks_and_kings zeroKeys) (quiet 0 56)).testBit i) :=
  ⟨by decide,
    make_move_castling_rights.1 zeroKeys (rooks_and_kings zeroKeys) (quiet 0 56) (by decide)⟩

/-! ## C8: the en-passant square -/

theorem idx_mid_up (sq : Int) :
    abs_int (rank_of (sq + 16) - rank_of sq) = 2 ∧
    idx ((rank_of sq + rank_of (sq + 16)) / 2) (file_of (sq + 16)) = sq + 8 := by
  simp only [abs_int, idx, rank_of, file_of]
  constructor
  · split <;> omega
  · omega

theorem idx_mid_down (sq : Int) :
    abs_int (rank_of (sq - 16) - rank_of sq) = 2 ∧
    idx ((rank_of sq + rank_of (sq - 16)) / 2) (file_of (sq - 16)) = sq - 8 := by
  simp only [abs_int, idx, rank_of, file_of]
  constructor
  · split <;> omega
  · omega

theorem make_move_ep_formula (Z : Zobrist) (b : Board) (m : Move) :
    (make_move Z b m).board.ep_square =
      if abs_piece (b.squares m.from_) = 1 ∧ abs_int (rank_of m.to_ - rank_of m.from_) = 2 then
        idx ((rank_of m.from_ + rank_of m.to_) / 2) (file_of m.to_)
      else -1 := by
  show update_ep b m = _
  simp only [update_ep, Int.add_comm]

/-- C8: for every board and every move, whatever `ep_square` was before,
`ep_square` after `make_move` is
`idx((rank_of(from)+rank_of(to))/2, file_of(to))` when the moved piece is a
pawn and the ranks of `from` and `to` differ by two, and `-1` after every other
move; for a pawn pushed two ranks up (`to = from + 16`) this is the square
`from + 8` it skipped, and for a pawn pushed two ranks down it is `from - 8`. -/
theorem make_move_ep_square (Z : Zobrist) (b : Board) (m : Move) :
    ((make_move Z b m).board.ep_square =
      if abs_piece (b.squares m.from_) = 1 ∧ abs_int (rank_of m.to_ - rank_of m.from_) = 2 then
        idx ((rank_of m.from_ + rank_of m.to_) / 2) (file_of m.to_)
      else -1) ∧
    (abs_piece (b.squares m.from_) = 1 → m.to_ = m.from_ + 16 →
      (make_move Z b m).board.ep_square = m.from_ + 8) ∧
    (abs_piece (b.squares m.from_) = 1 → m.to_ = m.from_ - 16 →
      (make_move Z b m).board.ep_square = m.from_ - 8) := by
  refine ⟨make_move_ep_formula Z b m, ?_, ?_⟩
  · intro hp hto
    rw [make_move_ep_formula, hto]
    obtain ⟨ha, hi⟩ := idx_mid_up m.from_
    rw [if_pos ⟨hp, ha⟩, hi]
  · intro hp hto
    rw [make_move_ep_formula, hto]
    obtain ⟨ha, hi⟩ := idx_mid_down m.from_
    rw [if_pos ⟨hp, ha⟩, hi]

/-- C8, witness: after e2e4 on the initial position the en-passant square is
e3 (`20`), the square the pawn skipped. -/
theorem make_move_ep_square_witness :
    abs_piece ((startpos zeroKeys).squares (quiet 12 28).from_) = 1 ∧
    (make_move zeroKeys (startpos zeroKeys) (quiet 12 28)).board.ep_square = 12 + 8 :=
  ⟨by decide,
    (make_move_ep_square zeroKeys (startpos zeroKeys) (quiet 12 28)).2.1 (by decide)
      (by decide)⟩

/-! ## C9: the en-passant capture -/

theorem ep_capture_square (b : Board) (m : Move) (h : is_ep_capture b m) :
    idx (rank_of m.to_ + (if is_white (own_pawn b) then -1 else 1)) (file_of m.to_) =
      idx (rank_of m.from_) (file_of m.to_) := by
  rw [h.forward, own_pawn_white]
  cases hw : b.white_to_move <;> simp [hw]

theorem ep_capture_ne_to (b : Board) (m : Move) (h : is_ep_capture b m) :
    idx (rank_of m.from_) (file_of m.to_) ≠ m.to_ := by
  have h1 := h.forward
  intro hc
  have h2 := idx_rank_file m.to_
  simp only [idx] at hc h2
  split at h1 <;> omega

theorem ep_capture_ne_from (b : Board) (m : Move) (h : is_ep_capture b m) :
    idx (rank_of m.from_) (file_of m.to_) ≠ m.from_ := by
  have h1 := h.adjacent
  intro hc
  have h2 := idx_rank_file m.from_
  simp only [idx] at hc h2
  omega

theorem ep_to_ne_from (b : Board) (m : Move) (h : is_ep_capture b m) : m.to_ ≠ m.from_ := by
  have h1 := h.adjacent
  intro hc
  rw [hc] at h1
  omega

/-- The squares and the captured piece `make_move` computes on an en-passant
capture. -/
theorem make_move_work_ep (Z : Zobrist) (b : Board) (m : Move) (h : is_ep_capture b m) :
    (make_move_work Z b m).squares =
      setSq (move_piece b m) (idx (rank_of m.from_) (file_of m.to_)) EMPTY ∧
    (make_move_work Z b m).captured_out = enemy_pawn b := by
  have hne1 := ep_capture_ne_to b m h
  have hne2 := ep_capture_ne_from b m h
  have hv : move_piece b m (idx (rank_of m.from_) (file_of m.to_)) = enemy_pawn b := by
    simp only [move_piece]
    rw [setSq_other _ _ _ _ hne2, setSq_other _ _ _ _ hne1, h.victim]
  have hstep : en_passant_step Z m (own_pawn b)
      { squares := move_piece b m, hash := hash_out Z b m, captured_out := b.squares m.to_ } =
      { squares := setSq (move_piece b m) (idx (rank_of m.from_) (file_of m.to_)) EMPTY
        hash := hash_out Z b m ^^^
          Z.piece_square (PIECE_INDEX (enemy_pawn b + 6)) (idx (rank_of m.from_) (file_of m.to_))
        captured_out := enemy_pawn b } := by
    simp only [en_passant_step, ep_capture_square b m h, hv]
    rw [if_pos h.flag, if_pos (enemy_pawn_ne b)]
  have hc : ∀ w, castle_step Z m (own_pawn b) w = w := by
    intro w
    simp [castle_step, own_pawn_abs]
  have hp : ∀ w, promotion_step m w = w := by
    intro w
    simp [promotion_step, h.no_promo]
  simp only [make_move_work, h.pawn, hstep, hc, hp, and_self]

theorem make_move_ep_capture (Z : Zobrist) (b : Board) (m : Move) (h : is_ep_capture b m) :
    (make_move Z b m).board.squares m.to_ = own_pawn b ∧
    (make_move Z b m).board.squares m.from_ = EMPTY ∧
    (make_move Z b m).board.squares (idx (rank_of m.from_) (file_of m.to_)) = EMPTY ∧
    (make_move Z b m).captured_out = enemy_pawn b ∧
    (∀ i, i ≠ m.to_ → i ≠ m.from_ → i ≠ idx (rank_of m.from_) (file_of m.to_) →
      (make_move Z b m).board.squares i = b.squares i) := by
  have hne1 := ep_capture_ne_to b m h
  have hne2 := ep_capture_ne_from b m h
  have hne3 := ep_to_ne_from b m h
  obtain ⟨hs, hc⟩ := make_move_work_ep Z b m h
  have hsq : (make_move Z b m).board.squares =
      setSq (move_piece b m) (idx (rank_of m.from_) (file_of m.to_)) EMPTY := hs
  have hco : (make_move Z b m).captured_out = enemy_pawn b := hc
  rw [hsq, hco]
  refine ⟨?_, ?_, ?_, rfl, ?_⟩
  · rw [setSq_other _ _ _ _ hne1.symm]
    simp only [move_piece]
    rw [setSq_other _ _ _ _ hne3, setSq_same, h.pawn]
  · rw [setSq_other _ _ _ _ hne2.symm]
    simp only [move_piece]
    rw [setSq_same]
  · rw [setSq_same]
  · intro i h1 h2 h3
    rw [setSq_other _ _ _ _ h3]
    simp only [move_piece]
    rw [setSq_other _ _ _ _ h2, setSq_other _ _ _ _ h1]

/-- C9: for every board and every en-passant capture, `make_move` puts the
capturing pawn on `to`, empties `from`, empties the square
`(rank_of(from), file_of(to))` of the enemy pawn, reports that pawn as the
captured piece and changes no other square; and after
`e2e4 a7a6 e4e5 d7d5` from the initial position `ep_square` is d6 (`43`), the
black pawn stands on d5 (`35`), and `e5d6` removes it and reports it. -/
theorem make_move_en_passant :
    (∀ (Z : Zobrist) (b : Board) (m : Move), is_ep_capture b m →
      (make_move Z b m).board.squares m.to_ = own_pawn b ∧
      (make_move Z b m).board.squares m.from_ = EMPTY ∧
      (make_move Z b m).board.squares (idx (rank_of m.from_) (file_of m.to_)) = EMPTY ∧
      (make_move Z b m).captured_out = enemy_pawn b ∧
      (∀ i, i ≠ m.to_ → i ≠ m.from_ → i ≠ idx (rank_of m.from_) (file_of m.to_) →
        (make_move Z b m).board.squares i = b.squares i)) ∧
    (∀ Z : Zobrist, (ep_line Z).ep_square = 43 ∧ (ep_line Z).squares 35 = BP ∧
      (make_move Z (ep_line Z) e5d6).board.squares 35 = EMPTY ∧
      (make_move Z (ep_line Z) e5d6).board.squares 43 = WP ∧
      (make_move Z (ep_line Z) e5d6).captured_out = BP) :=
  ⟨make_move_ep_capture, fun _ => ⟨rfl, rfl, rfl, rfl, rfl⟩⟩

theorem ep_line_is_ep_capture : is_ep_capture (ep_line zeroKeys) e5d6 := by
  constructor <;> decide

/-- C9, witness: the general statement applied to `e5d6` after
`e2e4 a7a6 e4e5 d7d5`. -/
theorem make_move_en_passant_witness :
    is_ep_capture (ep_line zeroKeys) e5d6 ∧
    (make_move zeroKeys (ep_line zeroKeys) e5d6).board.squares e5d6.to_ =
      own_pawn (ep_line zeroKeys) ∧
    (make_move zeroKeys (ep_line zeroKeys) e5d6).captured_out = enemy_pawn (ep_line zeroKeys) :=
  ⟨ep_line_is_ep_capture,
    (make_move_en_passant.1 zeroKeys (ep_line zeroKeys) e5d6 ep_line_is_ep_capture).1,
    (make_move_en_passant.1 zeroKeys (ep_line zeroKeys) e5d6 ep_line_is_ep_capture).2.2.2.1⟩

/-! ## C10: undoing an en-passant capture -/

/-- C10, at the failing input: after `e2e4 a7a6 e4e5 d7d5` the en-passant
capture `e5d6` is well formed, the black pawn is on d5 (`35`) and d7 (`51`) is
empty; after `make_move` and `unmake_move` with the returned undo data d5 is
empty and a black pawn stands on d7: the captured pawn is put back two ranks
away from where it was taken. -/
theorem make_unmake_en_passant_squares (Z : Zobrist) :
    (ep_line Z).squares 35 = BP ∧ (ep_line Z).squares 51 = EMPTY ∧
    (make_unmake Z (ep_line Z) e5d6).squares 35 = EMPTY ∧
    (make_unmake Z (ep_line Z) e5d6).squares 51 = BP :=
  ⟨rfl, rfl, rfl, rfl⟩

/-! ## C11: make / unmake without en passant -/

/-- Without the en-passant flag the piece `make_move` reports as captured is
the one that stood on the target square. -/
theorem captured_out_plain (Z : Zobrist) (b : Board) (m : Move) (h : ¬ (m.flags &&& 2 ≠ 0)) :
    (make_move Z b m).captured_out = b.squares m.to_ := by
  show (make_move_work Z b m).captured_out = _
  have h1 : en_passant_step Z m (b.squares m.from_)
      { squares := move_piece b m, hash := hash_out Z b m, captured_out := b.squares m.to_ } =
      { squares := move_piece b m, hash := hash_out Z b m, captured_out := b.squares m.to_ } := by
    simp only [en_passant_step, if_neg h]
  simp only [make_move_work, h1]
  unfold promotion_step castle_step castle_rook
  split_ifs <;> rfl

theorem own_colour_pawn (b : Board) (p : Int) (h1 : abs_piece p = 1)
    (h2 : is_white p = b.white_to_move) : p = own_pawn b := by
  have hp : p = 1 ∨ p = -1 := by
    unfold abs_piece at h1
    split at h1 <;> omega
  unfold own_pawn
  rcases hp with rfl | rfl
  · have : b.white_to_move = true := by rw [← h2]; rfl
    rw [this]; rfl
  · have : b.white_to_move = false := by rw [← h2]; rfl
    rw [this]; rfl

theorem make_move_work_plain (Z : Zobrist) (b : Board) (m : Move) (h : plain_move b m) :
    (make_move_work Z b m).squares =
      (promotion_step m (castle_step Z m (b.squares m.from_)
        { squares := move_piece b m, hash := hash_out Z b m,
          captured_out := b.squares m.to_ })).squares ∧
    (make_move_work Z b m).captured_out = b.squares m.to_ := by
  have hf : ¬ (m.flags &&& 2 ≠ 0) := fun hc => hc h.no_ep
  have h1 : en_passant_step Z m (b.squares m.from_)
      { squares := move_piece b m, hash := hash_out Z b m, captured_out := b.squares m.to_ } =
      { squares := move_piece b m, hash := hash_out Z b m, captured_out := b.squares m.to_ } := by
    simp only [en_passant_step, if_neg hf]
  constructor
  · simp only [make_move_work, h1]
  · exact captured_out_plain Z b m hf

/-- Squares after `make_move` and `unmake_move` of a move that is not a
castling move: the piece goes back to `from` (as a pawn after a promotion) and
the captured piece back to `to`. -/
theorem make_unmake_squares_simple (Z : Zobrist) (b : Board) (m : Move) (h : plain_move b m)
    (hc : ¬ (abs_piece (b.squares m.from_) = 6 ∧ m.flags &&& 1 ≠ 0)) :
    (make_unmake Z b m).squares = b.squares := by
  obtain ⟨hs, hcap⟩ := make_move_work_plain Z b m h
  have hne := h.well_formed.distinct
  have hne' : m.from_ ≠ m.to_ := fun e => hne e.symm
  have hf : ¬ (m.flags &&& 2 ≠ 0) := fun hc => hc h.no_ep
  have hcs : castle_step Z m (b.squares m.from_)
      { squares := move_piece b m, hash := hash_out Z b m, captured_out := b.squares m.to_ } =
      { squares := move_piece b m, hash := hash_out Z b m, captured_out := b.squares m.to_ } := by
    simp only [castle_step, if_neg hc]
  rw [hcs] at hs
  have hcap2 : (make_move Z b m).captured_out = b.squares m.to_ := hcap
  have hsq : (make_move Z b m).board.squares =
      (promotion_step m
        { squares := move_piece b m, hash := hash_out Z b m,
          captured_out := b.squares m.to_ }).squares := hs
  -- the piece `unmake_move` puts back on `from`
  have hmoving : (if m.flags &&& 4 ≠ 0 then
        (if is_white ((make_move Z b m).board.squares m.to_) then WP else BP)
      else (make_move Z b m).board.squares m.to_) = b.squares m.from_ := by
    rw [hsq]
    by_cases hp : m.flags &&& 4 ≠ 0
    · obtain ⟨hpawn, hcol⟩ := h.promo_pawn hp
      simp only [promotion_step, if_pos hp, setSq_same, hcol]
      rw [own_colour_pawn b _ hpawn h.well_formed.own_side]
      rfl
    · simp only [promotion_step, if_neg hp, move_piece]
      rw [setSq_other _ _ _ _ hne, setSq_same]
  funext i
  show (update_hash Z _).squares i = b.squares i
  simp only [update_hash, make_unmake, unmake_move, hmoving, if_neg hf, if_neg hc, hcap2]
  by_cases hi1 : i = m.to_
  · subst hi1
    rw [setSq_same]
  · rw [setSq_other _ _ _ _ hi1]
    by_cases hi2 : i = m.from_
    · subst hi2
      rw [setSq_same]
    · rw [setSq_other _ _ _ _ hi2, hsq]
      by_cases hp : m.flags &&& 4 ≠ 0
      · simp only [promotion_step, if_pos hp, move_piece]
        rw [setSq_other _ _ _ _ hi1, setSq_other _ _ _ _ hi2, setSq_other _ _ _ _ hi1]
      · simp only [promotion_step, if_neg hp, move_piece]
        rw [setSq_other _ _ _ _ hi2, setSq_other _ _ _ _ hi1]

/-- Squares after moving a king and its rook and moving both back, when the
four squares are distinct and the rook's target was empty. -/
theorem rook_round_trip (s : Int → Piece) (f t rf rt : Int) (htf : t ≠ f) (h1 : rf ≠ t)
    (h2 : rf ≠ f) (h3 : rt ≠ t) (h4 : rt ≠ f) (h5 : rf ≠ rt) (he : s rt = EMPTY) :
    setSq (setSq (setSq (setSq (setSq (setSq (setSq (setSq s t (s f)) f EMPTY) rt
      (setSq (setSq s t (s f)) f EMPTY rf)) rf EMPTY) f (s f)) t (s t)) rf
      (setSq (setSq (setSq (setSq (setSq (setSq s t (s f)) f EMPTY) rt
        (setSq (setSq s t (s f)) f EMPTY rf)) rf EMPTY) f (s f)) t (s t) rt)) rt EMPTY = s := by
  funext i
  have h5' : rt ≠ rf := fun e => h5 e.symm
  by_cases e1 : i = rt
  · subst e1
    simp only [setSq, if_true, he]
  · by_cases e2 : i = rf
    · subst e2
      simp [setSq, h1, h2, h3, h4, h5', e1]
    · by_cases e3 : i = t
      · subst e3
        simp [setSq, e1, e2]
      · by_cases e4 : i = f
        · subst e4
          simp [setSq, e1, e2, e3]
        · simp [setSq, e1, e2, e3, e4]

theorem make_unmake_squares_castle (Z : Zobrist) (b : Board) (m : Move) (h : plain_move b m)
    (hr : rook_target_empty b m)
    (hc : abs_piece (b.squares m.from_) = 6 ∧ m.flags &&& 1 ≠ 0) :
    (make_unmake Z b m).squares = b.squares := by
  obtain ⟨hs, hcap⟩ := make_move_work_plain Z b m h
  have hwf := h.well_formed
  have hne := hwf.distinct
  have hf : ¬ (m.flags &&& 2 ≠ 0) := fun hc => hc h.no_ep
  have hp : ¬ (m.flags &&& 4 ≠ 0) := by
    intro hp
    have := (h.promo_pawn hp).1
    rw [hc.1] at this
    exact absurd this (by decide)
  obtain ⟨-, hrank, hfile, hk, hq⟩ := hwf.castle_ok hc.2
  obtain ⟨hke, hqe⟩ := hr hc.2
  have hto := idx_rank_file m.to_
  have hfrom := idx_rank_file m.from_
  have hhome : (if is_white (b.squares m.from_) then (0 : Int) else 7) = home_rank b := by
    rw [hwf.own_side]; rfl
  have hhome2 : (if b.white_to_move then (0 : Int) else 7) = home_rank b := rfl
  have hhr : home_rank b = 0 ∨ home_rank b = 7 := by
    unfold home_rank; split <;> simp
  simp only [idx] at hto hfrom
  have hcap2 : (make_move Z b m).captured_out = b.squares m.to_ := hcap
  have hps : ∀ w : Work, (promotion_step m w).squares = w.squares := by
    intro w; simp only [promotion_step, if_neg hp]
  rw [hps] at hs
  have hsq : (make_move Z b m).board.squares =
      (castle_step Z m (b.squares m.from_)
        { squares := move_piece b m, hash := hash_out Z b m,
          captured_out := b.squares m.to_ }).squares := hs
  have hwtm : (make_move Z b m).board.white_to_move = !b.white_to_move := rfl
  by_cases h6 : file_of m.to_ = 6
  · have e7t : idx (home_rank b) 7 ≠ m.to_ := by simp only [idx]; omega
    have e7f : idx (home_rank b) 7 ≠ m.from_ := by simp only [idx]; omega
    have e5t : idx (home_rank b) 5 ≠ m.to_ := by simp only [idx]; omega
    have e5f : idx (home_rank b) 5 ≠ m.from_ := by simp only [idx]; omega
    have e75 : idx (home_rank b) 7 ≠ idx (home_rank b) 5 := by simp only [idx]; omega
    have hsq2 : (make_move Z b m).board.squares =
        setSq (setSq (move_piece b m) (idx (home_rank b) 5) (move_piece b m (idx (home_rank b) 7)))
          (idx (home_rank b) 7) EMPTY := by
      rw [hsq]
      simp only [castle_step, if_pos hc, if_pos h6, castle_rook, hhome]
    have hto2 : (make_move Z b m).board.squares m.to_ = b.squares m.from_ := by
      rw [hsq2, setSq_other _ _ _ _ e7t.symm, setSq_other _ _ _ _ e5t.symm]
      simp only [move_piece]
      rw [setSq_other _ _ _ _ hne, setSq_same]
    show (update_hash Z _).squares = b.squares
    simp only [update_hash, make_unmake, unmake_move, if_neg hp, if_neg hf, hto2, if_pos hc,
      if_pos h6, uncastle_rook, hwtm, Bool.not_not, hhome2, hcap2, hsq2, move_piece]
    exact rook_round_trip b.squares m.from_ m.to_ _ _ hne e7t e7f e5t e5f e75 (hke h6)
  · by_cases h2 : file_of m.to_ = 2
    · have e0t : idx (home_rank b) 0 ≠ m.to_ := by simp only [idx]; omega
      have e0f : idx (home_rank b) 0 ≠ m.from_ := by
        intro hcontra
        have := hq h2
        rw [hcontra] at this
        have hk6 := hc.1
        rw [this, own_rook_abs] at hk6
        exact absurd hk6 (by decide)
      have e3t : idx (home_rank b) 3 ≠ m.to_ := by simp only [idx]; omega
      have e3f : idx (home_rank b) 3 ≠ m.from_ := by simp only [idx]; omega
      have e03 : idx (home_rank b) 0 ≠ idx (home_rank b) 3 := by simp only [idx]; omega
      have hsq2 : (make_move Z b m).board.squares =
          setSq (setSq (move_piece b m) (idx (home_rank b) 3)
            (move_piece b m (idx (home_rank b) 0))) (idx (home_rank b) 0) EMPTY := by
        rw [hsq]
        simp only [castle_step, if_pos hc, if_neg h6, if_pos h2, castle_rook, hhome]
      have hto2 : (make_move Z b m).board.squares m.to_ = b.squares m.from_ := by
        rw [hsq2, setSq_other _ _ _ _ e0t.symm, setSq_other _ _ _ _ e3t.symm]
        simp only [move_piece]
        rw [setSq_other _ _ _ _ hne, setSq_same]
      show (update_hash Z _).squares = b.squares
      simp only [update_hash, make_unmake, unmake_move, if_neg hp, if_neg hf, hto2, if_pos hc,
        if_neg h6, if_pos h2, uncastle_rook, hwtm, Bool.not_not, hhome2, hcap2, hsq2, move_piece]
      exact rook_round_trip b.squares m.from_ m.to_ _ _ hne e0t e0f e3t e3f e03 (hqe h2)
    · have hsq2 : (make_move Z b m).board.squares = move_piece b m := by
        rw [hsq]
        simp only [castle_step, if_pos hc, if_neg h6, if_neg h2]
      have hto2 : (make_move Z b m).board.squares m.to_ = b.squares m.from_ := by
        rw [hsq2]
        simp only [move_piece]
        rw [setSq_other _ _ _ _ hne, setSq_same]
      show (update_hash Z _).squares = b.squares
      simp only [update_hash, make_unmake, unmake_move, if_neg hp, if_neg hf, hto2, if_pos hc,
        if_neg h6, if_neg h2, hcap2, hsq2, move_piece]
      funext i
      by_cases hi1 : i = m.to_
      · subst hi1
        rw [setSq_same]
      · rw [setSq_other _ _ _ _ hi1]
        by_cases hi2 : i = m.from_
        · subst hi2
          rw [setSq_same]
        · rw [setSq_other _ _ _ _ hi2, setSq_other _ _ _ _ hi2, setSq_other _ _ _ _ hi1]

theorem make_unmake_squares (Z : Zobrist) (b : Board) (m : Move) (h : plain_move b m)
    (hr : rook_target_empty b m) : (make_unmake Z b m).squares = b.squares := by
  by_cases hc : abs_piece (b.squares m.from_) = 6 ∧ m.flags &&& 1 ≠ 0
  · exact make_unmake_squares_castle Z b m h hr hc
  · exact make_unmake_squares_simple Z b m h hc

theorem make_unmake_fields (Z : Zobrist) (b : Board) (m : Move) :
    (make_unmake Z b m).white_to_move = b.white_to_move ∧
    (make_unmake Z b m).castling_rights = b.castling_rights ∧
    (make_unmake Z b m).ep_square = b.ep_square ∧
    (make_unmake Z b m).halfmove_clock = b.halfmove_clock ∧
    (make_unmake Z b m).hash = hash_fold Z
      { b with squares := (make_unmake Z b m).squares,
               fullmove_number := (make_unmake Z b m).fullmove_number } := by
  refine ⟨?_, rfl, rfl, rfl, ?_⟩
  · show (!(!b.white_to_move)) = b.white_to_move
    simp
  · show hash_fold Z _ = hash_fold Z _
    simp only [hash_fold]
    show _ = _
    have : (!(!b.white_to_move)) = b.white_to_move := by simp
    simp only [make_unmake, unmake_move, update_hash, make_move, this]

theorem hash_fold_congr (Z : Zobrist) (b c : Board) (h1 : b.squares = c.squares)
    (h2 : b.white_to_move = c.white_to_move) (h3 : b.castling_rights = c.castling_rights)
    (h4 : b.ep_square = c.ep_square) : hash_fold Z b = hash_fold Z c := by
  simp only [hash_fold, h1, h2, h3, h4]

/-- The predicate `plain_move` reads the squares, the side to move and the
en-passant square of the board only. -/
theorem plain_move_congr (b c : Board) (m : Move) (hs : c.squares = b.squares)
    (hw : c.white_to_move = b.white_to_move) (he : c.ep_square = b.ep_square)
    (h : plain_move b m) : plain_move c m := by
  cases b
  cases c
  simp only at hs hw he
  subst hs hw he
  exact
    { well_formed :=
        { from_lo := h.well_formed.from_lo
          from_hi := h.well_formed.from_hi
          to_lo := h.well_formed.to_lo
          to_hi := h.well_formed.to_hi
          own_piece := h.well_formed.own_piece
          own_side := h.well_formed.own_side
          distinct := h.well_formed.distinct
          ep_ok := h.well_formed.ep_ok
          castle_ok := h.well_formed.castle_ok
          promo_ok := h.well_formed.promo_ok }
      no_ep := h.no_ep
      promo_pawn := h.promo_pawn }

theorem plain_move_startpos (Z : Zobrist) (m : Move) (h : plain_move (startpos zeroKeys) m) :
    plain_move (startpos Z) m :=
  plain_move_congr (startpos zeroKeys) (startpos Z) m rfl rfl rfl h

theorem quiet_flags (f t : Int) (k : Nat) : (quiet f t).flags &&& k = 0 := Nat.zero_and k

theorem plain_move_quiet_startpos (f t : Int) (h0 : 0 ≤ f) (h1 : f < 64) (h2 : 0 ≤ t)
    (h3 : t < 64) (h4 : (startpos zeroKeys).squares f ≠ EMPTY)
    (h5 : is_white ((startpos zeroKeys).squares f) = true) (h6 : t ≠ f) :
    plain_move (startpos zeroKeys) (quiet f t) :=
  { well_formed :=
      { from_lo := h0
        from_hi := h1
        to_lo := h2
        to_hi := h3
        own_piece := h4
        own_side := h5
        distinct := h6
        ep_ok := fun h => absurd (quiet_flags f t 2) h
        castle_ok := fun h => absurd (quiet_flags f t 1) h
        promo_ok := fun h => absurd (quiet_flags f t 4) h }
    no_ep := quiet_flags f t 2
    promo_pawn := fun h => absurd (quiet_flags f t 4) h }

theorem opening_moves_plain (m : Move) (hm : m ∈ opening_moves) :
    plain_move (startpos zeroKeys) m := by
  have hall : ∀ x ∈ opening_moves, ∃ f t : Int, x = quiet f t ∧ 0 ≤ f ∧ f < 64 ∧ 0 ≤ t ∧
      t < 64 ∧ (startpos zeroKeys).squares f ≠ EMPTY ∧
      is_white ((startpos zeroKeys).squares f) = true ∧ t ≠ f := by
    intro x hx
    refine ⟨x.from_, x.to_, ?_⟩
    revert x
    decide
  obtain ⟨f, t, rfl, h0, h1, h2, h3, h4, h5, h6⟩ := hall m hm
  exact plain_move_quiet_startpos f t h0 h1 h2 h3 h4 h5 h6

/-- C11, amended: for every board and every move of the side to move other
than an en-passant capture whose castling rook (if the move castles) lands on
an empty square, `make_move` followed by `unmake_move` with the returned undo
data restores `squares`, `white_to_move`, `castling_rights`, `ep_square` and
`halfmove_clock` and leaves the hash field equal to the from-scratch fold of
the original board; and for each of the 20 opening moves the hash after make
and unmake is the hash of the initial position, for every key table. -/
theorem make_unmake_restores :
    (∀ (Z : Zobrist) (b : Board) (m : Move), plain_move b m → rook_target_empty b m →
      (make_unmake Z b m).squares = b.squares ∧
      (make_unmake Z b m).white_to_move = b.white_to_move ∧
      (make_unmake Z b m).castling_rights = b.castling_rights ∧
      (make_unmake Z b m).ep_square = b.ep_square ∧
      (make_unmake Z b m).halfmove_clock = b.halfmove_clock ∧
      (make_unmake Z b m).hash = hash_fold Z b) ∧
    (∀ (Z : Zobrist) (m : Move), m ∈ opening_moves →
      (make_unmake Z (startpos Z) m).hash = (startpos Z).hash) := by
  have hgen : ∀ (Z : Zobrist) (b : Board) (m : Move), plain_move b m → rook_target_empty b m →
      (make_unmake Z b m).squares = b.squares ∧
      (make_unmake Z b m).white_to_move = b.white_to_move ∧
      (make_unmake Z b m).castling_rights = b.castling_rights ∧
      (make_unmake Z b m).ep_square = b.ep_square ∧
      (make_unmake Z b m).halfmove_clock = b.halfmove_clock ∧
      (make_unmake Z b m).hash = hash_fold Z b := by
    intro Z b m h hr
    have hs := make_unmake_squares Z b m h hr
    obtain ⟨h1, h2, h3, h4, h5⟩ := make_unmake_fields Z b m
    refine ⟨hs, h1, h2, h3, h4, ?_⟩
    rw [h5]
    exact hash_fold_congr Z _ _ hs rfl rfl rfl
  refine ⟨hgen, ?_⟩
  intro Z m hm
  have hp := plain_move_startpos Z m (opening_moves_plain m hm)
  have hking : ∀ x ∈ opening_moves, abs_piece ((startpos zeroKeys).squares x.from_) ≠ 6 := by
    decide
  have hr : rook_target_empty (startpos Z) m := by
    intro hflag
    exact absurd (hp.well_formed.castle_ok hflag).1 (hking m hm)
  exact (hgen Z (startpos Z) m hp hr).2.2.2.2.2

theorem blocked_castle_plain : plain_move (blocked_castle zeroKeys) e1g1 :=
  { well_formed := by constructor <;> decide
    no_ep := by decide
    promo_pawn := by decide }

/-- C11, counterexample: with white king e1, rook h1 on its home corner and a
bishop on f1, the castling move e1g1 is a move of the side to move without
en-passant flag, f1 holds the bishop before `make_move`, and is empty after
`make_move` and `unmake_move`. -/
theorem make_unmake_blocked_castle :
    plain_move (blocked_castle zeroKeys) e1g1 ∧
    (blocked_castle zeroKeys).squares 7 = WR ∧
    (blocked_castle zeroKeys).squares 5 = WB ∧
    (make_unmake zeroKeys (blocked_castle zeroKeys) e1g1).squares 5 = EMPTY :=
  ⟨blocked_castle_plain, by decide, by decide, by decide⟩

/-- C11, witness: the amended statement applied to the capture Ra1xa8 in
`r3k2r/8/8/8/8/8/8/R3K2R`. -/
theorem make_unmake_restores_witness :
    plain_move (rooks_and_kings sampleKeys) (quiet 0 56) ∧
    rook_target_empty (rooks_and_kings sampleKeys) (quiet 0 56) ∧
    (make_unmake sampleKeys (rooks_and_kings sampleKeys) (quiet 0 56)).squares =
      (rooks_and_kings sampleKeys).squares ∧
    (make_unmake sampleKeys (rooks_and_kings sampleKeys) (quiet 0 56)).hash =
      hash_fold sampleKeys (rooks_and_kings sampleKeys) :=
  have hp : plain_move (rooks_and_kings sampleKeys) (quiet 0 56) :=
    { well_formed := by constructor <;> decide
      no_ep := by decide
      promo_pawn := by decide }
  have hr : rook_target_empty (rooks_and_kings sampleKeys) (quiet 0 56) := by
    unfold rook_target_empty; decide
  ⟨hp, hr, (make_unmake_restores.1 sampleKeys _ _ hp hr).1,
    (make_unmake_restores.1 sampleKeys _ _ hp hr).2.2.2.2.2⟩

/-! ## C12: the halfmove clock -/

theorem make_move_halfmove (Z : Zobrist) (b : Board) (m : Move) :
    (make_move Z b m).board.halfmove_clock =
      if abs_piece (b.squares m.from_) = 1 ∨ (make_move Z b m).captured_out ≠ EMPTY then 0
      else (b.halfmove_clock + 1) % 65536 := rfl

/-- The clock is reset exactly on the moves the claim calls a pawn move or a
capture, when the en-passant flag is only carried by pawn moves. -/
theorem reset_iff (Z : Zobrist) (b : Board) (m : Move)
    (hep : m.flags &&& 2 ≠ 0 → is_pawn_move b m) :
    (abs_piece (b.squares m.from_) = 1 ∨ (make_move Z b m).captured_out ≠ EMPTY) ↔
      (is_pawn_move b m ∨ is_capture b m) := by
  unfold is_pawn_move is_capture at *
  by_cases hf : m.flags &&& 2 ≠ 0
  · have hp := hep hf
    exact ⟨fun _ => Or.inl hp, fun _ => Or.inl hp⟩
  · rw [captured_out_plain Z b m hf]
    constructor
    · rintro (h | h)
      · exact Or.inl h
      · exact Or.inr (Or.inl h)
    · rintro (h | h | h)
      · exact Or.inl h
      · exact Or.inr h
      · exact absurd h.1 hf

/-- C12, amended: for every board with a `uint16_t` clock and every move
(the en-passant flag only on pawn moves), `halfmove_clock` after `make_move`
is `0` if the move was a pawn move or a capture, and otherwise the previous
value plus one modulo `65536`; so when the previous value is below `65535`
it is `0` exactly when the move was a pawn move or a capture, and the previous
value plus one after any other move. -/
theorem make_move_halfmove_clock (Z : Zobrist) (b : Board) (m : Move)
    (hep : m.flags &&& 2 ≠ 0 → is_pawn_move b m) :
    ((make_move Z b m).board.halfmove_clock =
      if is_pawn_move b m ∨ is_capture b m then 0 else (b.halfmove_clock + 1) % 65536) ∧
    (b.halfmove_clock < 65535 →
      ((make_move Z b m).board.halfmove_clock = 0 ↔ (is_pawn_move b m ∨ is_capture b m)) ∧
      (¬ (is_pawn_move b m ∨ is_capture b m) →
        (make_move Z b m).board.halfmove_clock = b.halfmove_clock + 1)) := by
  have hr := reset_iff Z b m hep
  have hc := make_move_halfmove Z b m
  have hmain : (make_move Z b m).board.halfmove_clock =
      if is_pawn_move b m ∨ is_capture b m then 0 else (b.halfmove_clock + 1) % 65536 := by
    rw [hc]
    by_cases hx : is_pawn_move b m ∨ is_capture b m
    · rw [if_pos hx, if_pos (hr.mpr hx)]
    · rw [if_neg hx, if_neg (fun h => hx (hr.mp h))]
  refine ⟨hmain, fun hlt => ⟨?_, ?_⟩⟩
  · rw [hmain]
    by_cases hx : is_pawn_move b m ∨ is_capture b m
    · rw [if_pos hx]
      exact ⟨fun _ => hx, fun _ => rfl⟩
    · rw [if_neg hx]
      constructor
      · intro h0
        omega
      · intro h1
        exact absurd h1 hx
  · intro hx
    rw [hmain, if_neg hx]
    omega

/-- C12, counterexample: on the initial position with the clock at `65535`,
the knight move g1f3 is neither a pawn move nor a capture, and the clock after
`make_move` is `0`, not the previous value plus one. -/
theorem halfmove_clock_wraps :
    (late_startpos zeroKeys).halfmove_clock = 65535 ∧
    ¬ is_pawn_move (late_startpos zeroKeys) (quiet 6 21) ∧
    ¬ is_capture (late_startpos zeroKeys) (quiet 6 21) ∧
    (make_move zeroKeys (late_startpos zeroKeys) (quiet 6 21)).board.halfmove_clock = 0 := by
  refine ⟨rfl, ?_, ?_, ?_⟩
  · unfold is_pawn_move; decide
  · unfold is_capture; decide
  · decide

/-- C12, witness: the amended statement applied to the knight move g1f3 on
the initial position, where the clock goes from `0` to `1`. -/
theorem make_move_halfmove_clock_witness :
    ((quiet 6 21).flags &&& 2 ≠ 0 → is_pawn_move (startpos zeroKeys) (quiet 6 21)) ∧
    (startpos zeroKeys).halfmove_clock < 65535 ∧
    ¬ (is_pawn_move (startpos zeroKeys) (quiet 6 21) ∨
        is_capture (startpos zeroKeys) (quiet 6 21)) ∧
    (make_move zeroKeys (startpos zeroKeys) (quiet 6 21)).board.halfmove_clock =
      (startpos zeroKeys).halfmove_clock + 1 :=
  ⟨by decide, by decide, by unfold is_pawn_move is_capture; decide,
    ((make_move_halfmove_clock zeroKeys (startpos zeroKeys) (quiet 6 21) (by decide)).2
      (by decide)).2 (by unfold is_pawn_move is_capture; decide)⟩

/-! ## C13: checkmate -/

/-- C13: for every board on which the generator returns no move and
`in_check` of the side to move is true, `evaluate_terminal` returns
`terminal = true` with reward `-1` when white is to move and `+1` when black
is to move. -/
theorem evaluate_terminal_checkmate (fuel : Nat) (Z : Zobrist) (b : Board)
    (hgen : generate_legal_moves fuel Z b = some [])
    (hchk : in_check fuel b b.white_to_move = some true) :
    evaluate_terminal fuel Z b =
      some { reward := if b.white_to_move then -1 else 1, terminal := true } := by
  unfold evaluate_terminal
  rw [hgen]
  simp only [List.isEmpty_nil, Bool.not_true, Bool.false_eq_true, if_false]
  rw [hchk]

theorem generate_smothered : generate_legal_moves 8 zeroKeys (smothered zeroKeys) = some [] := by
  decide

/-- C13, witness: in the smothered mate with white king h1, rook g1, pawns
g2 h2 and black knight f2, white to move has no move and is in check, and the
position is terminal with reward `-1`. -/
theorem evaluate_terminal_checkmate_witness :
    generate_legal_moves 8 zeroKeys (smothered zeroKeys) = some [] ∧
    in_check 8 (smothered zeroKeys) (smothered zeroKeys).white_to_move = some true ∧
    evaluate_terminal 8 zeroKeys (smothered zeroKeys) = some { reward := -1, terminal := true } :=
  ⟨generate_smothered, by decide,
    evaluate_terminal_checkmate 8 zeroKeys (smothered zeroKeys) generate_smothered (by decide)⟩

/-! ## C20: the position `8/P7/8/8/8/8/7k/7K` -/

/-- After each of the four promotions a7a8 the white king on h1 is still
attacked by the black king on h2. -/
theorem in_check_after_a7a8 (Z : Zobrist) (n : Nat) (pr : Int) (hpr : pr ∈ [(4 : Int), 5, 2, 3]) :
    in_check (n + 8) (make_move Z (pawn_a7 Z) ⟨48, 56, pr, 4⟩).board true = some true := by
  simp only [List.mem_cons, List.mem_singleton, List.not_mem_nil, or_false] at hpr
  rcases hpr with rfl | rfl | rfl | rfl <;> rfl

theorem add_if_legal_a7a8 (Z : Zobrist) (n : Nat) (pr : Int) (hpr : pr ∈ [(4 : Int), 5, 2, 3])
    (moves : List Move) :
    add_if_legal (n + 8) Z (pawn_a7 Z) 48 56 pr 4 moves = some moves := by
  unfold add_if_legal
  have h : in_check (n + 8) (make_move Z (pawn_a7 Z) ⟨48, 56, pr, 4⟩).board
      (!(make_move Z (pawn_a7 Z) ⟨48, 56, pr, 4⟩).board.white_to_move) = some true :=
    in_check_after_a7a8 Z n pr hpr
  simp only [h]
  rfl

/-- The legality filter on the four promotions a7a8 of this board, taken by
itself: after each of them `in_check` of white is true, because the white king
stands next to the black king, so `add_if_legal` appends none of them and the
body of the generator's loop for the square a7 leaves the list as it is. -/
theorem promotions_rejected (Z : Zobrist) (n : Nat) (moves : List Move) :
    (∀ pr ∈ [(4 : Int), 5, 2, 3],
      in_check (n + 8) (make_move Z (pawn_a7 Z) ⟨48, 56, pr, 4⟩).board true = some true ∧
      add_if_legal (n + 8) Z (pawn_a7 Z) 48 56 pr 4 moves = some moves) ∧
    add_promotions (n + 8) Z (pawn_a7 Z) WP 48 56 moves = some moves ∧
    gen_square (n + 8) Z (pawn_a7 Z) moves 48 = some moves := by
  have h4 := add_if_legal_a7a8 Z n 4 (by decide)
  have h5 := add_if_legal_a7a8 Z n 5 (by decide)
  have h2 := add_if_legal_a7a8 Z n 2 (by decide)
  have h3 := add_if_legal_a7a8 Z n 3 (by decide)
  have hw : is_white WP = true := rfl
  have hp : add_promotions (n + 8) Z (pawn_a7 Z) WP 48 56 moves = some moves := by
    simp only [add_promotions, List.foldlM_cons, List.foldlM_nil, hw, if_true, h4, h5, h2, h3,
      Option.pure_def]
    rfl
  refine ⟨fun pr hpr => ⟨in_check_after_a7a8 Z n pr hpr, add_if_legal_a7a8 Z n pr hpr moves⟩,
    hp, ?_⟩
  have h48 : (pawn_a7 Z).squares 48 = WP := rfl
  have h56 : (pawn_a7 Z).squares 56 = EMPTY := rfl
  have h57 : (pawn_a7 Z).squares 57 = EMPTY := rfl
  have hep : (pawn_a7 Z).ep_square = -1 := rfl
  have hwtm : (pawn_a7 Z).white_to_move = true := rfl
  have hp2 : add_promotions (n + 8) Z (pawn_a7 Z) 1 48 56 moves = some moves := hp
  simp [gen_square, gen_pawn, pawn_pushes, pawn_capture, h48, h56, h57, hep, hwtm, is_white,
    is_empty, abs_piece, WP, EMPTY, rank_of, file_of, idx, hp2]

theorem in_check_after_h1g2 (Z : Zobrist) (fuel : Nat) :
    in_check fuel (make_move Z (pawn_a7 Z) (quiet 7 14)).board true = none :=
  is_square_attacked_stuck (make_move Z (pawn_a7 Z) (quiet 7 14)).board 14 false 8 2
    rfl rfl rfl rfl rfl fuel

theorem gen_step_h1g2 (Z : Zobrist) (fuel : Nat) (moves : List Move) :
    gen_step fuel Z (pawn_a7 Z) WK 7 0 7 moves (1, -1) = none := by
  have ha : add_if_legal fuel Z (pawn_a7 Z) 7 14 0 0 moves = none := by
    unfold add_if_legal
    have hc : in_check fuel (make_move Z (pawn_a7 Z) ⟨7, 14, 0, 0⟩).board
        (!(make_move Z (pawn_a7 Z) ⟨7, 14, 0, 0⟩).board.white_to_move) = none :=
      in_check_after_h1g2 Z fuel
    simp only [hc]
  have h14 : (pawn_a7 Z).squares 14 = EMPTY := rfl
  simp [gen_step, in_range, idx, is_empty, h14, EMPTY, ha]

theorem gen_square_h1 (Z : Zobrist) (fuel : Nat) (moves : List Move) :
    gen_square fuel Z (pawn_a7 Z) moves 7 = none := by
  have hk : KING_OFF.foldlM (gen_step fuel Z (pawn_a7 Z) WK 7 0 7) moves = none :=
    foldlM_none _ (1, -1) (fun acc => gen_step_h1g2 Z fuel acc) _ _ (by decide)
  have h7 : (pawn_a7 Z).squares 7 = WK := rfl
  have hwtm : (pawn_a7 Z).white_to_move = true := rfl
  have hk2 : KING_OFF.foldlM (gen_step fuel Z (pawn_a7 Z) 6 7 0 7) moves = none := hk
  simp [gen_square, h7, hwtm, is_white, abs_piece, WK, EMPTY, rank_of, file_of, hk2]

theorem generate_pawn_a7_none (Z : Zobrist) (fuel : Nat) :
    generate_legal_moves fuel Z (pawn_a7 Z) = none :=
  foldlM_none _ 7 (fun acc => gen_square_h1 Z fuel acc) _ _ (by decide)

/-- C20 (code defect): on the board `8/P7/8/8/8/8/7k/7K` with white to move,
`generate_legal_moves` does not return, for any fuel and any key table.  The
loop over the squares comes to the white king on h1 (square 7) before the pawn
on a7 (square 48); the legality trial of Kh1-g2 calls `in_check` of white on
the board after the move, which does not come back, and so neither does the
loop body for h1.  In particular no list of 7 moves is returned. -/
theorem generate_pawn_a7_hangs (Z : Zobrist) (fuel : Nat) :
    generate_legal_moves fuel Z (pawn_a7 Z) = none ∧
    (pawn_a7 Z).squares 7 = WK ∧ (pawn_a7 Z).squares 48 = WP ∧
    in_check fuel (make_move Z (pawn_a7 Z) (quiet 7 14)).board true = none ∧
    (∀ moves, gen_square fuel Z (pawn_a7 Z) moves 7 = none) ∧
    ¬ ∃ ms, generate_legal_moves fuel Z (pawn_a7 Z) = some ms ∧ ms.length = 7 := by
  refine ⟨generate_pawn_a7_none Z fuel, rfl, rfl, in_check_after_h1g2 Z fuel,
    fun moves => gen_square_h1 Z fuel moves, ?_⟩
  rintro ⟨ms, h, -⟩
  rw [generate_pawn_a7_none] at h
  exact Option.noConfusion h

/-! ## C14 and C16: the simulation loop and the exploration weight -/

/-- Without a deadline the loop of `search_best_move` never reaches its
exit: whatever the bound on the number of tests, it has not returned. -/
theorem search_loop_no_deadline {F D R : Type} (A : Arith F D R) (fuel : Nat) (Z : Zobrist)
    (clock : Nat → Int) (simulations : Int) (root : Board) :
    ∀ (steps : Nat) (i : Int) (tick : Nat) (st : MCTS F R),
      search_loop A fuel Z clock none simulations root steps i tick st = none := by
  intro steps
  induction steps with
  | zero => intro i tick st; rfl
  | succ n ih =>
    intro i tick st
    unfold search_loop
    by_cases hi : i < simulations
    · rw [if_pos hi]
      cases simulate A fuel Z st root with
      | none => rfl
      | some r => exact ih _ _ _
    · rw [if_neg hi]
      have hb : before_deadline (clock tick) none = true := rfl
      rw [if_pos hb]
      cases simulate A fuel Z st root with
      | none => rfl
      | some r => exact ih _ _ _

/-- C14 (code defect): with `time_budget_ms = 0` the call of
`search_best_move` does not return, for any number of simulations, any search
state and any bound on the number of loop tests: the loop condition
`i<simulations || now() < deadline` stays true once the count is reached,
because the deadline is then `time_point::max()`. -/
theorem search_best_move_no_budget {F D R : Type} (A : Arith F D R) (fuel steps : Nat)
    (Z : Zobrist) (clock : Nat → Int) (st : MCTS F R) (root : Board) (simulations : Int)
    (c_puct : F) :
    search_best_move A fuel steps Z clock { st with time_budget_ms := 0 } root simulations
      c_puct = none := by
  unfold search_best_move
  simp only [lt_irrefl, if_false]
  rw [search_loop_no_deadline]

/-- C16 (code defect): the exploration weight `c_puct` passed to
`search_best_move` does not reach the selection score: two calls that differ
only in `c_puct` give the same result, and the score a turn of the selection
loop compares for a child with `child_visits[i] >= 1` is the one of the
formula with the constant `1.2f` as weight. -/
theorem search_best_move_ignores_c_puct {F D R : Type} (A : Arith F D R) (fuel steps : Nat)
    (Z : Zobrist) (clock : Nat → Int) (st : MCTS F R) (root : Board) (simulations : Int)
    (c1 c2 : F) :
    search_best_move A fuel steps Z clock st root simulations c1
      = search_best_move A fuel steps Z clock st root simulations c2
    ∧ ∀ (node : MCTSNodeData F) (parent_vis : Nat) (s : Selection F R) (i : Nat),
        node.child_visits.getD i 0 ≠ 0 →
        select_step A node parent_vis s i =
          (let score := A.add
              (A.div (node.child_values.getD i A.zero) (A.of_u32 (node.child_visits.getD i 0)))
              (A.div (A.mul A.lit_1_2 (A.sqrt (A.of_u32 (max 1 parent_vis))))
                (A.add A.one (A.of_u32 (node.child_visits.getD i 0))))
           if A.gt score s.best then { best := score, best_i := i, rng := s.rng } else s) := by
  refine ⟨rfl, ?_⟩
  intro node parent_vis s i h
  simp only [select_step, ucb_score, if_neg h]

/-! ## C15: the final selection -/

/-- The loop `// pick move with max visits` keeps a maximum of the counters
seen and the first index that attains it. -/
theorem best_step_fold (cv : List Nat) (n : Nat) :
    let r := (List.range n).foldl (best_step cv) (0, 0)
    (∀ j, j < n → cv.getD j 0 ≤ r.1) ∧ (∀ j, j < r.2 → cv.getD j 0 < r.1) ∧
      ((r.2 = 0 ∧ r.1 = 0) ∨ (r.2 < n ∧ cv.getD r.2 0 = r.1)) := by
  induction n with
  | zero =>
    refine ⟨fun j hj => absurd hj (Nat.not_lt_zero j), fun j hj => absurd hj (Nat.not_lt_zero j),
      Or.inl ⟨rfl, rfl⟩⟩
  | succ n ih =>
    rw [List.range_succ, List.foldl_append]
    simp only [List.foldl_cons, List.foldl_nil]
    generalize (List.range n).foldl (best_step cv) (0, 0) = r at ih
    obtain ⟨h1, h2, h3⟩ := ih
    unfold best_step
    by_cases hgt : cv.getD n 0 > r.1
    · rw [if_pos hgt]
      refine ⟨?_, ?_, Or.inr ⟨Nat.lt_succ_self n, rfl⟩⟩
      · intro j hj
        rcases Nat.lt_succ_iff_lt_or_eq.mp hj with h | h
        · exact le_trans (h1 j h) (le_of_lt hgt)
        · rw [h]
      · intro j hj
        exact lt_of_le_of_lt (h1 j hj) hgt
    · rw [if_neg hgt]
      refine ⟨?_, h2, ?_⟩
      · intro j hj
        rcases Nat.lt_succ_iff_lt_or_eq.mp hj with h | h
        · exact h1 j h
        · rw [h]; exact not_lt.mp hgt
      · rcases h3 with h | ⟨h, h'⟩
        · exact Or.inl h
        · exact Or.inr ⟨Nat.lt_succ_of_lt h, h'⟩

/-- The index `best_child` returns lies in the list, attains the maximum of
the counters and is the first one to do so. -/
theorem best_child_first_max (cv : List Nat) (n : Nat) (hn : 0 < n) :
    best_child n cv < n ∧ (∀ j, j < n → cv.getD j 0 ≤ cv.getD (best_child n cv) 0) ∧
      (∀ j, j < best_child n cv → cv.getD j 0 < cv.getD (best_child n cv) 0) := by
  have h := best_step_fold cv n
  simp only at h
  unfold best_child
  generalize (List.range n).foldl (best_step cv) (0, 0) = r at h
  obtain ⟨h1, h2, h3⟩ := h
  have h4 : r.2 < n ∧ cv.getD r.2 0 = r.1 := by
    rcases h3 with ⟨h, h'⟩ | h
    · refine ⟨by rw [h]; exact hn, ?_⟩
      have := h1 0 hn
      rw [h, h']
      rw [h'] at this
      exact Nat.le_zero.mp this
    · exact h
  refine ⟨h4.1, ?_, ?_⟩
  · intro j hj; rw [h4.2]; exact h1 j hj
  · intro j hj; rw [h4.2]; exact h2 j hj

/-- C15: when the simulation loop of `search_best_move` has ended in the
state `e.st` and the table then holds a node with a non-empty move list for
the root hash, `search_best_move` returns `moves[i]` for the smallest index
`i` whose `child_visits[i]` is the maximum over all children, and leaves the
state `e.st`. -/
theorem search_best_move_most_visited {F D R : Type} (A : Arith F D R) (fuel steps : Nat)
    (Z : Zobrist) (clock : Nat → Int) (st : MCTS F R) (root : Board) (simulations : Int)
    (c_puct : F) (e : LoopEnd F R) (node : MCTSNodeData F)
    (hloop : search_loop A fuel Z clock
      (if st.time_budget_ms > 0 then some (clock 0 + st.time_budget_ms) else none) simulations
      root steps 0 (if st.time_budget_ms > 0 then 1 else 0) st = some e)
    (hnode : e.st.table root.hash = some node) (hmoves : node.moves ≠ []) :
    ∃ i, i < node.moves.length ∧
      search_best_move A fuel steps Z clock st root simulations c_puct
        = some (node.moves.getD i null_move, e.st) ∧
      (∀ j, j < node.moves.length → node.child_visits.getD j 0 ≤ node.child_visits.getD i 0) ∧
      (∀ j, j < i → node.child_visits.getD j 0 < node.child_visits.getD i 0) := by
  have hn : 0 < node.moves.length := List.length_pos.mpr hmoves
  obtain ⟨h1, h2, h3⟩ := best_child_first_max node.child_visits node.moves.length hn
  refine ⟨best_child node.moves.length node.child_visits, h1, ?_, h2, h3⟩
  have hemp : node.moves.isEmpty = false := by
    cases hm : node.moves with
    | nil => exact absurd hm hmoves
    | cons a l => rfl
  unfold search_best_move
  by_cases hb : st.time_budget_ms > 0
  · simp only [if_pos hb] at hloop ⊢
    rw [hloop]
    simp only [final_selection, hnode, hemp]
    rfl
  · simp only [if_neg hb] at hloop ⊢
    rw [hloop]
    simp only [final_selection, hnode, hemp]
    rfl

/-! ## C17, C18, C19: descent and backpropagation -/

/-- One turn of the backpropagation loop credits the frame with the current
value and negates the value. -/
theorem expand_frame_credit {F D R : Type} (A : Arith F D R) (persistent_q : Bool)
    (fr : Nat × Nat) (s : Backprop F) :
    expand_frame A persistent_q fr s =
      { table := (credit A persistent_q fr s.v (s.table, s.qtable)).1
        qtable := (credit A persistent_q fr s.v (s.table, s.qtable)).2
        v := A.neg s.v } := by
  unfold expand_frame credit credit_node
  by_cases h : fr.2 ≠ SIZE_MAX
  · simp only [if_pos h]
  · simp only [if_neg h]

/-- The backpropagation loop, written from the deepest frame upwards. -/
theorem backprop_fold_credit {F D R : Type} (A : Arith F D R) (persistent_q : Bool) (v : F) :
    ∀ (frames : List (Nat × Nat)) (k : Nat)
      (tq : (Nat → Option (MCTSNodeData F)) × (Nat → Option (F × Nat))),
      frames.foldl (fun s fr => expand_frame A persistent_q fr s)
          { table := tq.1, qtable := tq.2, v := A.neg^[k] v } =
        { table := (credit_path A persistent_q v frames k tq).1
          qtable := (credit_path A persistent_q v frames k tq).2
          v := A.neg^[k + frames.length] v } := by
  intro frames
  induction frames with
  | nil => intro k tq; rfl
  | cons fr frames ih =>
    intro k tq
    rw [List.foldl_cons, expand_frame_credit]
    have hv : A.neg (A.neg^[k] v) = A.neg^[k + 1] v :=
      (Function.iterate_succ_apply' A.neg k v).symm
    simp only [hv]
    rw [ih (k + 1) (credit A persistent_q fr (A.neg^[k] v) tq)]
    simp only [credit_path, List.length_cons]
    have hk : k + 1 + frames.length = k + (frames.length + 1) := by omega
    rw [hk]

theorem backprop_expand_credit {F D R : Type} (A : Arith F D R) (persistent_q : Bool)
    (path : List (Nat × Nat)) (T : Nat → Option (MCTSNodeData F)) (Q : Nat → Option (F × Nat))
    (v : F) :
    backprop_expand A persistent_q path { table := T, qtable := Q, v := v } =
      { table := (credit_path A persistent_q v path.reverse 0 (T, Q)).1
        qtable := (credit_path A persistent_q v path.reverse 0 (T, Q)).2
        v := A.neg^[path.length] v } := by
  have h := backprop_fold_credit A persistent_q v path.reverse 0 (T, Q)
  rw [List.foldl_reverse] at h
  simp only [Function.iterate_zero, id_eq, List.length_reverse, Nat.zero_add] at h
  exact h

theorem getD_set_same {α : Type} (l : List α) (i : Nat) (x d : α) (h : i < l.length) :
    (l.set i x).getD i d = x := by
  rw [List.getD_eq_getElem?_getD, List.getElem?_set_self h, Option.getD_some]

theorem getD_set_other {α : Type} (l : List α) (i j : Nat) (x d : α) (h : i ≠ j) :
    (l.set i x).getD j d = l.getD j d := by
  rw [List.getD_eq_getElem?_getD, List.getD_eq_getElem?_getD, List.getElem?_set_ne h]

/-- What `credit_node` does for a child index of the node: the node gets one
more visit and `x` more value, so does the child `idx`, and the other children
and the moves stay as they are. -/
theorem credit_node_child {F D R : Type} (A : Arith F D R) (n : MCTSNodeData F) (idx : Nat)
    (x : F) (hv : idx < n.child_visits.length) (hs : idx < n.child_values.length)
    (hmax : idx ≠ SIZE_MAX) :
    (credit_node A n idx x).visits = (n.visits + 1) % 4294967296 ∧
    (credit_node A n idx x).value_sum = A.add n.value_sum x ∧
    (credit_node A n idx x).moves = n.moves ∧
    (credit_node A n idx x).child_visits.getD idx 0
      = (n.child_visits.getD idx 0 + 1) % 4294967296 ∧
    (credit_node A n idx x).child_values.getD idx A.zero
      = A.add (n.child_values.getD idx A.zero) x ∧
    (∀ j, j ≠ idx →
      (credit_node A n idx x).child_visits.getD j 0 = n.child_visits.getD j 0 ∧
      (credit_node A n idx x).child_values.getD j A.zero = n.child_values.getD j A.zero) := by
  refine ⟨rfl, rfl, rfl, ?_, ?_, ?_⟩
  · show (if idx ≠ SIZE_MAX then _ else _ : List Nat).getD idx 0 = _
    rw [if_pos hmax, getD_set_same _ _ _ _ hv]
  · show (if idx ≠ SIZE_MAX then _ else _ : List F).getD idx A.zero = _
    rw [if_pos hmax, getD_set_same _ _ _ _ hs]
  · intro j hj
    constructor
    · show (if idx ≠ SIZE_MAX then _ else _ : List Nat).getD j 0 = _
      rw [if_pos hmax, getD_set_other _ _ _ _ _ (Ne.symm hj)]
    · show (if idx ≠ SIZE_MAX then _ else _ : List F).getD j A.zero = _
      rw [if_pos hmax, getD_set_other _ _ _ _ _ (Ne.symm hj)]

theorem select_fold_best_i {F D R : Type} (A : Arith F D R) (node : MCTSNodeData F)
    (parent_vis n : Nat) :
    ∀ (l : List Nat) (s : Selection F R), (∀ i ∈ l, i < n) →
      (l.foldl (select_step A node parent_vis) s).best_i = s.best_i ∨
        (l.foldl (select_step A node parent_vis) s).best_i < n := by
  intro l
  induction l with
  | nil => intro s _; exact Or.inl rfl
  | cons i l ih =>
    intro s hl
    rw [List.foldl_cons]
    have hi : i < n := hl i (List.mem_cons_self i l)
    have hrest : ∀ j ∈ l, j < n := fun j hj => hl j (List.mem_cons_of_mem i hj)
    have hstep : (select_step A node parent_vis s i).best_i = s.best_i ∨
        (select_step A node parent_vis s i).best_i = i := by
      unfold select_step
      simp only
      split <;> split <;> first | exact Or.inr rfl | exact Or.inl rfl
    rcases ih (select_step A node parent_vis s i) hrest with h | h
    · rcases hstep with h' | h'
      · exact Or.inl (h.trans h')
      · exact Or.inr (by rw [h, h']; exact hi)
    · exact Or.inr h

/-- The selection loop returns the index of a move of the node. -/
theorem select_child_lt {F D R : Type} (A : Arith F D R) (node : MCTSNodeData F) (rng : R)
    (h : node.moves ≠ []) : (select_child A node rng).best_i < node.moves.length := by
  have hn : 0 < node.moves.length := List.length_pos.mpr h
  unfold select_child
  rcases select_fold_best_i A node (max 1 node.visits) node.moves.length
    (List.range node.moves.length) { best := A.lit_neg_1e9, best_i := 0, rng := rng }
    (fun i hi => List.mem_range.mp hi) with h | h
  · rw [h]; exact hn
  · exact h

/-- Where the descent of `simulate` leaves: every frame it pushed names a
node of the table and one of its moves; it stops at a position without a node
or at a node without moves. -/
theorem descend_spec {F D R : Type} (A : Arith F D R) (Z : Zobrist)
    (T : Nat → Option (MCTSNodeData F)) :
    ∀ (fuel : Nat) (b : Board) (path : List (Nat × Nat)) (rng : R) (d : Descent R),
      descend A Z T fuel b path rng = some d →
      (∀ fr ∈ d.path, fr ∈ path ∨ ∃ n, T fr.1 = some n ∧ fr.2 < n.moves.length) ∧
      (d.terminal = false → T d.board.hash = none) ∧
      (d.terminal = true → ∃ n, T d.board.hash = some n ∧ n.moves = []) := by
  intro fuel
  induction fuel with
  | zero => intro b path rng d h; exact absurd h (by simp [descend])
  | succ fuel ih =>
    intro b path rng d h
    unfold descend at h
    cases hT : T b.hash with
    | none =>
      simp only [hT, Option.some.injEq] at h
      subst h
      exact ⟨fun fr hfr => Or.inl hfr, fun _ => hT, fun hc => absurd hc (by simp)⟩
    | some node =>
      simp only [hT] at h
      cases hm : node.moves with
      | nil =>
        simp only [hm, List.isEmpty_nil, if_true, Option.some.injEq] at h
        subst h
        exact ⟨fun fr hfr => Or.inl hfr, fun hc => absurd hc (by simp), fun _ => ⟨node, hT, hm⟩⟩
      | cons m ms =>
        have hne : node.moves ≠ [] := by rw [hm]; exact List.cons_ne_nil m ms
        have hemp : node.moves.isEmpty = false := by rw [hm]; rfl
        simp only [hemp, Bool.false_eq_true, if_false] at h
        obtain ⟨h1, h2, h3⟩ := ih _ _ _ d h
        refine ⟨?_, h2, h3⟩
        intro fr hfr
        rcases h1 fr hfr with h' | h'
        · rcases List.mem_append.mp h' with h'' | h''
          · exact Or.inl h''
          · rw [List.mem_singleton] at h''
            subst h''
            exact Or.inr ⟨node, hT, select_child_lt A node rng hne⟩
        · exact Or.inr h'

theorem expand_frame_table {F D R : Type} (A : Arith F D R) (persistent_q : Bool)
    (fr : Nat × Nat) (s : Backprop F) :
    (expand_frame A persistent_q fr s).table =
      put s.table fr.1 (credit_node A ((s.table fr.1).getD (empty_node A)) fr.2 s.v) := by
  unfold expand_frame credit_node
  by_cases h : fr.2 ≠ SIZE_MAX
  · simp only [if_pos h]
  · simp only [if_neg h]

theorem expand_frame_qtable_off {F D R : Type} (A : Arith F D R) (fr : Nat × Nat)
    (s : Backprop F) : (expand_frame A false fr s).qtable = s.qtable := by
  simp [expand_frame]

theorem expand_frame_qtable_on {F D R : Type} (A : Arith F D R) (fr : Nat × Nat)
    (s : Backprop F) :
    (expand_frame A true fr s).qtable =
      put s.qtable fr.1 (A.add ((s.qtable fr.1).getD (A.zero, 0)).1 s.v,
        (((s.qtable fr.1).getD (A.zero, 0)).2 + 1) % 4294967296) := by
  simp [expand_frame]

/-- With persistence off the backpropagation loop leaves the Q-table as it
was. -/
theorem backprop_qtable_off {F D R : Type} (A : Arith F D R) (path : List (Nat × Nat))
    (s : Backprop F) : (backprop_expand A false path s).qtable = s.qtable := by
  induction path with
  | nil => rfl
  | cons fr path ih =>
    show (expand_frame A false fr (backprop_expand A false path s)).qtable = s.qtable
    rw [expand_frame_qtable_off, ih]

/-- The backpropagation loop changes the table only at the keys of the
path. -/
theorem backprop_table_other {F D R : Type} (A : Arith F D R) (persistent_q : Bool)
    (path : List (Nat × Nat)) (s : Backprop F) (k : Nat) (hk : ∀ fr ∈ path, fr.1 ≠ k) :
    (backprop_expand A persistent_q path s).table k = s.table k := by
  induction path with
  | nil => rfl
  | cons fr path ih =>
    show (expand_frame A persistent_q fr (backprop_expand A persistent_q path s)).table k
      = s.table k
    rw [expand_frame_table]
    have h1 : k ≠ fr.1 := fun h => hk fr (List.mem_cons_self fr path) h.symm
    simp only [put, if_neg h1]
    exact ih (fun fr' h' => hk fr' (List.mem_cons_of_mem fr h'))

/-- With persistence on the backpropagation loop adds to the visit count of
the Q entry of `k` the number of frames with the key `k`. -/
theorem backprop_qtable_on {F D R : Type} (A : Arith F D R) (path : List (Nat × Nat))
    (s : Backprop F) (k : Nat) :
    (((backprop_expand A true path s).qtable k).getD (A.zero, 0)).2 % 4294967296 =
      (((s.qtable k).getD (A.zero, 0)).2 + path.countP (fun fr => decide (fr.1 = k)))
        % 4294967296 := by
  induction path with
  | nil => simp [backprop_expand]
  | cons fr path ih =>
    show (((expand_frame A true fr (backprop_expand A true path s)).qtable k).getD
      (A.zero, 0)).2 % 4294967296 = _
    rw [expand_frame_qtable_on, List.countP_cons]
    by_cases hk : fr.1 = k
    · subst hk
      simp only [put, if_true, Option.getD_some, decide_True]
      omega
    · have hk' : ¬ k = fr.1 := fun h => hk h.symm
      simp only [put, if_neg hk', hk, decide_False, Bool.false_eq_true, if_false, Nat.add_zero]
      exact ih

theorem backprop_terminal_eq_expand {F D R : Type} (A : Arith F D R) (persistent_q : Bool)
    (path : List (Nat × Nat)) (s : Backprop F) :
    backprop_terminal A persistent_q path s = backprop_expand A persistent_q path s := rfl

theorem sum_set_add (l : List Nat) : ∀ (i x : Nat), i < l.length →
    (l.set i x).sum + l.getD i 0 = l.sum + x := by
  induction l with
  | nil => intro i x h; exact absurd h (Nat.not_lt_zero i)
  | cons a l ih =>
    intro i x h
    cases i with
    | zero => simp only [List.set_cons_zero, List.sum_cons, List.getD_cons_zero]; omega
    | succ i =>
      have h' : i < l.length := Nat.lt_of_succ_lt_succ h
      have := ih i x h'
      simp only [List.set_cons_succ, List.sum_cons, List.getD_cons_succ]
      omega

/-- Crediting a node and one of its children keeps the visit-count
relation. -/
theorem credit_node_ok {F D R : Type} (A : Arith F D R) (seed : Nat) (n : MCTSNodeData F)
    (idx : Nat) (x : F) (hidx : idx < n.child_visits.length) (h : node_ok seed n) :
    node_ok seed (credit_node A n idx x) := by
  obtain ⟨hlen, hsum⟩ := h
  constructor
  · show (if idx ≠ SIZE_MAX then _ else _ : List Nat).length = n.moves.length
    split
    · rw [List.length_set]; exact hlen
    · exact hlen
  · intro hle
    have hle' : n.moves.length ≤ SIZE_MAX := hle
    have hne : idx ≠ SIZE_MAX := by
      have : idx < n.moves.length := hlen ▸ hidx
      omega
    have hs := hsum hle'
    have hset := sum_set_add n.child_visits idx ((n.child_visits.getD idx 0 + 1) % 4294967296) hidx
    show (n.visits + 1) % 4294967296 % 4294967296 =
      (seed + (if idx ≠ SIZE_MAX then
        n.child_visits.set idx ((n.child_visits.getD idx 0 + 1) % 4294967296)
        else n.child_visits : List Nat).sum) % 4294967296
    rw [if_pos hne]
    omega

theorem expand_frame_keeps {F D R : Type} (A : Arith F D R) (persistent_q : Bool)
    (fr : Nat × Nat) (s : Backprop F) (k : Nat) (n : MCTSNodeData F) (h : s.table k = some n) :
    ∃ n1, (expand_frame A persistent_q fr s).table k = some n1 ∧
      n1.child_visits.length = n.child_visits.length := by
  rw [expand_frame_table]
  by_cases hk : k = fr.1
  · subst hk
    refine ⟨credit_node A ((s.table fr.1).getD (empty_node A)) fr.2 s.v,
      by simp only [put, if_true], ?_⟩
    rw [h]
    show (if fr.2 ≠ SIZE_MAX then _ else _ : List Nat).length = n.child_visits.length
    split
    · rw [Option.getD_some, List.length_set]
    · rfl
  · exact ⟨n, by simp only [put, if_neg hk]; exact h, rfl⟩

theorem backprop_keeps {F D R : Type} (A : Arith F D R) (persistent_q : Bool)
    (path : List (Nat × Nat)) (s : Backprop F) (k : Nat) (n : MCTSNodeData F)
    (h : s.table k = some n) :
    ∃ n1, (backprop_expand A persistent_q path s).table k = some n1 ∧
      n1.child_visits.length = n.child_visits.length := by
  induction path with
  | nil => exact ⟨n, h, rfl⟩
  | cons fr path ih =>
    obtain ⟨n1, h1, h2⟩ := ih
    obtain ⟨n2, h3, h4⟩ := expand_frame_keeps A persistent_q fr _ k n1 h1
    exact ⟨n2, h3, h4.trans h2⟩

theorem expand_frame_table_ok {F D R : Type} (A : Arith F D R) (persistent_q : Bool)
    (seed : Nat → Nat) (fr : Nat × Nat) (s : Backprop F) (hok : table_ok seed s.table)
    (hfr : ∃ n, s.table fr.1 = some n ∧ fr.2 < n.child_visits.length) :
    table_ok seed (expand_frame A persistent_q fr s).table := by
  obtain ⟨n, hn, hidx⟩ := hfr
  intro k n1 hk
  rw [expand_frame_table] at hk
  by_cases hkey : k = fr.1
  · subst hkey
    simp only [put, if_true, hn, Option.getD_some, Option.some.injEq] at hk
    subst hk
    exact credit_node_ok A _ n fr.2 s.v hidx (hok _ n hn)
  · simp only [put, if_neg hkey] at hk
    exact hok k n1 hk

/-- The backpropagation loop keeps the visit-count relation of every node
when each frame of the path names a node of the table and one of its
children. -/
theorem backprop_table_ok {F D R : Type} (A : Arith F D R) (persistent_q : Bool)
    (seed : Nat → Nat) (path : List (Nat × Nat)) (s : Backprop F)
    (hok : table_ok seed s.table) (hpath : path_ok s.table path) :
    table_ok seed (backprop_expand A persistent_q path s).table := by
  induction path with
  | nil => exact hok
  | cons fr path ih =>
    have hrest : path_ok s.table path := fun fr' h' => hpath fr' (List.mem_cons_of_mem fr h')
    obtain ⟨n, hn, hidx⟩ := hpath fr (List.mem_cons_self fr path)
    obtain ⟨n1, h1, h2⟩ := backprop_keeps A persistent_q path s fr.1 n hn
    exact expand_frame_table_ok A persistent_q seed fr _ (ih hrest) ⟨n1, h1, by rw [h2]; exact hidx⟩

theorem new_node_ok {F D R : Type} (A : Arith F D R) (st : MCTS F R) (key : Nat)
    (moves : List Move) :
    node_ok (seeded_visits st key) (new_node A st.persistent_q st.qtable key moves) := by
  unfold new_node seeded_visits node_ok
  cases st.persistent_q with
  | false => simp
  | true =>
    cases st.qtable key with
    | none => simp
    | some e => simp

/-- The two ways a call of `simulate` returns: through the terminal branch
or through the expansion branch, after the descent `d`. -/
theorem simulate_shape {F D R : Type} (A : Arith F D R) (fuel : Nat) (Z : Zobrist)
    (st : MCTS F R) (b : Board) (r : MCTS F R × F) (h : simulate A fuel Z st b = some r) :
    ∃ d, descend A Z st.table fuel b [] st.rng = some d ∧
      ((d.terminal = true ∧ ∃ g, evaluate_terminal fuel Z d.board = some g ∧
          r = ({ st with
                  table := (backprop_terminal A st.persistent_q d.path
                    { table := st.table, qtable := st.qtable, v := A.of_reward g.reward }).table
                  qtable := (backprop_terminal A st.persistent_q d.path
                    { table := st.table, qtable := st.qtable, v := A.of_reward g.reward }).qtable
                  rng := d.rng },
                (backprop_terminal A st.persistent_q d.path
                  { table := st.table, qtable := st.qtable, v := A.of_reward g.reward }).v)) ∨
        (d.terminal = false ∧ ∃ moves p, generate_legal_moves fuel Z d.board = some moves ∧
          playout A fuel Z 192 d.board d.rng = some p ∧
          r = ({ st with
                  table := (backprop_expand A st.persistent_q d.path
                    { table := put st.table d.board.hash
                        (new_node A st.persistent_q st.qtable d.board.hash moves)
                      qtable := st.qtable, v := p.1 }).table
                  qtable := (backprop_expand A st.persistent_q d.path
                    { table := put st.table d.board.hash
                        (new_node A st.persistent_q st.qtable d.board.hash moves)
                      qtable := st.qtable, v := p.1 }).qtable
                  rng := p.2 },
                (backprop_expand A st.persistent_q d.path
                  { table := put st.table d.board.hash
                      (new_node A st.persistent_q st.qtable d.board.hash moves)
                    qtable := st.qtable, v := p.1 }).v))) := by
  unfold simulate at h
  cases hd : descend A Z st.table fuel b [] st.rng with
  | none => simp [hd] at h
  | some d =>
    refine ⟨d, rfl, ?_⟩
    simp only [hd] at h
    cases ht : d.terminal with
    | true =>
      simp only [ht, if_true] at h
      cases hg : evaluate_terminal fuel Z d.board with
      | none => simp [hg] at h
      | some g =>
        simp only [hg, Option.some.injEq] at h
        exact Or.inl ⟨rfl, g, rfl, h.symm⟩
    | false =>
      simp only [ht, Bool.false_eq_true, if_false] at h
      cases hg : generate_legal_moves fuel Z d.board with
      | none => simp [hg] at h
      | some moves =>
        simp only [hg] at h
        cases hp : playout A fuel Z 192 d.board d.rng with
        | none => simp [hp] at h
        | some p =>
          simp only [hp, Option.some.injEq] at h
          exact Or.inr ⟨rfl, moves, p, rfl, rfl, h.symm⟩

/-- The frames of a descent from the root name nodes of the table and their
moves. -/
theorem descend_frames {F D R : Type} (A : Arith F D R) (Z : Zobrist)
    (T : Nat → Option (MCTSNodeData F)) (fuel : Nat) (b : Board) (rng : R) (d : Descent R)
    (h : descend A Z T fuel b [] rng = some d) :
    ∀ fr ∈ d.path, ∃ n, T fr.1 = some n ∧ fr.2 < n.moves.length := by
  intro fr hfr
  rcases (descend_spec A Z T fuel b [] rng d h).1 fr hfr with h' | h'
  · exact absurd h' (List.not_mem_nil fr)
  · exact h'

/-- One call of `simulate` keeps the visit-count relation of every node,
with the seeded counts updated for the node it expanded. -/
theorem simulate_table_ok {F D R : Type} (A : Arith F D R) (fuel : Nat) (Z : Zobrist)
    (st : MCTS F R) (b : Board) (r : MCTS F R × F) (seed : Nat → Nat)
    (hok : table_ok seed st.table) (h : simulate A fuel Z st b = some r) :
    table_ok (next_seeds st r.1 seed) r.1.table := by
  obtain ⟨d, hd, hcase⟩ := simulate_shape A fuel Z st b r h
  have hfr := descend_frames A Z st.table fuel b st.rng d hd
  have hkeys : ∀ k, st.table k = none → ∀ fr ∈ d.path, fr.1 ≠ k := by
    intro k hk fr hfr' heq
    obtain ⟨n, hn, _⟩ := hfr fr hfr'
    rw [heq, hk] at hn
    exact Option.noConfusion hn
  rcases hcase with ⟨_, g, _, hr⟩ | ⟨ht, moves, p, _, _, hr⟩
  · subst hr
    have hpath : path_ok st.table d.path := by
      intro fr hfr'
      obtain ⟨n, hn, hlt⟩ := hfr fr hfr'
      exact ⟨n, hn, by rw [(hok _ n hn).1]; exact hlt⟩
    have hseed : next_seeds st
        { st with
          table := (backprop_terminal A st.persistent_q d.path
            { table := st.table, qtable := st.qtable, v := A.of_reward g.reward }).table
          qtable := (backprop_terminal A st.persistent_q d.path
            { table := st.table, qtable := st.qtable, v := A.of_reward g.reward }).qtable
          rng := d.rng } seed = seed := by
      funext k
      unfold next_seeds
      cases hk : st.table k with
      | some n => simp
      | none =>
        have := backprop_table_other A st.persistent_q d.path
          { table := st.table, qtable := st.qtable, v := A.of_reward g.reward } k (hkeys k hk)
        simp only [backprop_terminal_eq_expand] at *
        simp [this, hk]
    rw [hseed]
    exact backprop_table_ok A st.persistent_q seed d.path _ hok hpath
  · subst hr
    have hnone : st.table d.board.hash = none :=
      (descend_spec A Z st.table fuel b [] st.rng d hd).2.1 ht
    let seed1 : Nat → Nat :=
      fun k => if k = d.board.hash then seeded_visits st d.board.hash else seed k
    have hok1 : table_ok seed1 (put st.table d.board.hash
        (new_node A st.persistent_q st.qtable d.board.hash moves)) := by
      intro k n hk
      by_cases hkey : k = d.board.hash
      · subst hkey
        simp only [put, if_true, Option.some.injEq] at hk
        subst hk
        simp only [seed1, if_true]
        exact new_node_ok A st _ moves
      · simp only [put, if_neg hkey] at hk
        simp only [seed1, if_neg hkey]
        exact hok k n hk
    have hpath : path_ok (put st.table d.board.hash
        (new_node A st.persistent_q st.qtable d.board.hash moves)) d.path := by
      intro fr hfr'
      obtain ⟨n, hn, hlt⟩ := hfr fr hfr'
      have hne : fr.1 ≠ d.board.hash := hkeys _ hnone fr hfr'
      exact ⟨n, by simp only [put, if_neg hne]; exact hn, by rw [(hok _ n hn).1]; exact hlt⟩
    have hseed : next_seeds st
        { st with
          table := (backprop_expand A st.persistent_q d.path
            { table := put st.table d.board.hash
                (new_node A st.persistent_q st.qtable d.board.hash moves)
              qtable := st.qtable, v := p.1 }).table
          qtable := (backprop_expand A st.persistent_q d.path
            { table := put st.table d.board.hash
                (new_node A st.persistent_q st.qtable d.board.hash moves)
              qtable := st.qtable, v := p.1 }).qtable
          rng := p.2 } seed = seed1 := by
      funext k
      unfold next_seeds
      by_cases hkey : k = d.board.hash
      · subst hkey
        obtain ⟨n1, h1, _⟩ := backprop_keeps A st.persistent_q d.path
          { table := put st.table d.board.hash
              (new_node A st.persistent_q st.qtable d.board.hash moves)
            qtable := st.qtable, v := p.1 } d.board.hash
          (new_node A st.persistent_q st.qtable d.board.hash moves)
          (by simp only [put, if_true])
        simp [seed1, hnone, h1]
      · cases hk : st.table k with
        | some n => simp [seed1, hkey]
        | none =>
          have := backprop_table_other A st.persistent_q d.path
            { table := put st.table d.board.hash
                (new_node A st.persistent_q st.qtable d.board.hash moves)
              qtable := st.qtable, v := p.1 } k (hkeys k hk)
          simp only [put, if_neg hkey] at this
          simp [seed1, hkey, this, hk]
    rw [hseed]
    exact backprop_table_ok A st.persistent_q seed1 d.path _ hok1 hpath

theorem simulate_all_table_ok {F D R : Type} (A : Arith F D R) (fuel : Nat) (Z : Zobrist) :
    ∀ (bs : List Board) (s s1 : MCTS F R × (Nat → Nat)), table_ok s.2 s.1.table →
      simulate_all A fuel Z bs s = some s1 → table_ok s1.2 s1.1.table := by
  intro bs
  induction bs with
  | nil =>
    intro s s1 hok h
    simp only [simulate_all, Option.some.injEq] at h
    subst h
    exact hok
  | cons b bs ih =>
    intro s s1 hok h
    unfold simulate_all at h
    cases hr : simulate A fuel Z s.1 b with
    | none => simp [hr] at h
    | some r =>
      simp only [hr] at h
      exact ih (r.1, next_seeds s.1 r.1 s.2) s1 (simulate_table_ok A fuel Z s.1 b r s.2 hok hr) h

/-- C17: after any sequence of `simulate` calls that starts from an empty
search table, every node `n` of the table has as many child counters as moves
and satisfies `visits = seeded_visits + sum(child_visits)` in `uint32_t`
arithmetic, where the seeded count of a key is the Q-table count copied when
its node was expanded (`0` with persistence off or without Q entry).  No
assumption is made on the paths, so a node may occur several times on one
path. -/
theorem simulate_visit_counts {F D R : Type} (A : Arith F D R) (fuel : Nat) (Z : Zobrist)
    (bs : List Board) (st0 : MCTS F R) (s : MCTS F R × (Nat → Nat))
    (hempty : ∀ k, st0.table k = none)
    (h : simulate_all A fuel Z bs (st0, fun _ => 0) = some s) :
    ∀ k n, s.1.table k = some n →
      n.child_visits.length = n.moves.length ∧
      (n.moves.length ≤ SIZE_MAX →
        n.visits % 4294967296 = (s.2 k + n.child_visits.sum) % 4294967296) := by
  have h0 : table_ok (fun _ => 0) st0.table := by
    intro k n hk
    rw [hempty k] at hk
    exact Option.noConfusion hk
  exact simulate_all_table_ok A fuel Z bs (st0, fun _ => 0) s h0 h

/-- C18: a call of `simulate` that returns, with persistence off, leaves the
Q-table as it was and gives a node it expanded `visits = 0` and
`value_sum = 0`, whatever the Q-table holds; with persistence on, the visit
count of every Q entry grows, in `uint32_t` arithmetic, by the number of
frames of the descent path with that key. -/
theorem simulate_persistent_q {F D R : Type} (A : Arith F D R) (fuel : Nat) (Z : Zobrist)
    (st : MCTS F R) (b : Board) (r : MCTS F R × F) (h : simulate A fuel Z st b = some r) :
    (st.persistent_q = false →
      r.1.qtable = st.qtable ∧
      ∀ k n, st.table k = none → r.1.table k = some n → n.visits = 0 ∧ n.value_sum = A.zero) ∧
    (st.persistent_q = true →
      ∃ d, descend A Z st.table fuel b [] st.rng = some d ∧
        ∀ k, ((r.1.qtable k).getD (A.zero, 0)).2 % 4294967296 =
          (((st.qtable k).getD (A.zero, 0)).2 + d.path.countP (fun fr => decide (fr.1 = k)))
            % 4294967296) := by
  obtain ⟨d, hd, hcase⟩ := simulate_shape A fuel Z st b r h
  have hfr := descend_frames A Z st.table fuel b st.rng d hd
  have hkeys : ∀ k, st.table k = none → ∀ fr ∈ d.path, fr.1 ≠ k := by
    intro k hk fr hfr1 heq
    obtain ⟨n, hn, _⟩ := hfr fr hfr1
    rw [heq, hk] at hn
    exact Option.noConfusion hn
  constructor
  · intro hq
    rw [hq] at hcase
    rcases hcase with ⟨_, g, _, hr⟩ | ⟨_, moves, p, _, _, hr⟩
    · subst hr
      refine ⟨backprop_qtable_off A d.path _, ?_⟩
      intro k n hk hn
      have hsame : (backprop_expand A false d.path
          { table := st.table, qtable := st.qtable, v := A.of_reward g.reward }).table k
            = st.table k :=
        backprop_table_other A false d.path
          { table := st.table, qtable := st.qtable, v := A.of_reward g.reward } k (hkeys k hk)
      have hn1 : (backprop_expand A false d.path
        { table := st.table, qtable := st.qtable, v := A.of_reward g.reward }).table k
          = some n := hn
      rw [hsame, hk] at hn1
      exact Option.noConfusion hn1
    · subst hr
      refine ⟨backprop_qtable_off A d.path _, ?_⟩
      intro k n hk hn
      have hsame : (backprop_expand A false d.path
          { table := put st.table d.board.hash (new_node A false st.qtable d.board.hash moves)
            qtable := st.qtable, v := p.1 }).table k
            = put st.table d.board.hash (new_node A false st.qtable d.board.hash moves) k :=
        backprop_table_other A false d.path
          { table := put st.table d.board.hash (new_node A false st.qtable d.board.hash moves)
            qtable := st.qtable, v := p.1 } k (hkeys k hk)
      have hn1 : (backprop_expand A false d.path
        { table := put st.table d.board.hash (new_node A false st.qtable d.board.hash moves)
          qtable := st.qtable, v := p.1 }).table k = some n := hn
      rw [hsame] at hn1
      by_cases hkey : k = d.board.hash
      · simp only [put, if_pos hkey, Option.some.injEq] at hn1
        subst hn1
        exact ⟨rfl, rfl⟩
      · simp only [put, if_neg hkey] at hn1
        rw [hk] at hn1
        exact Option.noConfusion hn1
  · intro hq
    rw [hq] at hcase
    refine ⟨d, hd, ?_⟩
    intro k
    rcases hcase with ⟨_, g, _, hr⟩ | ⟨_, moves, p, _, _, hr⟩
    · subst hr
      exact backprop_qtable_on A d.path
        { table := st.table, qtable := st.qtable, v := A.of_reward g.reward } k
    · subst hr
      exact backprop_qtable_on A d.path
        { table := put st.table d.board.hash (new_node A true st.qtable d.board.hash moves)
          qtable := st.qtable, v := p.1 } k

/-- C19: a call of `simulate` that returns has walked a path `d.path` to a
leaf of value `v` (the reward of `evaluate_terminal` in the terminal branch,
the playout value in the expansion branch, where the new node is first put
into the table), and leaves the tables that result from crediting the frame
`k` steps above the deepest one with `v` negated `k` times, for
`k = 0, 1, ...` in this order; it returns `v` negated once per frame.  Both
branches perform this same update. -/
theorem simulate_backprop {F D R : Type} (A : Arith F D R) (fuel : Nat) (Z : Zobrist)
    (st : MCTS F R) (b : Board) (r : MCTS F R × F) (h : simulate A fuel Z st b = some r) :
    ∃ d v T,
      descend A Z st.table fuel b [] st.rng = some d ∧
      ((d.terminal = true ∧ T = st.table ∧
          ∃ g, evaluate_terminal fuel Z d.board = some g ∧ v = A.of_reward g.reward) ∨
        (d.terminal = false ∧
          ∃ moves p, generate_legal_moves fuel Z d.board = some moves ∧
            playout A fuel Z 192 d.board d.rng = some p ∧ v = p.1 ∧
            T = put st.table d.board.hash
              (new_node A st.persistent_q st.qtable d.board.hash moves))) ∧
      r.1.table = (credit_path A st.persistent_q v d.path.reverse 0 (T, st.qtable)).1 ∧
      r.1.qtable = (credit_path A st.persistent_q v d.path.reverse 0 (T, st.qtable)).2 ∧
      r.2 = A.neg^[d.path.length] v := by
  obtain ⟨d, hd, hcase⟩ := simulate_shape A fuel Z st b r h
  rcases hcase with ⟨ht, g, hg, hr⟩ | ⟨ht, moves, p, hm, hp, hr⟩
  · refine ⟨d, A.of_reward g.reward, st.table, hd, Or.inl ⟨ht, rfl, g, hg, rfl⟩, ?_⟩
    subst hr
    rw [backprop_terminal_eq_expand, backprop_expand_credit]
    exact ⟨rfl, rfl, rfl⟩
  · refine ⟨d, p.1, _, hd, Or.inr ⟨ht, moves, p, hm, hp, rfl, rfl⟩, ?_⟩
    subst hr
    rw [backprop_expand_credit]
    exact ⟨rfl, rfl, rfl⟩

/-- C15, witness: with a budget of one millisecond, no simulations asked for
and a clock that has passed the deadline at its first reading, the loop ends at
once, and the search returns the first of the most visited opening moves of
`voted_node`. -/
theorem search_best_move_most_visited_witness :
    ∃ i, i < voted_node.moves.length ∧
      search_best_move fixedArith 8 1 sampleKeys ten_ms voted_search (startpos sampleKeys) 0 1200
        = some (voted_node.moves.getD i null_move, voted_search) ∧
      (∀ j, j < voted_node.moves.length →
        voted_node.child_visits.getD j 0 ≤ voted_node.child_visits.getD i 0) ∧
      (∀ j, j < i → voted_node.child_visits.getD j 0 < voted_node.child_visits.getD i 0) :=
  search_best_move_most_visited fixedArith 8 1 sampleKeys ten_ms voted_search
    (startpos sampleKeys) 0 1200 { st := voted_search, i := 0, tick := 2 } voted_node rfl
    (by simp [voted_search, put]) (by decide)

theorem three_runs_root :
    (three_runs.bind (fun s => (s.1.table (knight_duel sampleKeys).hash).map
      (fun n => (n.visits, n.child_visits, s.2 (knight_duel sampleKeys).hash))))
      = some (9, [2], 7) := by
  decide!

/-- C17, witness: three calls of `simulate` on `knight_duel`, with a Q-table
that holds a count of `7` for it: the node of `knight_duel` ends with
`visits = 9`, one child counter `2` and the seeded count `7`. -/
theorem simulate_visit_counts_witness :
    ∃ s n, three_runs = some s ∧ s.1.table (knight_duel sampleKeys).hash = some n ∧
      n.visits = 9 ∧ n.child_visits = [2] ∧ s.2 (knight_duel sampleKeys).hash = 7 ∧
      n.child_visits.length = n.moves.length ∧
      (n.moves.length ≤ SIZE_MAX →
        n.visits % 4294967296 =
          (s.2 (knight_duel sampleKeys).hash + n.child_visits.sum) % 4294967296) := by
  have h2 := three_runs_root
  cases hs : three_runs with
  | none => rw [hs] at h2; exact Option.noConfusion h2
  | some s =>
    rw [hs] at h2
    simp only [Option.some_bind] at h2
    cases hn : s.1.table (knight_duel sampleKeys).hash with
    | none => rw [hn] at h2; exact Option.noConfusion h2
    | some n =>
      rw [hn] at h2
      simp only [Option.map_some', Option.some.injEq, Prod.mk.injEq] at h2
      obtain ⟨h3, h4, h5⟩ := h2
      have hthm := simulate_visit_counts fixedArith 8 sampleKeys
        [knight_duel sampleKeys, knight_duel sampleKeys, knight_duel sampleKeys]
        loaded_search s (fun _ => rfl) hs (knight_duel sampleKeys).hash n hn
      exact ⟨s, n, rfl, hn, h3, h4, h5, hthm.1, hthm.2⟩

theorem plain_run_root :
    ((simulate fixedArith 8 sampleKeys (enable_persistent_q loaded_search false)
        (knight_duel sampleKeys)).bind
      (fun r => r.1.table (knight_duel sampleKeys).hash)).isSome = true := by
  decide!

/-- C18, witness: with persistence off, a call of `simulate` on `knight_duel`
expands the node of `knight_duel` with `visits = 0` and `value_sum = 0`
although the Q-table holds `(0.5, 7)` for it, and leaves the Q-table as it
was. -/
theorem simulate_persistent_q_witness :
    ∃ r n, simulate fixedArith 8 sampleKeys (enable_persistent_q loaded_search false)
        (knight_duel sampleKeys) = some r ∧
      loaded_search.qtable (knight_duel sampleKeys).hash = some (500, 7) ∧
      r.1.qtable = loaded_search.qtable ∧
      r.1.table (knight_duel sampleKeys).hash = some n ∧ n.visits = 0 ∧ n.value_sum = 0 := by
  have h2 := plain_run_root
  cases hr : simulate fixedArith 8 sampleKeys (enable_persistent_q loaded_search false)
      (knight_duel sampleKeys) with
  | none => rw [hr] at h2; exact Bool.noConfusion h2
  | some r =>
    rw [hr] at h2
    simp only [Option.some_bind] at h2
    cases hn : r.1.table (knight_duel sampleKeys).hash with
    | none => rw [hn] at h2; exact Bool.noConfusion h2
    | some n =>
      have hthm := (simulate_persistent_q fixedArith 8 sampleKeys
        (enable_persistent_q loaded_search false) (knight_duel sampleKeys) r hr).1 rfl
      have hnode := hthm.2 (knight_duel sampleKeys).hash n rfl hn
      exact ⟨r, n, rfl, by simp [loaded_search, put], hthm.1, hn, hnode.1, hnode.2⟩

theorem second_run_path :
    (descend fixedArith sampleKeys expanded_search.table 8 (knight_duel sampleKeys) []
      expanded_search.rng).map (fun d => d.path) = some [((knight_duel sampleKeys).hash, 0)] := by
  decide!

theorem second_run_value :
    (simulate fixedArith 8 sampleKeys expanded_search (knight_duel sampleKeys)).map
      (fun r => r.2) = some (-1000) := by
  decide!

/-- C19, witness: the second call of `simulate` on `knight_duel` walks the
one-frame path from the node of `knight_duel` to the mated position, credits
that frame with the leaf value and returns the negated value `-1`. -/
theorem simulate_backprop_witness :
    ∃ r d v T,
      simulate fixedArith 8 sampleKeys expanded_search (knight_duel sampleKeys) = some r ∧
      descend fixedArith sampleKeys expanded_search.table 8 (knight_duel sampleKeys) []
        expanded_search.rng = some d ∧
      d.path = [((knight_duel sampleKeys).hash, 0)] ∧
      r.1.table = (credit_path fixedArith expanded_search.persistent_q v d.path.reverse 0
        (T, expanded_search.qtable)).1 ∧
      r.2 = fixedArith.neg^[d.path.length] v ∧ r.2 = -1000 := by
  have h1 := second_run_value
  have h2 := second_run_path
  cases hr : simulate fixedArith 8 sampleKeys expanded_search (knight_duel sampleKeys) with
  | none => rw [hr] at h1; exact Option.noConfusion h1
  | some r =>
    rw [hr] at h1
    simp only [Option.map_some', Option.some.injEq] at h1
    obtain ⟨d, v, T, hd, _, ht, _, hv⟩ := simulate_backprop fixedArith 8 sampleKeys
      expanded_search (knight_duel sampleKeys) r hr
    rw [hd] at h2
    simp only [Option.map_some', Option.some.injEq] at h2
    exact ⟨r, d, v, T, rfl, hd, h2, ht, hv, h1⟩

/-! ## C21: the piece index -/

/-- C21 (code defect): the table `PIECE_INDEX` sends the white pawn and the
black king to the same index `0` and uses the index `6` for no piece; so on
every board and for every key table, a white pawn and a black king on the same
square contribute the same key, and the two boards have the same hash. -/
theorem piece_index_collision :
    [WP, WN, WB, WR, WQ, WK, BP, BN, BB, BR, BQ, BK].map (fun p => PIECE_INDEX (p + 6))
      = [0, 7, 8, 9, 10, 11, 5, 4, 3, 2, 1, 0] ∧
    WP ≠ BK ∧ PIECE_INDEX (WP + 6) = PIECE_INDEX (BK + 6) ∧
    ∀ (Z : Zobrist) (b : Board) (sq : Int), 0 ≤ sq → sq < 64 →
      (update_hash Z { b with squares := setSq b.squares sq WP }).hash
        = (update_hash Z { b with squares := setSq b.squares sq BK }).hash := by
  refine ⟨by decide, by decide, by decide, ?_⟩
  intro Z b sq h0 h1
  show hash_fold Z { b with squares := setSq b.squares sq WP }
    = hash_fold Z { b with squares := setSq b.squares sq BK }
  rw [hash_fold_eq, hash_fold_eq]
  simp only
  rw [squares_fold_set Z b.squares sq WP h0 h1, squares_fold_set Z b.squares sq BK h0 h1]
  have hk : sq_key Z WP sq = sq_key Z BK sq := rfl
  rw [hk]

/-! ## C22: the halfmove clock and terminal positions -/

theorem ray_loop_congr (b c : Board) (h : b.squares = c.squares) (by_white : Bool)
    (k1 k2 dr df : Int) :
    ∀ (fuel : Nat) (r rr ff : Int),
      ray_loop b by_white k1 k2 dr df fuel r rr ff = ray_loop c by_white k1 k2 dr df fuel r rr ff := by
  intro fuel
  induction fuel with
  | zero => intro r rr ff; rfl
  | succ n ih =>
    intro r rr ff
    unfold ray_loop
    rw [h, ih]

theorem ray_scan_congr (b c : Board) (h : b.squares = c.squares) (by_white : Bool)
    (k1 k2 : Int) (fuel : Nat) (f : Int) :
    ∀ (dirs : List (Int × Int)) (r : Int),
      ray_scan b by_white k1 k2 fuel f dirs r = ray_scan c by_white k1 k2 fuel f dirs r := by
  intro dirs
  induction dirs with
  | nil => intro r; rfl
  | cons d rest ih =>
    intro r
    unfold ray_scan
    rw [ray_loop_congr b c h]
    cases ray_loop c by_white k1 k2 d.1 d.2 fuel r (r + d.1) (f + d.2) with
    | none => rfl
    | some x =>
      cases x with
      | mk t r1 =>
        cases t with
        | true => rfl
        | false => exact ih r1

/-- The attack test reads nothing of the board but its squares. -/
theorem is_square_attacked_congr (b c : Board) (h : b.squares = c.squares) (fuel : Nat)
    (sq : Int) (by_white : Bool) :
    is_square_attacked fuel b sq by_white = is_square_attacked fuel c sq by_white := by
  unfold is_square_attacked pawn_scan offset_scan
  simp only [h, ray_scan_congr b c h]

theorem in_check_congr (b c : Board) (h : b.squares = c.squares) (fuel : Nat)
    (for_white : Bool) : in_check fuel b for_white = in_check fuel c for_white := by
  unfold in_check find_king
  simp only [h, is_square_attacked_congr b c h]

theorem add_if_legal_clock (fuel : Nat) (Z : Zobrist) (b : Board) (h : Nat) :
    add_if_legal fuel Z { b with halfmove_clock := h } = add_if_legal fuel Z b := by
  funext from_ to_ promo flags moves
  unfold add_if_legal
  simp only
  rw [in_check_congr
    (make_move Z { b with halfmove_clock := h } ⟨from_, to_, promo, flags⟩).board
    (make_move Z b ⟨from_, to_, promo, flags⟩).board rfl]
  rfl

theorem gen_ray_clock (fuel : Nat) (Z : Zobrist) (b : Board) (h : Nat) (p : Piece) (sq : Int)
    (dr df : Int) :
    ∀ (n : Nat) (rr ff : Int) (moves : List Move),
      gen_ray fuel Z { b with halfmove_clock := h } p sq dr df n rr ff moves
        = gen_ray fuel Z b p sq dr df n rr ff moves := by
  intro n
  induction n with
  | zero => intro rr ff moves; rfl
  | succ n ih =>
    intro rr ff moves
    unfold gen_ray
    simp only [add_if_legal_clock, ih]

theorem gen_square_clock (fuel : Nat) (Z : Zobrist) (b : Board) (h : Nat) :
    gen_square fuel Z { b with halfmove_clock := h } = gen_square fuel Z b := by
  funext moves sqn
  have hc : ∀ fw, in_check fuel { b with halfmove_clock := h } fw = in_check fuel b fw :=
    fun fw => in_check_congr { b with halfmove_clock := h } b rfl fuel fw
  have ha : ∀ sq w, is_square_attacked fuel { b with halfmove_clock := h } sq w
      = is_square_attacked fuel b sq w := fun sq w =>
      is_square_attacked_congr { b with halfmove_clock := h } b rfl fuel sq w
  unfold gen_square gen_pawn pawn_pushes pawn_capture add_promotions gen_step gen_slider
    gen_castling gen_castle castle_allowed
  simp only [add_if_legal_clock, gen_ray_clock, hc, ha]

/-- The generator reads nothing of the halfmove clock. -/
theorem generate_clock (fuel : Nat) (Z : Zobrist) (b : Board) (h : Nat) :
    generate_legal_moves fuel Z { b with halfmove_clock := h } = generate_legal_moves fuel Z b := by
  unfold generate_legal_moves
  rw [gen_square_clock]

/-- C22: `evaluate_terminal` gives the same result on two boards that differ
only in `halfmove_clock`; on a board on which the generator returns at least
one move it returns reward `0` with `terminal = false` whatever the clock; and
it only returns `terminal = true` where the generator returns no move.  The
50-move clock never makes a position terminal. -/
theorem evaluate_terminal_ignores_clock (fuel : Nat) (Z : Zobrist) (b : Board) (h : Nat) :
    evaluate_terminal fuel Z { b with halfmove_clock := h } = evaluate_terminal fuel Z b ∧
    (∀ moves, generate_legal_moves fuel Z b = some moves → moves ≠ [] →
      evaluate_terminal fuel Z { b with halfmove_clock := h }
        = some { reward := 0, terminal := false }) ∧
    (∀ g, evaluate_terminal fuel Z { b with halfmove_clock := h } = some g → g.terminal = true →
      generate_legal_moves fuel Z b = some []) := by
  have hc : in_check fuel { b with halfmove_clock := h } b.white_to_move
      = in_check fuel b b.white_to_move :=
    in_check_congr { b with halfmove_clock := h } b rfl fuel b.white_to_move
  have heq : evaluate_terminal fuel Z { b with halfmove_clock := h }
      = evaluate_terminal fuel Z b := by
    unfold evaluate_terminal
    rw [generate_clock]
    simp only [hc, ite_self]
  refine ⟨heq, ?_, ?_⟩
  · intro moves hgen hne
    rw [heq]
    unfold evaluate_terminal
    rw [hgen]
    cases moves with
    | nil => exact absurd rfl hne
    | cons m ms => rfl
  · intro g hg ht
    rw [heq] at hg
    unfold evaluate_terminal at hg
    cases hgen : generate_legal_moves fuel Z b with
    | none => rw [hgen] at hg; exact Option.noConfusion hg
    | some moves =>
      rw [hgen] at hg
      cases moves with
      | nil => rfl
      | cons m ms =>
        simp only [List.isEmpty_cons, Bool.not_false, if_true, Option.some.injEq] at hg
        rw [← hg] at ht
        exact Bool.noConfusion ht

/-- C22, witness: with white king h1 and pawns g2 h2 h3 the generator returns
four moves, and with the clock at `100` the position is not terminal. -/
theorem evaluate_terminal_ignores_clock_witness :
    generate_legal_moves 8 zeroKeys (cornered_king zeroKeys) =
      some [quiet 7 6, quiet 14 22, quiet 14 30, quiet 23 31] ∧
    evaluate_terminal 8 zeroKeys { cornered_king zeroKeys with halfmove_clock := 100 }
      = some { reward := 0, terminal := false } :=
  ⟨generate_cornered_king,
    (evaluate_terminal_ignores_clock 8 zeroKeys (cornered_king zeroKeys) 100).2.1 _
      generate_cornered_king (by decide)⟩

/-! ## C23: termination of the attack test -/

/-- C23 (code defect): on the board with only the white king e1 and the black
king e8, `is_square_attacked(e1, black)` does not terminate, and so neither
does `in_check(white)`: the first diagonal ray probes f2, g2, h2 along the
second rank, not the diagonal, and leaves `r = 3` instead of the rank `0`
computed at entry; after the four diagonal rays the ray `(1,0)` starts on the
empty square e2 and its body changes neither `rr` nor `ff`. -/
theorem is_square_attacked_bare_kings (Z : Zobrist) (fuel : Nat) :
    is_square_attacked fuel (bare_kings Z) 4 false = none ∧
    in_check fuel (bare_kings Z) true = none ∧
    ray_loop (bare_kings Z) false 3 5 1 1 8 (rank_of 4) (rank_of 4 + 1) (file_of 4 + 1)
      = some (false, 3) := by
  have h : is_square_attacked fuel (bare_kings Z) 4 false = none :=
    is_square_attacked_stuck (bare_kings Z) 4 false 8 0 rfl rfl rfl rfl rfl fuel
  refine ⟨h, ?_, rfl⟩
  have hk : find_king (bare_kings Z) WK = 4 := rfl
  unfold in_check
  simp only [if_true, hk, Bool.not_true]
  exact h

/-! ## C24: castling rights and the pieces behind them -/

theorem en_passant_step_squares (Z : Zobrist) (m : Move) (moving : Piece) (w : Work) (x : Int)
    (h : m.flags &&& 2 ≠ 0 →
      x ≠ idx (rank_of m.to_ + (if is_white moving then -1 else 1)) (file_of m.to_)) :
    (en_passant_step Z m moving w).squares x = w.squares x := by
  unfold en_passant_step
  by_cases hf : m.flags &&& 2 ≠ 0
  · rw [if_pos hf]
    have hx := h hf
    simp only
    generalize idx (rank_of m.to_ + (if is_white moving then -1 else 1)) (file_of m.to_) = cap
      at hx ⊢
    by_cases hv : w.squares cap ≠ EMPTY
    · rw [if_pos hv]
      exact setSq_other _ _ _ _ hx
    · rw [if_neg hv]
  · rw [if_neg hf]

theorem castle_rook_squares (Z : Zobrist) (moving : Piece) (w : Work) (ff ft : Int) (x : Int)
    (h1 : x ≠ idx (if is_white moving then 0 else 7) ff)
    (h2 : x ≠ idx (if is_white moving then 0 else 7) ft) :
    (castle_rook Z moving w ff ft).squares x = w.squares x := by
  unfold castle_rook
  simp only
  rw [setSq_other _ _ _ _ h1, setSq_other _ _ _ _ h2]

theorem castle_step_squares (Z : Zobrist) (m : Move) (moving : Piece) (w : Work) (x : Int)
    (h : abs_piece moving = 6 → m.flags &&& 1 ≠ 0 →
      x ≠ idx (if is_white moving then 0 else 7) 7 ∧ x ≠ idx (if is_white moving then 0 else 7) 5 ∧
      x ≠ idx (if is_white moving then 0 else 7) 0 ∧ x ≠ idx (if is_white moving then 0 else 7) 3) :
    (castle_step Z m moving w).squares x = w.squares x := by
  unfold castle_step
  by_cases hc : abs_piece moving = 6 ∧ m.flags &&& 1 ≠ 0
  · rw [if_pos hc]
    obtain ⟨h7, h5, h0, h3⟩ := h hc.1 hc.2
    split
    · exact castle_rook_squares Z moving w 7 5 x h7 h5
    · split
      · exact castle_rook_squares Z moving w 0 3 x h0 h3
      · rfl
  · rw [if_neg hc]

theorem promotion_step_squares (m : Move) (w : Work) (x : Int) (h : x ≠ m.to_) :
    (promotion_step m w).squares x = w.squares x := by
  unfold promotion_step
  split
  · exact setSq_other _ _ _ _ h
  · rfl

/-- The squares `make_move` leaves alone: every square other than `from`,
`to`, the square of the en-passant victim and the two squares of a castling
rook. -/
theorem make_move_squares_frame (Z : Zobrist) (b : Board) (m : Move) (x : Int)
    (hf : x ≠ m.from_) (ht : x ≠ m.to_)
    (hep : m.flags &&& 2 ≠ 0 → x ≠ ep_victim_square b m)
    (hcas : abs_piece (b.squares m.from_) = 6 → m.flags &&& 1 ≠ 0 →
      x ≠ idx (if is_white (b.squares m.from_) then 0 else 7) 7 ∧
      x ≠ idx (if is_white (b.squares m.from_) then 0 else 7) 5 ∧
      x ≠ idx (if is_white (b.squares m.from_) then 0 else 7) 0 ∧
      x ≠ idx (if is_white (b.squares m.from_) then 0 else 7) 3) :
    (make_move Z b m).board.squares x = b.squares x := by
  show (make_move_work Z b m).squares x = b.squares x
  show (promotion_step m (castle_step Z m (b.squares m.from_)
    (en_passant_step Z m (b.squares m.from_)
      { squares := move_piece b m, hash := hash_out Z b m,
        captured_out := b.squares m.to_ }))).squares x = b.squares x
  rw [promotion_step_squares _ _ _ ht, castle_step_squares _ _ _ _ _ hcas,
    en_passant_step_squares _ _ _ _ _ hep]
  show move_piece b m x = b.squares x
  unfold move_piece
  rw [setSq_other _ _ _ _ hf, setSq_other _ _ _ _ ht]

theorem king_cases (p : Int) (h : abs_piece p = 6) : p = WK ∨ p = BK := by
  have hp : p = 6 ∨ p = -6 := by
    unfold abs_piece at h
    split at h <;> omega
  rcases hp with h1 | h1
  · exact Or.inl h1
  · exact Or.inr h1

theorem ite_testBit_false (c : Prop) [Decidable c] (k i : Nat) (hk : k.testBit i = true)
    (h : (if c then k else 0).testBit i = false) : ¬ c := by
  intro hc
  rw [if_pos hc, hk] at h
  exact Bool.noConfusion h

/-- What a castling right that survives `make_move` says about the move. -/
theorem cleared_rights_survive (b : Board) (m : Move) :
    ((cleared_rights b m).testBit 0 = false →
      b.squares m.from_ ≠ WK ∧ m.from_ ≠ 7 ∧ m.to_ ≠ 7) ∧
    ((cleared_rights b m).testBit 1 = false →
      b.squares m.from_ ≠ WK ∧ m.from_ ≠ 0 ∧ m.to_ ≠ 0) ∧
    ((cleared_rights b m).testBit 2 = false →
      b.squares m.from_ ≠ BK ∧ m.from_ ≠ 63 ∧ m.to_ ≠ 63) ∧
    ((cleared_rights b m).testBit 3 = false →
      b.squares m.from_ ≠ BK ∧ m.from_ ≠ 56 ∧ m.to_ ≠ 56) := by
  unfold cleared_rights
  simp only [Nat.testBit_lor, Bool.or_eq_false_iff]
  refine ⟨?_, ?_, ?_, ?_⟩
  · rintro ⟨⟨⟨⟨⟨h1, -⟩, -⟩, h4⟩, -⟩, -⟩
    have a := ite_testBit_false _ _ 0 (by decide) h1
    have c := ite_testBit_false _ _ 0 (by decide) h4
    exact ⟨a, fun h => c (Or.inl h), fun h => c (Or.inr h)⟩
  · rintro ⟨⟨⟨⟨⟨h1, -⟩, h3⟩, -⟩, -⟩, -⟩
    have a := ite_testBit_false _ _ 1 (by decide) h1
    have c := ite_testBit_false _ _ 1 (by decide) h3
    exact ⟨a, fun h => c (Or.inl h), fun h => c (Or.inr h)⟩
  · rintro ⟨⟨⟨⟨⟨-, h2⟩, -⟩, -⟩, -⟩, h6⟩
    have a := ite_testBit_false _ _ 2 (by decide) h2
    have c := ite_testBit_false _ _ 2 (by decide) h6
    exact ⟨a, fun h => c (Or.inl h), fun h => c (Or.inr h)⟩
  · rintro ⟨⟨⟨⟨⟨-, h2⟩, -⟩, -⟩, h5⟩, -⟩
    have a := ite_testBit_false _ _ 3 (by decide) h2
    have c := ite_testBit_false _ _ 3 (by decide) h5
    exact ⟨a, fun h => c (Or.inl h), fun h => c (Or.inr h)⟩

/-- One castling right stays backed by its king and rook over `make_move`. -/
theorem right_backed_make_move (Z : Zobrist) (b : Board) (m : Move)
    (hcr : b.castling_rights < 256) (i : Nat) (K : Piece) (ksq : Int) (R : Piece) (rsq : Int)
    (hback : right_backed b i K ksq R rsq) (hK : abs_piece K = 6) (hR : abs_piece R = 4)
    (hclr : (cleared_rights b m).testBit i = false →
      b.squares m.from_ ≠ K ∧ m.from_ ≠ rsq ∧ m.to_ ≠ rsq)
    (hhome : ∀ p : Int, p = WK ∨ p = BK → p ≠ K → ∀ x, x = ksq ∨ x = rsq →
      x ≠ idx (if is_white p then 0 else 7) 7 ∧ x ≠ idx (if is_white p then 0 else 7) 5 ∧
      x ≠ idx (if is_white p then 0 else 7) 0 ∧ x ≠ idx (if is_white p then 0 else 7) 3)
    (hking : abs_piece (b.squares m.to_) ≠ 6)
    (hep : m.flags &&& 2 ≠ 0 → abs_piece (b.squares (ep_victim_square b m)) = 1) :
    right_backed (make_move Z b m).board i K ksq R rsq := by
  intro hbit
  have hbit1 : (update_rights b m).testBit i = true := hbit
  rw [update_rights_testBit b m hcr i] at hbit1
  simp only [Bool.and_eq_true, Bool.not_eq_true'] at hbit1
  obtain ⟨hset, hcl⟩ := hbit1
  obtain ⟨hk, hr⟩ := hback hset
  obtain ⟨hmov, hfr, htr⟩ := hclr hcl
  have hcas : ∀ x, x = ksq ∨ x = rsq →
      abs_piece (b.squares m.from_) = 6 → m.flags &&& 1 ≠ 0 →
      x ≠ idx (if is_white (b.squares m.from_) then 0 else 7) 7 ∧
      x ≠ idx (if is_white (b.squares m.from_) then 0 else 7) 5 ∧
      x ≠ idx (if is_white (b.squares m.from_) then 0 else 7) 0 ∧
      x ≠ idx (if is_white (b.squares m.from_) then 0 else 7) 3 :=
    fun x hx h6 _ => hhome _ (king_cases _ h6) hmov x hx
  constructor
  · rw [make_move_squares_frame Z b m ksq ?_ ?_ ?_ (hcas ksq (Or.inl rfl))]
    · exact hk
    · intro h; rw [h] at hk; exact hmov hk
    · intro h; rw [h] at hk; rw [hk] at hking; exact hking hK
    · intro hf h
      have := hep hf
      rw [← h, hk, hK] at this
      exact absurd this (by decide)
  · rw [make_move_squares_frame Z b m rsq ?_ ?_ ?_ (hcas rsq (Or.inr rfl))]
    · exact hr
    · exact fun h => hfr h.symm
    · exact fun h => htr h.symm
    · intro hf h
      have := hep hf
      rw [← h, hr, hR] at this
      exact absurd this (by decide)

/-- The castle branch of `make_move` for a king move with the castle flag
only: the piece `R` of the square `corner` (h- or a-file of the mover's home
rank) lands on the square `target` (f- or d-file), and `corner` is left
empty. -/
theorem castle_relocates (Z : Zobrist) (b : Board) (m : Move) (R : Piece) (corner target : Int)
    (hflags : m.flags = 1) (hking : abs_piece (b.squares m.from_) = 6)
    (hsq : (file_of m.to_ = 6 ∧ corner = idx (if is_white (b.squares m.from_) then 0 else 7) 7 ∧
        target = idx (if is_white (b.squares m.from_) then 0 else 7) 5) ∨
      (file_of m.to_ = 2 ∧ corner = idx (if is_white (b.squares m.from_) then 0 else 7) 0 ∧
        target = idx (if is_white (b.squares m.from_) then 0 else 7) 3))
    (hne : target ≠ corner) (hrook : b.squares corner = R) (hfrom : m.from_ ≠ corner)
    (hto : m.to_ ≠ corner) :
    (make_move Z b m).board.squares target = R ∧
    (make_move Z b m).board.squares corner = EMPTY := by
  have hw : move_piece b m corner = R := by
    unfold move_piece
    rw [setSq_other _ _ _ _ (Ne.symm hfrom), setSq_other _ _ _ _ (Ne.symm hto)]
    exact hrook
  have h1 : m.flags &&& 1 ≠ 0 := by rw [hflags]; decide
  have h2 : ¬ m.flags &&& 2 ≠ 0 := by rw [hflags]; decide
  have h4 : ¬ m.flags &&& 4 ≠ 0 := by rw [hflags]; decide
  show (promotion_step m (castle_step Z m (b.squares m.from_)
    (en_passant_step Z m (b.squares m.from_)
      { squares := move_piece b m, hash := hash_out Z b m,
        captured_out := b.squares m.to_ }))).squares target = R ∧
    (promotion_step m (castle_step Z m (b.squares m.from_)
    (en_passant_step Z m (b.squares m.from_)
      { squares := move_piece b m, hash := hash_out Z b m,
        captured_out := b.squares m.to_ }))).squares corner = EMPTY
  unfold promotion_step en_passant_step castle_step
  rw [if_neg h4, if_neg h2, if_pos ⟨hking, h1⟩]
  rcases hsq with ⟨hf, hc, ht⟩ | ⟨hf, hc, ht⟩
  · rw [if_pos hf]
    unfold castle_rook
    simp only
    rw [← hc, ← ht]
    exact ⟨by rw [setSq_other _ _ _ _ hne, setSq_same]; exact hw, setSq_same _ _ _⟩
  · have hf6 : ¬ file_of m.to_ = 6 := by rw [hf]; decide
    rw [if_neg hf6, if_pos hf]
    unfold castle_rook
    simp only
    rw [← hc, ← ht]
    exact ⟨by rw [setSq_other _ _ _ _ hne, setSq_same]; exact hw, setSq_same _ _ _⟩

theorem home_squares_white (p : Int) (hp : p = WK ∨ p = BK) (hne : p ≠ WK) (x : Int)
    (hx : x = 4 ∨ x = 7 ∨ x = 0) :
    x ≠ idx (if is_white p then 0 else 7) 7 ∧ x ≠ idx (if is_white p then 0 else 7) 5 ∧
    x ≠ idx (if is_white p then 0 else 7) 0 ∧ x ≠ idx (if is_white p then 0 else 7) 3 := by
  rcases hp with rfl | rfl
  · exact absurd rfl hne
  · rcases hx with rfl | rfl | rfl <;> decide

theorem home_squares_black (p : Int) (hp : p = WK ∨ p = BK) (hne : p ≠ BK) (x : Int)
    (hx : x = 60 ∨ x = 63 ∨ x = 56) :
    x ≠ idx (if is_white p then 0 else 7) 7 ∧ x ≠ idx (if is_white p then 0 else 7) 5 ∧
    x ≠ idx (if is_white p then 0 else 7) 0 ∧ x ≠ idx (if is_white p then 0 else 7) 3 := by
  rcases hp with rfl | rfl
  · rcases hx with rfl | rfl | rfl <;> decide
  · exact absurd rfl hne

/-- C24, amended: castling-right consistency (every set castling-right bit
has its king on e1 / e8 and its rook on its home corner) is kept by
`make_move(m)` for every board with a `uint8_t` rights mask and every move `m`
that does not capture a king and whose en-passant flag, if set, removes a
pawn.  Hence on a consistent board a castling move as the generator emits it
under a set right (castle flag only, the king going to g1, c1, g8 or c8) moves
the rook of that corner to f1, d1, f8 or d8. -/
theorem make_move_castling_consistent (Z : Zobrist) (b : Board) (m : Move)
    (hcr : b.castling_rights < 256) (hcons : castling_consistent b)
    (hking : abs_piece (b.squares m.to_) ≠ 6)
    (hep : m.flags &&& 2 ≠ 0 → abs_piece (b.squares (ep_victim_square b m)) = 1) :
    castling_consistent (make_move Z b m).board ∧
    (m.flags = 1 → b.squares m.from_ = WK → m.to_ = 6 → b.castling_rights.testBit 0 = true →
      (make_move Z b m).board.squares 5 = WR ∧ (make_move Z b m).board.squares 7 = EMPTY) ∧
    (m.flags = 1 → b.squares m.from_ = WK → m.to_ = 2 → b.castling_rights.testBit 1 = true →
      (make_move Z b m).board.squares 3 = WR ∧ (make_move Z b m).board.squares 0 = EMPTY) ∧
    (m.flags = 1 → b.squares m.from_ = BK → m.to_ = 62 → b.castling_rights.testBit 2 = true →
      (make_move Z b m).board.squares 61 = BR ∧ (make_move Z b m).board.squares 63 = EMPTY) ∧
    (m.flags = 1 → b.squares m.from_ = BK → m.to_ = 58 → b.castling_rights.testBit 3 = true →
      (make_move Z b m).board.squares 59 = BR ∧ (make_move Z b m).board.squares 56 = EMPTY) := by
  obtain ⟨c0, c1, c2, c3⟩ := hcons
  have hs := cleared_rights_survive b m
  refine ⟨⟨?_, ?_, ?_, ?_⟩, ?_, ?_, ?_, ?_⟩
  · exact right_backed_make_move Z b m hcr 0 WK 4 WR 7 c0 (by decide) (by decide) hs.1
      (fun p hp hne x hx => home_squares_white p hp hne x
        (hx.elim Or.inl (fun h => Or.inr (Or.inl h)))) hking hep
  · exact right_backed_make_move Z b m hcr 1 WK 4 WR 0 c1 (by decide) (by decide) hs.2.1
      (fun p hp hne x hx => home_squares_white p hp hne x
        (hx.elim Or.inl (fun h => Or.inr (Or.inr h)))) hking hep
  · exact right_backed_make_move Z b m hcr 2 BK 60 BR 63 c2 (by decide) (by decide) hs.2.2.1
      (fun p hp hne x hx => home_squares_black p hp hne x
        (hx.elim Or.inl (fun h => Or.inr (Or.inl h)))) hking hep
  · exact right_backed_make_move Z b m hcr 3 BK 60 BR 56 c3 (by decide) (by decide) hs.2.2.2
      (fun p hp hne x hx => home_squares_black p hp hne x
        (hx.elim Or.inl (fun h => Or.inr (Or.inr h)))) hking hep
  · intro hfl hk hto hbit
    obtain ⟨_, hr⟩ := c0 hbit
    have hfile : file_of m.to_ = 6 := by rw [hto]; decide
    exact castle_relocates Z b m WR 7 5 hfl (by rw [hk]; decide)
      (Or.inl ⟨hfile, by rw [hk]; decide, by rw [hk]; decide⟩) (by decide) hr
      (fun h => by rw [h, hr] at hk; exact absurd hk (by decide)) (by rw [hto]; decide)
  · intro hfl hk hto hbit
    obtain ⟨_, hr⟩ := c1 hbit
    have hfile : file_of m.to_ = 2 := by rw [hto]; decide
    exact castle_relocates Z b m WR 0 3 hfl (by rw [hk]; decide)
      (Or.inr ⟨hfile, by rw [hk]; decide, by rw [hk]; decide⟩) (by decide) hr
      (fun h => by rw [h, hr] at hk; exact absurd hk (by decide)) (by rw [hto]; decide)
  · intro hfl hk hto hbit
    obtain ⟨_, hr⟩ := c2 hbit
    have hfile : file_of m.to_ = 6 := by rw [hto]; decide
    exact castle_relocates Z b m BR 63 61 hfl (by rw [hk]; decide)
      (Or.inl ⟨hfile, by rw [hk]; decide, by rw [hk]; decide⟩) (by decide) hr
      (fun h => by rw [h, hr] at hk; exact absurd hk (by decide)) (by rw [hto]; decide)
  · intro hfl hk hto hbit
    obtain ⟨_, hr⟩ := c3 hbit
    have hfile : file_of m.to_ = 2 := by rw [hto]; decide
    exact castle_relocates Z b m BR 56 59 hfl (by rw [hk]; decide)
      (Or.inr ⟨hfile, by rw [hk]; decide, by rw [hk]; decide⟩) (by decide) hr
      (fun h => by rw [h, hr] at hk; exact absurd hk (by decide)) (by rw [hto]; decide)

theorem rooks_and_kings_consistent : castling_consistent (rooks_and_kings zeroKeys) := by
  unfold castling_consistent right_backed
  decide

theorem pawn_on_g1_consistent : castling_consistent (pawn_on_g1 zeroKeys) := by
  unfold castling_consistent right_backed
  decide

theorem generate_pawn_on_g1 :
    generate_legal_moves 8 zeroKeys (pawn_on_g1 zeroKeys) =
      some [quiet 4 3, quiet 4 5, quiet 6 14, g1h2, quiet 7 15, quiet 7 23, quiet 7 31,
        quiet 7 39, quiet 7 47, quiet 7 55, quiet 7 63, quiet 19 27, quiet 20 28, quiet 21 29] := by
  decide!

/-- C24, counterexample: on a consistent board with white king e1, rook h1,
the king-side right, a white pawn on g1 and the en-passant square h2, the
generator emits the en-passant capture `g1xh2`; it is a pawn of the side to
move capturing onto the empty en-passant square, no king is captured, and
`make_move` removes the rook from h1 while the king-side right stays set. -/
theorem ep_capture_removes_rook :
    castling_consistent (pawn_on_g1 zeroKeys) ∧
    (∃ ms, generate_legal_moves 8 zeroKeys (pawn_on_g1 zeroKeys) = some ms ∧ g1h2 ∈ ms) ∧
    (pawn_on_g1 zeroKeys).white_to_move = true ∧
    (pawn_on_g1 zeroKeys).squares g1h2.from_ = WP ∧
    g1h2.to_ = (pawn_on_g1 zeroKeys).ep_square ∧
    (pawn_on_g1 zeroKeys).squares g1h2.to_ = EMPTY ∧
    (make_move zeroKeys (pawn_on_g1 zeroKeys) g1h2).captured_out = WR ∧
    (make_move zeroKeys (pawn_on_g1 zeroKeys) g1h2).board.castling_rights = 1 ∧
    (make_move zeroKeys (pawn_on_g1 zeroKeys) g1h2).board.squares 7 = EMPTY ∧
    ¬ castling_consistent (make_move zeroKeys (pawn_on_g1 zeroKeys) g1h2).board := by
  refine ⟨pawn_on_g1_consistent, ⟨_, generate_pawn_on_g1, by decide⟩, by decide, by decide,
    by decide, by decide, by decide, by decide, by decide, ?_⟩
  intro h
  have h7 := (h.1 (by decide)).2
  exact absurd h7 (by decide)

/-- C24, witness: the initial position is consistent, and the amended
statement applied to the capture Ra1xa8 in `r3k2r/8/8/8/8/8/8/R3K2R`, which
leaves the rights `5` (white king-side, black king-side). -/
theorem make_move_castling_consistent_witness :
    castling_consistent (startpos zeroKeys) ∧
    castling_consistent (rooks_and_kings zeroKeys) ∧
    (make_move zeroKeys (rooks_and_kings zeroKeys) (quiet 0 56)).board.castling_rights = 5 ∧
    castling_consistent (make_move zeroKeys (rooks_and_kings zeroKeys) (quiet 0 56)).board :=
  ⟨by unfold castling_consistent right_backed; decide, rooks_and_kings_consistent, by decide,
    (make_move_castling_consistent zeroKeys (rooks_and_kings zeroKeys) (quiet 0 56) (by decide)
      rooks_and_kings_consistent (by decide) (by decide)).1⟩

end SelfChess
